import Mathlib

/-!
A verification development for the term-trie core (`pl-trie.c` / `pl-trie.h`)
of the SWI-Prolog runtime.  The C data structures and operations are embedded
shallowly:

* trie nodes live in a finite map `Nat → Option NodeData` (`PL_malloc` /
  `PL_free` become insertion into / removal from this map);
* the children representation mirrors the C tagged union
  (`NULL` / `TN_KEY` / `TN_HASHED`), with the hash table as an association
  list whose iteration order models the (deterministic within one run)
  table-enumeration order;
* compare-and-swap publication always succeeds, which is exact for the
  single-threaded executions the claims quantify over;
* the Prolog global stack is a finite list of cells (`List Cell`), so terms
  may be cyclic and variables can be rewritten in place exactly as
  `trie_lookup` does;
* atom/record reference counting (`acquire_key`, `release_key`,
  `release_value`, `PL_register_atom`, …) manages host memory that is out of
  scope here; these calls are no-ops in the model.

Function names follow the C source.
-/

set_option maxRecDepth 8000

namespace TrieModel

/-- One trie key token: an edge label of the trie.  Mirrors the `word` keys
used in `pl-trie.c`: a functor word (`TAG_ATOM|STG_GLOBAL`, carrying name and
arity), a variable-ordinal word (`TAG_VAR` with a nonzero ordinal), the
reserved `TRIE_KEY_POP` and `TRIE_ERROR_VAL` sentinels, an inline atomic
value, or an interned indirect surrogate. -/
inductive Key where
  | functor (f ar : Nat)
  | avar (i : Nat)
  | pop
  | cst (w : Nat)
  | indirect (i : Nat)
  | errv
deriving DecidableEq, Repr

/-- A value stored at a node: either an inline word (atom / tagged integer)
or a recorded blob (`PL_record`).  Recorded blobs are represented by their
structural content, so `variantRecords` is content equality. -/
inductive TrieVal where
  | small (w : Nat)
  | rcd (c : Nat)
deriving DecidableEq, Repr

/-- `equal_value` from pl-trie.c: equal words, or two records that are
variants of each other. -/
def equal_value : TrieVal → TrieVal → Bool
  | .small a, .small b => a == b
  | .rcd a, .rcd b => a == b
  | _, _ => false

/-- The children representation of a node: `NULL`, a single key
(`trie_children_key`), or a hashed table (`trie_children_hashed`).  An empty
association list models a hash table of size 0, which is distinct from the
`NULL` representation. -/
inductive Children where
  | empty
  | single (k : Key) (c : Nat)
  | hashed (tbl : List (Key × Nat))
deriving DecidableEq, Repr

/-- One `trie_node`: value word (0 = none), key word, parent back pointer,
children representation. -/
structure NodeData where
  value : Option TrieVal
  key : Key
  parent : Option Nat
  children : Children
deriving DecidableEq, Repr

/-- The `trie` record.  `nodes` is the set of allocated node records
(node 0 is the root embedded in the trie struct), `next` the allocator
cursor, `indirects` the lazily created indirect table (its entries are the
interned oversized words), `pool` the optional allocation pool as
(size, limit) measured in nodes. -/
structure TrieSt where
  nodes : Nat → Option NodeData
  next : Nat
  node_count : Nat
  value_count : Nat
  indirects : Option (List Nat)
  pool : Option (Nat × Nat)

/-- Pointwise map update (used instead of `Function.update` for transparent
kernel reduction). -/
def updf (f : Nat → Option NodeData) (a : Nat) (v : Option NodeData) :
    Nat → Option NodeData :=
  fun x => if x = a then v else f x

/-- Overwrite the record of an (existing) node. -/
def TrieSt.setNode (st : TrieSt) (n : Nat) (d : NodeData) : TrieSt :=
  { st with nodes := updf st.nodes n (some d) }

/-- Remove a node record (`PL_free` of a `trie_node`). -/
def TrieSt.dropNode (st : TrieSt) (n : Nat) : TrieSt :=
  { st with nodes := updf st.nodes n none }

/-- A freshly created trie (`trie_create`): just the root node, all counters
zero, no indirect table, no allocation pool. -/
def emptyTrie : TrieSt :=
  { nodes := fun n => if n = 0 then some ⟨none, .cst 0, none, .empty⟩ else none
    next := 1
    node_count := 0
    value_count := 0
    indirects := none
    pool := none }

/-- Association-list lookup, modelling `lookupHTable`. -/
def assocFind (tbl : List (Key × Nat)) (k : Key) : Option Nat :=
  match tbl with
  | [] => none
  | (k', c) :: r => if k' = k then some c else assocFind r k

/-- `get_child`: read the children representation of `n` and look up `k`. -/
def get_child (st : TrieSt) (n : Nat) (k : Key) : Option Nat :=
  match st.nodes n with
  | none => none
  | some nd =>
    match nd.children with
    | .empty => none
    | .single k' c => if k' = k then some c else none
    | .hashed tbl => assocFind tbl k

/-- `new_trie_node`: charge the allocation pool (failing with a resource
error, i.e. `none`, if the limit would be exceeded), allocate a fresh zeroed
node with the given key, and bump `node_count`. -/
def new_trie_node (st : TrieSt) (k : Key) : Option (TrieSt × Nat) :=
  match st.pool with
  | some (sz, lim) =>
    if sz + 1 ≤ lim then
      some ({ st with
                nodes := updf st.nodes st.next (some ⟨none, k, none, .empty⟩)
                next := st.next + 1
                node_count := st.node_count + 1
                pool := some (sz + 1, lim) }, st.next)
    else none
  | none =>
    some ({ st with
              nodes := updf st.nodes st.next (some ⟨none, k, none, .empty⟩)
              next := st.next + 1
              node_count := st.node_count + 1 }, st.next)

/-- Release one node of allocation-pool charge (`ATOMIC_SUB` on the pool). -/
def poolRelease : Option (Nat × Nat) → Option (Nat × Nat)
  | some (sz, lim) => some (sz - 1, lim)
  | none => none

/-- `clear_node` from pl-trie.c, fuel-bounded.  Faithful to the source: the
key/value releases are refcount operations (no-ops here), and the block that
deallocates the node (`ATOMIC_DEC(node_count)`, pool release, `PL_free`) is
executed only inside the branch taken when the children representation was
non-`NULL` and was successfully swapped out — a node whose children word is
`NULL` is never deallocated by this function. -/
def clear_node : Nat → TrieSt → Nat → Bool → TrieSt
  | 0, st, _, _ => st
  | f + 1, st, n, dealloc =>
    match st.nodes n with
    | none => st
    | some nd =>
      match nd.children with
      | .empty => st
      | .single _ c =>
        let st1 := st.setNode n { nd with children := .empty }
        let st2 :=
          if dealloc then
            { st1.dropNode n with
                node_count := st1.node_count - 1
                pool := poolRelease st1.pool }
          else st1
        clear_node f st2 c true
      | .hashed tbl =>
        let st1 := st.setNode n { nd with children := .empty }
        let st2 :=
          if dealloc then
            { st1.dropNode n with
                node_count := st1.node_count - 1
                pool := poolRelease st1.pool }
          else st1
        tbl.foldl (fun s e => clear_node f s e.2 true) st2

/-- `destroy_node`: `clear_node` with deallocation requested.  The fuel
`node_count + 1` dominates the depth of any subtree of a well-formed trie. -/
def destroy_node (st : TrieSt) (n : Nat) : TrieSt :=
  clear_node (st.node_count + 1) st n true

/-- `insert_child`.  The retry loop collapses because CAS always succeeds in
the single-threaded model.  Note the `TN_KEY` matching-key branch: exactly as
in the source, it returns the existing child while the speculatively
allocated node stays allocated (and counted). -/
def insert_child (st : TrieSt) (n : Nat) (k : Key) : Option (TrieSt × Nat) :=
  match new_trie_node st k with
  | none => none
  | some (st1, nw) =>
    match st1.nodes n with
    | none => none
    | some nd =>
      match nd.children with
      | .empty =>
        let st2 := st1.setNode n { nd with children := .single k nw }
        match st2.nodes nw with
        | some nwd => some (st2.setNode nw { nwd with parent := some n }, nw)
        | none => none
      | .single k' c =>
        if k' = k then
          some (st1, c)
        else
          let st2 := st1.setNode n { nd with children := .hashed [(k', c), (k, nw)] }
          match st2.nodes nw with
          | some nwd => some (st2.setNode nw { nwd with parent := some n }, nw)
          | none => none
      | .hashed tbl =>
        match assocFind tbl k with
        | some old => some (destroy_node st1 nw, old)
        | none =>
          let st2 := st1.setNode n { nd with children := .hashed (tbl ++ [(k, nw)]) }
          match st2.nodes nw with
          | some nwd => some (st2.setNode nw { nwd with parent := some n }, nw)
          | none => none

/-- `follow_node`: get the child, creating it when `add` is set.  Returns the
possibly updated trie and the reached node (`none` models both a lookup miss
and a resource error). -/
def follow_node (st : TrieSt) (n : Nat) (k : Key) (add : Bool) :
    TrieSt × Option Nat :=
  match get_child st n k with
  | some c => (st, some c)
  | none =>
    if add then
      match insert_child st n k with
      | some (st1, c) => (st1, some c)
      | none => (st, none)
    else (st, none)

/-- `prune_node`, fuel-bounded along the parent chain.  Each iteration
detaches `n` from its parent's children representation (freeing the `TN_KEY`
wrapper, or `deleteHTable` on the hash table keyed by `n`'s key), destroys
`n`, and continues upward while the parent's representation became empty. -/
def prune_node : Nat → TrieSt → Nat → TrieSt
  | 0, st, _ => st
  | f + 1, st, n =>
    match st.nodes n with
    | none => st
    | some nd =>
      match nd.parent with
      | none => st
      | some p =>
        match st.nodes p with
        | none => st
        | some pd =>
          let det : TrieSt × Bool :=
            match pd.children with
            | .empty => (st, true)
            | .single _ _ => (st.setNode p { pd with children := .empty }, true)
            | .hashed tbl =>
              let tbl1 := tbl.filter (fun e => ¬ e.1 = nd.key)
              (st.setNode p { pd with children := .hashed tbl1 }, tbl1.isEmpty)
          let st2 := destroy_node det.1 n
          if det.2 then prune_node f st2 p else st2

/-- `trie_delete`: only acts on a node that holds a value; either prunes the
branch or just clears the value, then decrements `value_count`. -/
def trie_delete (st : TrieSt) (n : Nat) (prune : Bool) : TrieSt :=
  match st.nodes n with
  | none => st
  | some nd =>
    match nd.value with
    | none => st
    | some _ =>
      let st1 :=
        if prune then prune_node (st.node_count + 1) st n
        else st.setNode n { nd with value := none }
      { st1 with value_count := st1.value_count - 1 }

/-- Outcome of the value-association step of `trie_insert`. -/
inductive InsOutcome where
  | ok
  | dupFalse
  | conflict
deriving DecidableEq, Repr

/-- The value-association core of `trie_insert` (pl-trie.c:1032-1058), after
`trie_lookup` has returned `node`: with `update` set, a structurally
different existing value is replaced (releasing the old one) and an equal one
is kept; without `update`, a structurally different existing value raises a
permission error leaving the old value, and an equal one makes the predicate
fail; a node without a value receives the value and `value_count` grows. -/
def trie_insert_value (st : TrieSt) (n : Nat) (val : TrieVal) (update : Bool) :
    TrieSt × InsOutcome :=
  match st.nodes n with
  | none => (st, .conflict)
  | some nd =>
    match nd.value with
    | some old =>
      if update then
        if ¬ equal_value old val then
          (st.setNode n { nd with value := some val }, .ok)
        else (st, .ok)
      else
        if ¬ equal_value old val then (st, .conflict)
        else (st, .dupFalse)
    | none =>
      let st1 := st.setNode n { nd with value := some val }
      ({ st1 with value_count := st1.value_count + 1 }, .ok)

/-! ### Example states used by witnesses and counterexamples -/

/-- A trie whose root has the single child 1 under key `cst 5`. -/
def exSingle : TrieSt :=
  { nodes := fun n =>
      if n = 0 then some ⟨none, .cst 0, none, .single (.cst 5) 1⟩
      else if n = 1 then some ⟨none, .cst 5, some 0, .empty⟩
      else none
    next := 2, node_count := 1, value_count := 0, indirects := none, pool := none }

/-- A trie with one valued leaf: root −(cst 5)→ 1, node 1 holding `small 9`. -/
def exValued : TrieSt :=
  { nodes := fun n =>
      if n = 0 then some ⟨none, .cst 0, none, .single (.cst 5) 1⟩
      else if n = 1 then some ⟨some (.small 9), .cst 5, some 0, .empty⟩
      else none
    next := 2, node_count := 1, value_count := 1, indirects := none, pool := none }

/-- A chain trie with a *valued internal* node: root −(cst 1)→ 1 (value
`small 7`) −(cst 2)→ 2 (value `small 8`). -/
def exValuedAncestor : TrieSt :=
  { nodes := fun n =>
      if n = 0 then some ⟨none, .cst 0, none, .single (.cst 1) 1⟩
      else if n = 1 then some ⟨some (.small 7), .cst 1, some 0, .single (.cst 2) 2⟩
      else if n = 2 then some ⟨some (.small 8), .cst 2, some 1, .empty⟩
      else none
    next := 3, node_count := 2, value_count := 2, indirects := none, pool := none }

/-- Root with a hashed table of two valued leaves (keys `cst 1`, `cst 2`). -/
def exBranch : TrieSt :=
  { nodes := fun n =>
      if n = 0 then some ⟨none, .cst 0, none, .hashed [(.cst 1, 1), (.cst 2, 2)]⟩
      else if n = 1 then some ⟨some (.small 7), .cst 1, some 0, .empty⟩
      else if n = 2 then some ⟨some (.small 8), .cst 2, some 0, .empty⟩
      else none
    next := 3, node_count := 2, value_count := 2, indirects := none, pool := none }

/-! ### Prune-chain description used to characterise `prune_node` -/

/-- `PruneChain st x l S lk` describes the parent chain of `x`: the ancestors
in `l` (bottom-up) each use the single-child representation and point, with
the right key, at the node below them; the chain ends at `S`, and `lk` is the
key of the topmost chain node (the one that is `S`'s child). -/
def PruneChain (st : TrieSt) : Nat → List Nat → Nat → Key → Prop
  | x, [], S, lk => ∃ xd, st.nodes x = some xd ∧ xd.parent = some S ∧ xd.key = lk
  | x, p :: rest, S, lk =>
    ∃ xd pd, st.nodes x = some xd ∧ xd.parent = some p ∧
      st.nodes p = some pd ∧ pd.children = .single xd.key x ∧
      PruneChain st p rest S lk

/-- The topmost node of a prune chain. -/
def lastNode : Nat → List Nat → Nat
  | x, [] => x
  | _, p :: rest => lastNode p rest

/-- How `prune_node` rewrites the children representation of the node at
which it stops: a single-child representation is swapped to `NULL`, a hashed
table loses the entry with the pruned key. -/
def pruneStopChildren : Children → Key → Children
  | .single _ _, _ => .empty
  | .hashed tbl, lk => .hashed (tbl.filter (fun e => ¬ e.1 = lk))
  | .empty, _ => .empty

/-! ### The Prolog global stack: heaps of cells

Terms live on a heap so that cyclic structures exist and so that
`trie_lookup` can rewrite variable cells in place, exactly as the C code
does.  A cell is one `word`: an unbound variable (`isVar`), a rewritten
variable marker (`TAG_VAR` with a nonzero ordinal, as produced by
`trie_lookup`), an attributed variable (`TAG_ATTVAR`), a reference
(`TAG_REF`, followed by `deRef`), an inline atomic value, an oversized
indirect value, or a compound whose `ar` arguments sit at consecutive
addresses `args, args+1, …`. -/

inductive Cell where
  | unbound
  | mark (i : Nat)
  | att
  | ref (a : Nat)
  | cst (w : Nat)
  | big (w : Nat)
  | fnc (f : Nat) (ar : Nat) (args : Nat)
deriving DecidableEq, Repr

/-- Read a heap cell (out-of-range reads yield an inert constant). -/
def hget (h : List Cell) (a : Nat) : Cell := h.getD a (.cst 0)

/-- Fuel-bounded reference chasing. -/
def derefN : Nat → List Cell → Nat → Nat
  | 0, _, a => a
  | f + 1, h, a =>
    match hget h a with
    | .ref b => derefN f h b
    | _ => a

/-- `deRef`: follow reference cells to the end of the chain.  A heap of `n`
cells has reference chains of length at most `n` unless they are cyclic
(which a well-formed Prolog stack never is). -/
def derefA (h : List Cell) (a : Nat) : Nat := derefN h.length h a

/-- Modelled from the spec: `is_acyclic` (defined in pl-prims.c, which is not
under src/) decides whether the term graph reachable from an address is
acyclic; "the value is checked for acyclicity".  This executable version
carries the path of compound addresses already entered and reports a cycle
when it returns to one of them; the fuel `h.length + 1` dominates the length
of any duplicate-free path. -/
def acyV : Nat → List Cell → Nat → List Nat → Bool
  | 0, _, _, _ => false
  | f + 1, h, a, vis =>
    let d := derefA h a
    match hget h d with
    | .fnc _ ar b =>
      if d ∈ vis then false
      else (List.range ar).all (fun i => acyV f h (b + i) (d :: vis))
    | _ => true

/-- See `acyV`. -/
def is_acyclic (h : List Cell) (a : Nat) : Bool := acyV (h.length + 1) h a []

/-- Modelled from the spec: the indirect table collaborator
(`intern_indirect` in pl-indirect.c, not under src/): "intern(table, value,
insert) -> Token?  (returns a surrogate token, or null on lookup-miss when
insert=false)" with structural dedup.  Tokens are indices into the list of
interned values. -/
def idxOf : List Nat → Nat → Option Nat
  | [], _ => none
  | a :: r, w => if a = w then some 0 else (idxOf r w).map (· + 1)

/-- See `idxOf`; returns the (possibly grown) table and the token. -/
def intern_indirect (tab : List Nat) (w : Nat) (add : Bool) : List Nat × Option Nat :=
  match idxOf tab w with
  | some i => (tab, some i)
  | none => if add then (tab ++ [w], some tab.length) else (tab, none)

/-- `trie_intern_indirect`: create the indirect table if the trie has none
yet (this happens regardless of `add`, as in the source), then intern. -/
def trie_intern_indirect (st : TrieSt) (w : Nat) (add : Bool) :
    TrieSt × Option Nat :=
  let tab := st.indirects.getD []
  let r := intern_indirect tab w add
  ({ st with indirects := some r.1 }, r.2)

/-- `prune_error`: add a `TRIE_ERROR_VAL` child below the current node and
prune from there, so that a failed insert removes the partially built
path. -/
def prune_error (st : TrieSt) (n : Nat) : TrieSt :=
  match follow_node st n .errv true with
  | (st1, some e) => prune_node (st1.node_count + 1) st1 e
  | (st1, none) => st1

/-- One item of the depth-first term agenda.  Modelled from the spec (the
agenda lives in pl-termwalk.c with `AC_TERM_WALK_POP`, not under src/): a
compound schedules its arguments followed by a pop marker that closes the
subtree. -/
inductive WItem where
  | ad (a : Nat)
  | pop
deriving DecidableEq, Repr

/-- The `rc` status of a `trie_lookup` walk. -/
inductive RC where
  | ok
  | attvar
  | cyclic
deriving DecidableEq, Repr

/-- The full state of one `trie_lookup` walk: heap, agenda, `var_number`,
`compounds`, trie, current node (`none` once the walk stopped), status. -/
structure WalkSt where
  h : List Cell
  ag : List WItem
  vn : Nat
  cps : Nat
  st : TrieSt
  node : Option Nat
  rc : RC

/-- One iteration of the `while(node)` loop of `trie_lookup`
(pl-trie.c:482-534). -/
def walk_step (add : Bool) (s : WalkSt) : WalkSt :=
  match s.node, s.ag with
  | some nd, .pop :: rest =>
    let r := follow_node s.st nd .pop add
    { s with ag := rest, st := r.1, node := r.2 }
  | some nd, .ad a :: rest =>
    let p := derefA s.h a
    match hget s.h p with
    | .unbound =>
      let i := s.vn + 1
      let r := follow_node s.st nd (.avar i) add
      { s with h := s.h.set p (.mark i), vn := i, ag := rest,
               st := r.1, node := r.2 }
    | .mark i =>
      let r := follow_node s.st nd (.avar i) add
      { s with ag := rest, st := r.1, node := r.2 }
    | .att =>
      { s with rc := .attvar, st := prune_error s.st nd, node := none,
               ag := rest }
    | .ref _ =>
      { s with node := none, ag := rest }
    | .fnc f ar b =>
      if add ∧ s.cps + 1 = 1000 ∧ ¬ is_acyclic s.h p then
        { s with rc := .cyclic, st := prune_error s.st nd, node := none,
                 ag := rest, cps := s.cps + 1 }
      else
        let r := follow_node s.st nd (.functor f ar) add
        { s with ag := (List.range ar).map (fun i => .ad (b + i)) ++ .pop :: rest,
                 st := r.1, node := r.2,
                 cps := if add then s.cps + 1 else s.cps }
    | .cst w =>
      let r := follow_node s.st nd (.cst w) add
      { s with ag := rest, st := r.1, node := r.2 }
    | .big w =>
      let t := trie_intern_indirect s.st w add
      match t.2 with
      | some i =>
        let r := follow_node t.1 nd (.indirect i) add
        { s with ag := rest, st := r.1, node := r.2 }
      | none => { s with st := t.1, node := none, ag := rest }
  | _, _ => s

/-- The fuel-bounded `while(node)` loop: stops when the node became `NULL`
or the agenda is exhausted; `none` when the fuel ran out first. -/
def walk_run : Nat → Bool → WalkSt → Option WalkSt
  | 0, _, s => if s.node = none ∨ s.ag = [] then some s else none
  | f + 1, add, s =>
    if s.node = none ∨ s.ag = [] then some s
    else walk_run f add (walk_step add s)

/-- The loop of `clear_vars`: walk the term (plain agenda, no pop markers),
resetting every rewritten variable marker back to unbound, stopping early
once `var_number` of them have been reset. -/
def clear_vars_run : Nat → List Cell → List Nat → Nat → Option (List Cell)
  | 0, _, _, _ => none
  | f + 1, h, ag, vn =>
    if vn = 0 then some h
    else
      match ag with
      | [] => some h
      | a :: rest =>
        let p := derefA h a
        match hget h p with
        | .mark _ => clear_vars_run f (h.set p .unbound) rest (vn - 1)
        | .fnc _ ar b =>
          clear_vars_run f h ((List.range ar).map (fun i => b + i) ++ rest) vn
        | _ => clear_vars_run f h rest vn

/-- `clear_vars`: nothing to do when no variable was rewritten. -/
def clear_vars (f : Nat) (h : List Cell) (k : Nat) (vn : Nat) :
    Option (List Cell) :=
  if vn = 0 then some h else clear_vars_run f h [k] vn

/-- The outcome of `trie_lookup`: `TRUE` with a node, `FALSE` (lookup miss),
or one of the two distinguished error codes
(`TRIE_LOOKUP_CONTAINS_ATTVAR`, `TRIE_LOOKUP_CYCLIC`). -/
inductive LRes where
  | ok (n : Nat)
  | notFound
  | attvar
  | cyclic
deriving DecidableEq, Repr

/-- `trie_lookup` (pl-trie.c:473-546): run the walk from the root over the
term at address `k`, then `clear_vars`, then translate (`rc`, `node`) into
the result.  Returns `none` only if the fuel ran out (the C loop would still
be running). -/
def trie_lookup (fuel : Nat) (st : TrieSt) (h : List Cell) (k : Nat)
    (add : Bool) : Option (LRes × TrieSt × List Cell) :=
  match walk_run fuel add ⟨h, [.ad k], 0, 0, st, some 0, .ok⟩ with
  | none => none
  | some s =>
    match clear_vars fuel s.h k s.vn with
    | none => none
    | some h2 =>
      some (match s.rc with
        | .ok =>
          match s.node with
          | some n => .ok n
          | none => .notFound
        | .attvar => .attvar
        | .cyclic => .cyclic, s.st, h2)

/-- A heap holding a single inline atomic term. -/
def heapAtom : List Cell := [.cst 5]

/-- A heap holding a single attributed variable. -/
def heapAtt : List Cell := [.att]

/-- The cyclic term `X = f(X)`: cell 0 is the compound, its only argument
refers back to cell 0. -/
def heapCyc : List Cell := [.fnc 7 1 1, .ref 0]

/-- The trie obtained by inserting the single-atom key of `heapAtom` into an
empty trie (`trie_lookup` with `add`). -/
def c2Inserted : TrieSt :=
  ((trie_lookup 10 emptyTrie heapAtom 0 true).getD (.notFound, emptyTrie, [])).2.1

/-- `c2Inserted` with the value `small 9` associated to the returned leaf. -/
def c2Valued : TrieSt := (trie_insert_value c2Inserted 1 (.small 9) false).1

/-- `c2Valued` after `trie_delete` of the leaf with pruning. -/
def c2Deleted : TrieSt := trie_delete c2Valued 1 true

/-! ### The walk of the cyclic term `X = f(X)` (claim C5)

Inserting `heapCyc` unwinds the cycle into a chain of `f/1` nodes until the
1000th compound triggers the acyclicity check. -/

/-- Node records after `k` chain insertions: nodes `1..k` form a single-child
chain of `f/1` edges below the root; node `k` is the current leaf. -/
def cycChainNodes (k : Nat) : Nat → Option NodeData := fun i =>
  if i = 0 then
    some ⟨none, .cst 0, none,
      if k = 0 then .empty else .single (.functor 7 1) 1⟩
  else if i < k then
    some ⟨none, .functor 7 1, some (i - 1), .single (.functor 7 1) (i + 1)⟩
  else if i = k ∧ 0 < k then
    some ⟨none, .functor 7 1, some (i - 1), .empty⟩
  else none

/-- The trie after `k` chain insertions. -/
def cycChainSt (k : Nat) : TrieSt :=
  { nodes := cycChainNodes k, next := k + 1, node_count := k, value_count := 0
    indirects := none, pool := none }

/-- The walk state after visiting `k` compounds of `heapCyc`. -/
def cycWalkSt (k : Nat) : WalkSt :=
  ⟨heapCyc, .ad 1 :: List.replicate k .pop, 0, k, cycChainSt k, some k, .ok⟩

/-- The trie right after `prune_error` has added the `TRIE_ERROR_VAL` node
(id 1000) below leaf 999. -/
def cycErrNodes : Nat → Option NodeData := fun i =>
  if i = 0 then some ⟨none, .cst 0, none, .single (.functor 7 1) 1⟩
  else if i < 999 then
    some ⟨none, .functor 7 1, some (i - 1), .single (.functor 7 1) (i + 1)⟩
  else if i = 999 then some ⟨none, .functor 7 1, some 998, .single .errv 1000⟩
  else if i = 1000 then some ⟨none, .errv, some 999, .empty⟩
  else none

/-- See `cycErrNodes`. -/
def cycErrTrie : TrieSt := ⟨cycErrNodes, 1001, 1000, 0, none, none⟩

/-- The final trie after the failed cyclic insert: every node detached
(children `NULL`) but still allocated — `node_count` stays 1000. -/
def cycPrunedNodes : Nat → Option NodeData := fun i =>
  if i = 0 then some ⟨none, .cst 0, none, .empty⟩
  else if i ≤ 999 then some ⟨none, .functor 7 1, some (i - 1), .empty⟩
  else if i = 1000 then some ⟨none, .errv, some 999, .empty⟩
  else none

/-- See `cycPrunedNodes`. -/
def cycFinalSt : TrieSt := ⟨cycPrunedNodes, 1001, 1000, 0, none, none⟩

/-- The walk state after the cyclic abort. -/
def cycErrWalk : WalkSt :=
  ⟨heapCyc, List.replicate 999 .pop, 0, 1000, cycFinalSt, none, .cyclic⟩

/-- `[k, k-1, …, 1]` — the ancestor chain that `prune_error` climbs. -/
def downFrom : Nat → List Nat
  | 0 => []
  | k + 1 => (k + 1) :: downFrom k

/-! ### Prolog terms as read from the heap (claims C1, C9) -/

mutual
/-- The abstract Prolog term denoted by a heap address: a (dereferenced,
unbound) variable identified by its cell address, an inline atomic, an
oversized ("indirect") value, or a compound. -/
inductive PTerm where
  | pvar (a : Nat)
  | patom (w : Nat)
  | pbig (w : Nat)
  | pcomp (f : Nat) (args : PTermL)
/-- Argument lists of compounds. -/
inductive PTermL where
  | nil
  | cons (t : PTerm) (ts : PTermL)
end

mutual
/-- The variable (cell) addresses occurring in a term. -/
def vaT : PTerm → List Nat
  | .pvar a => [a]
  | .patom _ => []
  | .pbig _ => []
  | .pcomp _ ts => vaL ts
/-- See `vaT`. -/
def vaL : PTermL → List Nat
  | .nil => []
  | .cons t ts => vaT t ++ vaL ts
end

/-- Number of arguments. -/
def lenL : PTermL → Nat
  | .nil => 0
  | .cons _ ts => lenL ts + 1

mutual
/-- `ReadsAs h a t`: the heap cell graph of `h` denotes, at address `a`, the
abstract term `t`.  Each rule first dereferences `a` (as every `deRef` site
of the walk does) and constrains the cell found at the end of the chain, so
derivations exist exactly for addresses whose reference chains terminate in
an unbound variable, an inline constant, an indirect value or a compound —
attributed variables and dangling references have no reading. -/
inductive ReadsAs : List Cell → Nat → PTerm → Prop where
  | var : ∀ (h : List Cell) (a : Nat),
      hget h (derefA h a) = .unbound → ReadsAs h a (.pvar (derefA h a))
  | atom : ∀ (h : List Cell) (a w : Nat),
      hget h (derefA h a) = .cst w → ReadsAs h a (.patom w)
  | big : ∀ (h : List Cell) (a w : Nat),
      hget h (derefA h a) = .big w → ReadsAs h a (.pbig w)
  | comp : ∀ (h : List Cell) (a f n b : Nat) (ts : PTermL),
      hget h (derefA h a) = .fnc f n b →
      ReadsArgs h n b ts → ReadsAs h a (.pcomp f ts)
/-- See `ReadsAs`: the `n` arguments stored consecutively from base `b`. -/
inductive ReadsArgs : List Cell → Nat → Nat → PTermL → Prop where
  | nil : ∀ (h : List Cell) (b : Nat), ReadsArgs h 0 b .nil
  | cons : ∀ (h : List Cell) (n b : Nat) (t : PTerm) (ts : PTermL),
      ReadsAs h b t → ReadsArgs h n (b + 1) ts →
      ReadsArgs h (n + 1) b (.cons t ts)
end

/-- Apply a list of variable rewrites (cell address, variable ordinal) to a
heap — the accumulated effect of the `*p = consInt(i)` mark writes of
`trie_lookup`. -/
def applyMarks (h : List Cell) (m : List (Nat × Nat)) : List Cell :=
  m.foldl (fun hh e => hh.set e.1 (.mark e.2)) h

/-- The invariant of the mark list accumulated by the walk over original
heap `h` and root term `t0`: every marked address was an in-range unbound
variable of `t0`, and no address is marked twice. -/
def MarksWF (h : List Cell) (t0 : PTerm) (m : List (Nat × Nat)) : Prop :=
  (∀ e ∈ m, hget h e.1 = Cell.unbound ∧ e.1 < h.length ∧ e.1 ∈ vaT t0) ∧
  (m.map Prod.fst).Nodup

/-- A pending item of the abstract agenda: an address together with the term
it reads as, or a pop marker. -/
inductive PendI where
  | tm (a : Nat) (t : PTerm)
  | pop

/-- Forget the terms: the concrete `WItem` agenda of a pending list. -/
def pendW : List PendI → List WItem
  | [] => []
  | .tm a _ :: r => .ad a :: pendW r
  | .pop :: r => .pop :: pendW r

/-- The pending items scheduled for the arguments of a compound. -/
def argsPend : Nat → PTermL → List PendI
  | _, .nil => []
  | b, .cons t ts => .tm b t :: argsPend (b + 1) ts

/-- As `argsPend`, for the plain (pop-free) agenda of `clear_vars`. -/
def argsPendC : Nat → PTermL → List (Nat × PTerm)
  | _, .nil => []
  | b, .cons t ts => (b, t) :: argsPendC (b + 1) ts

/-- A one-variable heap and the result of inserting it (claim C9's
witness input). -/
def c9r : LRes × TrieSt × List Cell :=
  (trie_lookup 10 emptyTrie [Cell.unbound] 0 true).getD (.notFound, emptyTrie, [])

/-! ### The enumerator `trie_gen` (claim C7) -/

/-- A node's children pointer; missing nodes read as `NULL`. -/
def childrenOf (st : TrieSt) (n : Nat) : Children :=
  match st.nodes n with
  | some d => d.children
  | none => .empty

/-- A node's value (`node->value`; 0 encodes "none"). -/
def valueOf (st : TrieSt) (n : Nat) : Option TrieVal :=
  match st.nodes n with
  | some d => d.value
  | none => none

/-- One `trie_choice` frame: the current key and child, and — for a hashed
node — the remaining entries of its table enumerator; `isTable` records
whether `choice.table` is non-NULL. -/
structure ChoiceF where
  key : Key
  child : Nat
  iter : List (Key × Nat)
  isTable : Bool
deriving DecidableEq, Repr

/-- `add_choice` (pl-trie.c:1441-1473): build the choice frame for `node`'s
children: the single key, or a fresh table enumerator advanced past the
first entry.  For a node without children the frame is zeroed and its child
is the node itself. -/
def add_choice (st : TrieSt) (n : Nat) : ChoiceF :=
  match childrenOf st n with
  | .empty => { key := .cst 0, child := n, iter := [], isTable := false }
  | .single k c => { key := k, child := c, iter := [], isTable := false }
  | .hashed tbl =>
    match tbl with
    | [] => { key := .cst 0, child := n, iter := [], isTable := true }
    | (k, c) :: rest => { key := k, child := c, iter := rest, isTable := true }

/-- `descent_node` (pl-trie.c:1477-1483): keep pushing choice frames while
the current child has children; report whether the childless node reached
holds a value.  The stack grows at the head. -/
def descent_node : Nat → TrieSt → List ChoiceF → List ChoiceF × Bool
  | 0, _, stk => (stk, false)
  | f + 1, st, stk =>
    match stk with
    | [] => ([], false)
    | ch :: _ =>
      match childrenOf st ch.child with
      | .empty => (stk, (valueOf st ch.child).isSome)
      | _ => descent_node f st (add_choice st ch.child :: stk)

/-- `advance_node` (pl-trie.c:1487-1500): move a hashed frame to its next
table entry; single-key (and zeroed) frames cannot advance. -/
def advance_node (ch : ChoiceF) : Option ChoiceF :=
  if ch.isTable then
    match ch.iter with
    | (k, c) :: rest => some { ch with key := k, child := c, iter := rest }
    | [] => none
  else none

/-- `next_choice` (pl-trie.c:1504-1521): from the top frame down, try to
advance the frame and descend; a frame that cannot advance — or whose
descent ends on a valueless childless node — is popped together with
everything the failed descent pushed, and the search resumes one frame
below. -/
def next_choice (d : Nat) : Nat → TrieSt → List ChoiceF → Option (List ChoiceF)
  | 0, _, _ => none
  | f + 1, st, stk =>
    match stk with
    | [] => none
    | ch :: below =>
      match advance_node ch with
      | some ch2 =>
        match descent_node d st (ch2 :: below) with
        | (stk2, true) => some stk2
        | (_, false) => next_choice d f st below
      | none => next_choice d f st below

/-- The key path spelled by a choice stack (frames are read base to top, as
`unify_trie_path` does). -/
def preOf (stk : List ChoiceF) : List Key := (stk.map ChoiceF.key).reverse

/-- The main loop of `trie_gen` (pl-trie.c:1594-1648) run to exhaustion with
an unbound key and value: each iteration yields the path of the current
stack and the value of its leaf, then `next_choice` advances. -/
def gen_loop (c d : Nat) : Nat → TrieSt → List ChoiceF →
    List (List Key × TrieVal)
  | 0, _, _ => []
  | f + 1, st, stk =>
    match stk with
    | [] => []
    | ch :: _ =>
      (preOf stk, (valueOf st ch.child).getD (.small 0)) ::
        match next_choice d c st stk with
        | some stk2 => gen_loop c d f st stk2
        | none => []

/-- `trie_gen` (pl-trie.c:1552-1649), FIRST_CALL and the redo loop run to
exhaustion: nothing if the root has no children; otherwise seed the stack
with the root's choice frame, descend, and enumerate. -/
def trie_gen (c d f : Nat) (st : TrieSt) : List (List Key × TrieVal) :=
  match childrenOf st 0 with
  | .empty => []
  | _ =>
    match descent_node d st [add_choice st 0] with
    | (stk, true) => gen_loop c d f st stk
    | (stk, false) =>
      match next_choice d c st stk with
      | some stk2 => gen_loop c d f st stk2
      | none => []

/-- The stored pairs of the claim: the (path, value) pairs of all valued
childless nodes below `n`, in child-table order (depth first).  Fuel-bounded
spec function following the claim text. -/
def subLeaves : Nat → TrieSt → List Key → Nat → List (List Key × TrieVal)
  | 0, _, _, _ => []
  | g + 1, st, pre, n =>
    match childrenOf st n with
    | .empty =>
      match valueOf st n with
      | some v => [(pre, v)]
      | none => []
    | .single k c => subLeaves g st (pre ++ [k]) c
    | .hashed tbl =>
      (tbl.map (fun e => subLeaves g st (pre ++ [e.1]) e.2)).flatten

/-- Fuel-bounded well-formedness of a subtrie: depth below the fuel, hashed
tables nonempty, every dangling child absent, and — decisively for the
enumerator — every childless node valued. -/
def okSub : Nat → TrieSt → Nat → Bool
  | 0, _, _ => false
  | g + 1, st, n =>
    match childrenOf st n with
    | .empty => (valueOf st n).isSome
    | .single _ c => okSub g st c
    | .hashed tbl => !tbl.isEmpty && tbl.all (fun e => okSub g st e.2)

/-- The pairs still to be produced by the frames of a stack: the remaining
enumerator entries of every frame, each with the key path of the frames
below it. -/
def sibRem (g : Nat) (st : TrieSt) : List ChoiceF → List (List Key × TrieVal)
  | [] => []
  | ch :: below =>
    (ch.iter.map (fun e => subLeaves g st (preOf below ++ [e.1]) e.2)).flatten
      ++ sibRem g st below

/-- All pairs still to be produced from a stack positioned on a leaf: the
leaf itself, then the frame remainders. -/
def fullRem (g : Nat) (st : TrieSt) (stk : List ChoiceF) :
    List (List Key × TrieVal) :=
  match stk with
  | [] => []
  | ch :: _ => (preOf stk, (valueOf st ch.child).getD (.small 0)) ::
      sibRem g st stk

/-- The stack is positioned on a valued childless leaf. -/
def topLeaf (st : TrieSt) (stk : List ChoiceF) : Prop :=
  ∃ ch rest, stk = ch :: rest ∧ childrenOf st ch.child = .empty ∧
    (valueOf st ch.child).isSome = true

/-- Every frame's remaining enumerator entries lead to well-formed subtries;
the fuel grows towards the base of the stack (deeper frames have less
remaining depth). -/
def StkI (st : TrieSt) : Nat → List ChoiceF → Prop
  | _, [] => True
  | g, ch :: below =>
    (∀ e ∈ ch.iter, okSub g st e.2 = true) ∧
    (ch.isTable = false → ch.iter = []) ∧ StkI st (g + 1) below

/-- The counterexample trie of claim C7: root with three hashed children
`1 → A`(valued), `2 → S`, `3 → W`(valued); `S` has hashed children
`4 → L`(childless but valueless) and `5 → M`(valued). -/
def c7Trie : TrieSt :=
  { nodes := fun n =>
      if n = 0 then
        some ⟨none, .cst 0, none,
          .hashed [(.cst 1, 1), (.cst 2, 2), (.cst 3, 3)]⟩
      else if n = 1 then some ⟨some (.small 10), .cst 1, some 0, .empty⟩
      else if n = 2 then
        some ⟨none, .cst 2, some 0, .hashed [(.cst 4, 4), (.cst 5, 5)]⟩
      else if n = 3 then some ⟨some (.small 30), .cst 3, some 0, .empty⟩
      else if n = 4 then some ⟨none, .cst 4, some 2, .empty⟩
      else if n = 5 then some ⟨some (.small 20), .cst 5, some 2, .empty⟩
      else none
    next := 6, node_count := 5, value_count := 3
    indirects := none, pool := none }

/-- A well-formed two-leaf trie (every childless node valued), the witness
input for the amended C7 theorem: root hashed `1 → A`(valued),
`2 → B`(valued). -/
def c7Good : TrieSt :=
  { nodes := fun n =>
      if n = 0 then
        some ⟨none, .cst 0, none, .hashed [(.cst 1, 1), (.cst 2, 2)]⟩
      else if n = 1 then some ⟨some (.small 10), .cst 1, some 0, .empty⟩
      else if n = 2 then some ⟨some (.small 20), .cst 2, some 0, .empty⟩
      else none
    next := 3, node_count := 2, value_count := 2
    indirects := none, pool := none }

/-! ### Round trip: insert then rebuild (claim C1) -/

/-- The trie's indirect table (empty when not yet created). -/
def tabOf (st : TrieSt) : List Nat := st.indirects.getD []

/-- Well-formedness of a trie as maintained by the insert path: the root
exists and has no parent; every child edge leads to an existing node record
carrying the edge's key and a parent pointer back to the edge's source;
parent pointers decrease (children are always allocated after their
parents); ids at or beyond the allocation cursor are unused. -/
def WFT (st : TrieSt) : Prop :=
  (∃ d0, st.nodes 0 = some d0 ∧ d0.parent = none) ∧
  (∀ p k c, get_child st p k = some c →
    ∃ dc, st.nodes c = some dc ∧ dc.key = k ∧ dc.parent = some p) ∧
  (∀ x d p, st.nodes x = some d → d.parent = some p → p < x) ∧
  (∀ x, st.next ≤ x → st.nodes x = none)

/-- The key-collection loop of `unify_trie_term` (pl-trie.c:623-642): climb
the parent chain recording each node's key, bottom up. -/
def nodeKeys : Nat → TrieSt → Nat → List Key
  | 0, _, _ => []
  | f + 1, st, x =>
    match st.nodes x with
    | some d =>
      match d.parent with
      | some p => d.key :: nodeKeys f st p
      | none => []
    | none => []

mutual
/-- The key stream `trie_lookup` emits for a term (root to leaf): variables
as ordinals in first-occurrence order, oversized values as their token in
the (final) indirect table `T`, compounds as a functor key followed by the
argument streams and a pop key. -/
def encKsT (T : List Nat) : PTerm → List Nat → List Key × List Nat
  | .pvar a, vs =>
    match idxOf vs a with
    | some j => ([.avar (j + 1)], vs)
    | none => ([.avar (vs.length + 1)], vs ++ [a])
  | .patom w, vs => ([.cst w], vs)
  | .pbig w, vs => ([.indirect ((idxOf T w).getD 0)], vs)
  | .pcomp f ts, vs =>
    let r := encLT T ts vs
    (.functor f (lenL ts) :: r.1 ++ [.pop], r.2)
/-- See `encKsT`. -/
def encLT (T : List Nat) : PTermL → List Nat → List Key × List Nat
  | .nil, vs => ([], vs)
  | .cons t ts, vs =>
    let a := encKsT T t vs
    let b := encLT T ts a.2
    (a.1 ++ b.1, b.2)
end

mutual
/-- The canonical variant of a term: variables renamed to their ordinal in
first-occurrence order (depth first, left to right) — the precise sense in
which the rebuilt term equals the inserted one "up to consistent renaming
with sharing identity preserved". -/
def canT : PTerm → List Nat → PTerm × List Nat
  | .pvar a, vs =>
    match idxOf vs a with
    | some j => (.pvar (j + 1), vs)
    | none => (.pvar (vs.length + 1), vs ++ [a])
  | .patom w, vs => (.patom w, vs)
  | .pbig w, vs => (.pbig w, vs)
  | .pcomp f ts, vs =>
    let r := canL ts vs
    (.pcomp f r.1, r.2)
/-- See `canT`. -/
def canL : PTermL → List Nat → PTermL × List Nat
  | .nil, vs => (.nil, vs)
  | .cons t ts, vs =>
    let a := canT t vs
    let b := canL ts a.2
    (.cons a.1 b.1, b.2)
end

mutual
/-- Every oversized value of the term is interned in table `T`. -/
def tokOkT (T : List Nat) : PTerm → Bool
  | .pvar _ => true
  | .patom _ => true
  | .pbig w => (idxOf T w).isSome
  | .pcomp _ ts => tokOkL T ts
/-- See `tokOkT`. -/
def tokOkL (T : List Nat) : PTermL → Bool
  | .nil => true
  | .cons t ts => tokOkT T t && tokOkL T ts
end

/-- The key stream still to be emitted for a pending agenda. -/
def encPend (T : List Nat) : List PendI → List Nat → List Key
  | [], _ => []
  | .tm _ t :: r, vs => (encKsT T t vs).1 ++ encPend T r (encKsT T t vs).2
  | .pop :: r, vs => .pop :: encPend T r vs

/-- The final variable list after a pending agenda. -/
def encPendVs (T : List Nat) : List PendI → List Nat → List Nat
  | [], vs => vs
  | .tm _ t :: r, vs => encPendVs T r (encKsT T t vs).2
  | .pop :: r, vs => encPendVs T r vs

/-- The state of `unify_key` (`ukey_state` plus the global-stack extension
point): the heap being built, the current write location, the unification
mode (`false` = uread), the argument stack of saved (location, mode) pairs,
and the variable table (ordinal `i` lives at `vmap[i-1]`). -/
structure USt where
  h : List Cell
  ptr : Nat
  wr : Bool
  astk : List (Nat × Bool)
  vmap : List Nat
deriving Repr

/-- `unify_key` (pl-trie.c:1244-1390) against table `T` for indirect keys.
The attributed-variable target branch (`assignAttVar`, pl-attvar.c) and the
read-mode unification of an already-seen variable (`unify_ptrs`, pl-wam.c)
are outside src/ and modelled as failures — neither is reachable when the
target term is a fresh variable, the only way `unify_trie_term` is used
here.  A functor key in write mode allocates the compound cells at the top
of the heap and links the current location to them by reference. -/
def unify_key (T : List Nat) (u : USt) (k : Key) : Option USt :=
  match k with
  | .pop =>
    match u.astk with
    | (q, md) :: rest => some { u with ptr := q, wr := md, astk := rest }
    | [] => none
  | .errv => none
  | .functor f n =>
    let u1 : USt := { u with astk := (u.ptr + 1, u.wr) :: u.astk }
    if u.wr then
      some { u1 with
        h := (u.h.set u.ptr (.ref u.h.length)) ++
          Cell.fnc f n (u.h.length + 1) :: List.replicate n Cell.unbound
        ptr := u.h.length + 1 }
    else
      match hget u.h (derefA u.h u.ptr) with
      | .unbound =>
        some { u1 with
          wr := true
          h := (u.h.set (derefA u.h u.ptr) (.ref u.h.length)) ++
            Cell.fnc f n (u.h.length + 1) :: List.replicate n Cell.unbound
          ptr := u.h.length + 1 }
      | .fnc f2 n2 b =>
        if f2 = f ∧ n2 = n then some { u with ptr := b } else none
      | _ => none
  | .avar i =>
    if u.wr then
      if i - 1 < u.vmap.length then
        some { u with h := u.h.set u.ptr (.ref (u.vmap.getD (i - 1) 0)),
                      ptr := u.ptr + 1 }
      else
        some { u with h := u.h.set u.ptr .unbound,
                      vmap := u.vmap ++ [u.ptr], ptr := u.ptr + 1 }
    else
      if i - 1 < u.vmap.length then none
      else some { u with vmap := u.vmap ++ [u.ptr], ptr := u.ptr + 1 }
  | .cst w =>
    if u.wr then
      some { u with h := u.h.set u.ptr (.cst w), ptr := u.ptr + 1 }
    else
      match hget u.h (derefA u.h u.ptr) with
      | .unbound =>
        some { u with h := u.h.set (derefA u.h u.ptr) (.cst w),
                      ptr := u.ptr + 1 }
      | .cst w2 => if w2 = w then some { u with ptr := u.ptr + 1 } else none
      | _ => none
  | .indirect tok =>
    match T[tok]? with
    | none => none
    | some w =>
      if u.wr then
        some { u with h := u.h.set u.ptr (.big w), ptr := u.ptr + 1 }
      else
        match hget u.h (derefA u.h u.ptr) with
        | .unbound =>
          some { u with h := u.h.set (derefA u.h u.ptr) (.big w),
                        ptr := u.ptr + 1 }
        | .big w2 => if w2 = w then some { u with ptr := u.ptr + 1 } else none
        | _ => none

/-- Run `unify_key` over a key list. -/
def ukRun (T : List Nat) : List Key → USt → Option USt
  | [], u => some u
  | k :: ks, u =>
    match unify_key T u k with
    | some u2 => ukRun T ks u2
    | none => none

/-- `unify_trie_term` (pl-trie.c:613-673) against a fresh variable: collect
the keys up the parent chain, then replay them top-down through `unify_key`
starting from a one-cell heap holding an unbound variable in read mode. -/
def unify_trie_term_model (B : Nat) (st : TrieSt) (n : Nat) : Option USt :=
  ukRun (tabOf st) (nodeKeys B st n).reverse ⟨[.unbound], 0, false, [], []⟩

mutual
/-- `RdV h vm a t`: address `a` of heap `h` denotes the canonical term `t`,
where the variable of ordinal `i` is the unbound cell `vm[i-1]`.  Reference
cells are followed by an explicit rule. -/
inductive RdV : List Cell → List Nat → Nat → PTerm → Prop where
  | ref : ∀ (h : List Cell) (vm : List Nat) (a b : Nat) (t : PTerm),
      hget h a = .ref b → RdV h vm b t → RdV h vm a t
  | var : ∀ (h : List Cell) (vm : List Nat) (a i : Nat),
      hget h a = .unbound → vm[i - 1]? = some a → 1 ≤ i →
      RdV h vm a (.pvar i)
  | atom : ∀ (h : List Cell) (vm : List Nat) (a w : Nat),
      hget h a = .cst w → RdV h vm a (.patom w)
  | big : ∀ (h : List Cell) (vm : List Nat) (a w : Nat),
      hget h a = .big w → RdV h vm a (.pbig w)
  | comp : ∀ (h : List Cell) (vm : List Nat) (a f n b : Nat) (ts : PTermL),
      hget h a = .fnc f n b → RdArgsV h vm n b ts →
      RdV h vm a (.pcomp f ts)
/-- See `RdV`. -/
inductive RdArgsV : List Cell → List Nat → Nat → Nat → PTermL → Prop where
  | nil : ∀ (h : List Cell) (vm : List Nat) (b : Nat), RdArgsV h vm 0 b .nil
  | cons : ∀ (h : List Cell) (vm : List Nat) (n b : Nat) (t : PTerm)
      (ts : PTermL), RdV h vm b t → RdArgsV h vm n (b + 1) ts →
      RdArgsV h vm (n + 1) b (.cons t ts)
end

/-- Heap extension: the built heap only grows, and cells already holding
content are never rewritten (the machine writes each location once, while
it is still unbound). -/
def HExt (h h2 : List Cell) : Prop :=
  h.length ≤ h2.length ∧
  ∀ x, x < h.length → hget h x ≠ .unbound → hget h2 x = hget h x

/-- The term `f(X, X)` on the global stack: a compound whose two argument
cells share one variable. -/
def heapFXX : List Cell := [.fnc 7 2 1, .unbound, .ref 1]

/-- Its abstract reading. -/
def tFXX : PTerm := .pcomp 7 (.cons (.pvar 1) (.cons (.pvar 1) .nil))

/-- The children-representation lookup at the heart of `get_child`. -/
def childLook (ch : Children) (k : Key) : Option Nat :=
  match ch with
  | .empty => none
  | .single k2 c => if k2 = k then some c else none
  | .hashed tbl => assocFind tbl k

/-- Node preservation: an insert step keeps every pre-existing node id
either untouched or with only its children representation changed. -/
def NPres (st st2 : TrieSt) : Prop :=
  ∀ x, x < st.next →
    (st2.nodes x = st.nodes x ∨
      ∃ d d2, st.nodes x = some d ∧ st2.nodes x = some d2 ∧
        d2.key = d.key ∧ d2.parent = d.parent)


/-- Every pending term has its oversized values interned in `T`. -/
def tokPend (T : List Nat) : List PendI → Bool
  | [] => true
  | .tm _ t :: r => tokOkT T t && tokPend T r
  | .pop :: r => tokPend T r

/-- Shape well-formedness of a built heap: reference targets are in range
and compound argument blocks lie inside the heap. -/
def WFH (h : List Cell) : Prop :=
  ∀ x, x < h.length →
    (match hget h x with
     | .ref b => b < h.length
     | .fnc _ n b => b + n ≤ h.length
     | _ => True)

/-- Proof scaffold: the write-mode correctness contract of replaying one
encoded term through `unify_key` — the machine consumes exactly the term's
key stream, advances the write location by one, only touches that location
and fresh cells, extends the variable table consistently, and leaves a heap
whose written location reads back as the canonical variant of the term. -/
def DecTP (T : List Nat) (t : PTerm) (vs : List Nat) (u : USt) : Prop :=
  u.wr = true →
  tokOkT T t = true →
  u.ptr < u.h.length →
  hget u.h u.ptr = .unbound →
  WFH u.h →
  u.vmap.length = vs.length →
  (∀ e ∈ u.vmap, e < u.h.length ∧ hget u.h e = .unbound ∧ e ≠ u.ptr) →
  u.vmap.Nodup →
  ∃ u2,
    (∀ ks, ukRun T ((encKsT T t vs).1 ++ ks) u = ukRun T ks u2) ∧
    u2.wr = true ∧
    u2.astk = u.astk ∧
    u2.ptr = u.ptr + 1 ∧
    u.h.length ≤ u2.h.length ∧
    (∀ x, x < u.h.length → x ≠ u.ptr → hget u2.h x = hget u.h x) ∧
    WFH u2.h ∧
    (∃ nv, u2.vmap = u.vmap ++ nv ∧
      ∀ e ∈ nv, e = u.ptr ∨ (u.h.length ≤ e ∧ e < u2.h.length)) ∧
    (∀ e ∈ u2.vmap, e < u2.h.length ∧ hget u2.h e = .unbound) ∧
    u2.vmap.Nodup ∧
    u2.vmap.length = (encKsT T t vs).2.length ∧
    RdV u2.h u2.vmap u.ptr (canT t vs).1

/-- Proof scaffold: as `DecTP`, for an argument block written to
consecutive locations. -/
def DecLP (T : List Nat) (ts : PTermL) (vs : List Nat) (u : USt) : Prop :=
  u.wr = true →
  tokOkL T ts = true →
  (∀ j, j < lenL ts → u.ptr + j < u.h.length ∧
    hget u.h (u.ptr + j) = .unbound) →
  WFH u.h →
  u.vmap.length = vs.length →
  (∀ e ∈ u.vmap, e < u.h.length ∧ hget u.h e = .unbound ∧
    ∀ j, j < lenL ts → e ≠ u.ptr + j) →
  u.vmap.Nodup →
  ∃ u2,
    (∀ ks, ukRun T ((encLT T ts vs).1 ++ ks) u = ukRun T ks u2) ∧
    u2.wr = true ∧
    u2.astk = u.astk ∧
    u2.ptr = u.ptr + lenL ts ∧
    u.h.length ≤ u2.h.length ∧
    (∀ x, x < u.h.length → (∀ j, j < lenL ts → x ≠ u.ptr + j) →
      hget u2.h x = hget u.h x) ∧
    WFH u2.h ∧
    (∃ nv, u2.vmap = u.vmap ++ nv ∧
      ∀ e ∈ nv, (u.ptr ≤ e ∧ e < u.ptr + lenL ts) ∨
        (u.h.length ≤ e ∧ e < u2.h.length)) ∧
    (∀ e ∈ u2.vmap, e < u2.h.length ∧ hget u2.h e = .unbound) ∧
    u2.vmap.Nodup ∧
    u2.vmap.length = (encLT T ts vs).2.length ∧
    RdArgsV u2.h u2.vmap (lenL ts) u.ptr (canL ts vs).1

/-- The trie state after inserting `f(X, X)` (heap `heapFXX`) into an empty
trie. -/
def c1st2 : TrieSt :=
  ((trie_lookup 10 emptyTrie heapFXX 0 true).getD
    (.notFound, emptyTrie, [])).2.1

end TrieModel

namespace TrieModel

/-! ## Theorems -/

/-- Auxiliary: `clear_node` does nothing at all on a node whose children
representation is `NULL` (the deallocation block of the source sits inside
the children branch). -/
theorem clear_node_leaf (f : Nat) (st : TrieSt) (x : Nat) (b : Bool)
    (d : NodeData) (hx : st.nodes x = some d) (hch : d.children = .empty) :
    clear_node f st x b = st := by
  cases f with
  | zero => rfl
  | succ f => simp [clear_node, hx, hch]

/-- Auxiliary: `destroy_node` does nothing on a childless node. -/
theorem destroy_node_leaf (st : TrieSt) (x : Nat)
    (d : NodeData) (hx : st.nodes x = some d) (hch : d.children = .empty) :
    destroy_node st x = st :=
  clear_node_leaf _ st x true d hx hch

/-- C10: `trie_delete` on a node that currently holds no value is a complete
no-op, regardless of the `prune` flag: the whole trie state (nodes, children
representations, `node_count`, `value_count`) is returned unchanged. -/
theorem C10_delete_valueless_noop (st : TrieSt) (n : Nat) (prune : Bool)
    (nd : NodeData) (hn : st.nodes n = some nd) (hv : nd.value = none) :
    trie_delete st n prune = st := by
  simp [trie_delete, hn, hv]

/-- Witness for C10 at a concrete input: the root of `exSingle` has no value,
and deleting it (with pruning) leaves the trie unchanged. -/
theorem C10_delete_valueless_noop_witness :
    trie_delete exSingle 0 true = exSingle :=
  C10_delete_valueless_noop exSingle 0 true ⟨none, .cst 0, none, .single (.cst 5) 1⟩
    rfl rfl

/-- C6: conflict semantics of the value-association step of `trie_insert`.
For a node holding value `A`: inserting a structurally different `B` in
strict mode yields the permission-error outcome and leaves the state (hence
the stored value `A`) unchanged; in update mode it replaces the value with
`B`; inserting a structurally equal `B` leaves the state unchanged in either
mode (failing in strict mode, succeeding in update mode). -/
theorem C6_conflict_semantics (st : TrieSt) (n : Nat) (nd : NodeData)
    (A B : TrieVal) (hn : st.nodes n = some nd) (hv : nd.value = some A) :
    (equal_value A B = false →
      trie_insert_value st n B false = (st, .conflict) ∧
      trie_insert_value st n B true =
        (st.setNode n { nd with value := some B }, .ok)) ∧
    (equal_value A B = true →
      trie_insert_value st n B false = (st, .dupFalse) ∧
      trie_insert_value st n B true = (st, .ok)) := by
  constructor <;> intro he <;>
    constructor <;> simp [trie_insert_value, hn, hv, he]

/-- Witness for C6 at a concrete input: node 1 of `exValued` holds
`small 9`; `small 3` is a different value and `small 9` an equal one. -/
theorem C6_conflict_semantics_witness :
    ((equal_value (.small 9) (.small 3) = false →
        trie_insert_value exValued 1 (.small 3) false = (exValued, .conflict) ∧
        trie_insert_value exValued 1 (.small 3) true =
          (exValued.setNode 1 ⟨some (.small 3), .cst 5, some 0, .empty⟩, .ok)) ∧
      (equal_value (.small 9) (.small 3) = true →
        trie_insert_value exValued 1 (.small 3) false = (exValued, .dupFalse) ∧
        trie_insert_value exValued 1 (.small 3) true = (exValued, .ok))) ∧
    ((equal_value (.small 9) (.small 9) = false →
        trie_insert_value exValued 1 (.small 9) false = (exValued, .conflict) ∧
        trie_insert_value exValued 1 (.small 9) true =
          (exValued.setNode 1 ⟨some (.small 9), .cst 5, some 0, .empty⟩, .ok)) ∧
      (equal_value (.small 9) (.small 9) = true →
        trie_insert_value exValued 1 (.small 9) false = (exValued, .dupFalse) ∧
        trie_insert_value exValued 1 (.small 9) true = (exValued, .ok))) :=
  ⟨C6_conflict_semantics exValued 1 ⟨some (.small 9), .cst 5, some 0, .empty⟩
      (.small 9) (.small 3) rfl rfl,
   C6_conflict_semantics exValued 1 ⟨some (.small 9), .cst 5, some 0, .empty⟩
      (.small 9) (.small 9) rfl rfl⟩

/-- C3 (exhibiting the defect): calling `insert_child` on a node whose
children representation is `Single` with the same key returns the existing
child, but — contrary to the claim — the speculatively allocated node is
*not* destroyed: it stays in the node store and `node_count` (and, were a
pool configured, its charge) ends one higher than before the call. -/
theorem C3_insert_child_single_match_leaks (st : TrieSt) (n : Nat)
    (nd : NodeData) (k : Key) (c : Nat)
    (hn : st.nodes n = some nd) (hch : nd.children = .single k c)
    (hpool : st.pool = none) (hfresh : ¬ n = st.next) :
    insert_child st n k =
      some ({ st with
                nodes := updf st.nodes st.next (some ⟨none, k, none, .empty⟩)
                next := st.next + 1
                node_count := st.node_count + 1 }, c) := by
  simp [insert_child, new_trie_node, hpool, updf, hfresh, hn, hch]

/-- Witness for C3 at a concrete input: in `exSingle` the root's children are
`Single (cst 5) 1`; inserting key `cst 5` again returns child 1 while node 2
is leaked and `node_count` grows to 2. -/
theorem C3_insert_child_single_match_leaks_witness :
    insert_child exSingle 0 (.cst 5) =
      some ({ exSingle with
                nodes := updf exSingle.nodes 2 (some ⟨none, .cst 5, none, .empty⟩)
                next := 3
                node_count := 2 }, 1) :=
  C3_insert_child_single_match_leaks exSingle 0
    ⟨none, .cst 0, none, .single (.cst 5) 1⟩ (.cst 5) 1 rfl rfl rfl (by decide)

theorem updf_self (f : Nat → Option NodeData) (a : Nat) (v : Option NodeData) :
    updf f a v a = v := by simp [updf]

theorem updf_other (f : Nat → Option NodeData) (a : Nat) (v : Option NodeData)
    (x : Nat) (h : ¬ x = a) : updf f a v x = f x := by simp [updf, h]

/-- `PruneChain` only inspects the parent/key of its bottom node and the full
records of the listed ancestors; it is stable under any state change that
preserves those. -/
theorem PruneChain_congr (st st' : TrieSt) (x : Nat) (l : List Nat)
    (S : Nat) (lk : Key)
    (hx : ∀ d, st.nodes x = some d → ∃ d', st'.nodes x = some d' ∧
            d'.parent = d.parent ∧ d'.key = d.key)
    (hl : ∀ i ∈ l, st'.nodes i = st.nodes i)
    (h : PruneChain st x l S lk) : PruneChain st' x l S lk := by
  induction l generalizing x with
  | nil =>
    obtain ⟨xd, hxd, hpar, hkey⟩ := h
    obtain ⟨d', hd', hp', hk'⟩ := hx xd hxd
    exact ⟨d', hd', by rw [hp', hpar], by rw [hk', hkey]⟩
  | cons p rest ih =>
    obtain ⟨xd, pd, hxd, hpar, hpd, hpch, hch⟩ := h
    obtain ⟨d', hd', hp', hk'⟩ := hx xd hxd
    refine ⟨d', pd, hd', by rw [hp', hpar], ?_, by rw [hk', hpch], ?_⟩
    · rw [hl p (by simp), hpd]
    · exact ih p (fun d hd => ⟨d, by rw [hl p (by simp), hd], rfl, rfl⟩)
        (fun i hi => hl i (by simp [hi])) hch

theorem setNode_nodes_self (st : TrieSt) (n : Nat) (d : NodeData) :
    (st.setNode n d).nodes n = some d := by simp [TrieSt.setNode, updf]

theorem setNode_nodes_other (st : TrieSt) (n : Nat) (d : NodeData)
    (i : Nat) (h : ¬ i = n) : (st.setNode n d).nodes i = st.nodes i := by
  simp [TrieSt.setNode, updf, h]

/-- Running `prune_node` up a single-child parent chain: every listed
ancestor has its children representation swapped to `NULL`, the stop node `S`
loses exactly the pruned edge, everything else — including the records of the
detached nodes themselves, and `node_count` — is unchanged. -/
theorem prune_chain_run (l : List Nat) :
    ∀ (f : Nat) (st : TrieSt) (x : Nat) (S : Nat) (lk : Key)
      (xd Sd : NodeData),
      l.length + 2 ≤ f →
      (x :: l ++ [S]).Nodup →
      st.nodes x = some xd → xd.children = .empty →
      PruneChain st x l S lk →
      st.nodes S = some Sd →
      ((Sd.parent = none ∧ Sd.children = .single lk (lastNode x l)) ∨
        (∃ tbl, Sd.children = .hashed tbl ∧
          ((tbl.filter (fun e => ¬ e.1 = lk)).isEmpty = false))) →
      (∀ i, ¬ i = S → ¬ i ∈ x :: l →
          (prune_node f st x).nodes i = st.nodes i) ∧
      (prune_node f st x).nodes x = st.nodes x ∧
      (∀ i ∈ l, ∃ d, st.nodes i = some d ∧
          (prune_node f st x).nodes i = some { d with children := .empty }) ∧
      (prune_node f st x).nodes S =
        some { Sd with children := pruneStopChildren Sd.children lk } ∧
      (prune_node f st x).node_count = st.node_count ∧
      (prune_node f st x).value_count = st.value_count ∧
      (prune_node f st x).next = st.next ∧
      (prune_node f st x).indirects = st.indirects ∧
      (prune_node f st x).pool = st.pool := by
  induction l with
  | nil =>
    intro f st x S lk xd Sd hf hnd hx hxch hchain hS hstop
    obtain ⟨xd', hx', hpar, hkey⟩ := hchain
    rw [hx] at hx'
    injection hx' with hx''
    subst hx''
    obtain ⟨f', rfl⟩ : ∃ f', f = f' + 2 := ⟨f - 2, by omega⟩
    have hxS : ¬ x = S := by
      intro h; subst h; simp at hnd
    rcases hstop with ⟨hSpar, hSch⟩ | ⟨tbl, hSch, htbl⟩
    · have hlast : lastNode x [] = x := rfl
      rw [hlast] at hSch
      have hrun : prune_node (f' + 2) st x =
          st.setNode S { Sd with children := .empty } := by
        show prune_node (f' + 1 + 1) st x = _
        simp only [prune_node, hx, hpar, hS, hSch]
        rw [destroy_node_leaf _ x xd
          (by rw [setNode_nodes_other _ _ _ _ hxS, hx]) hxch]
        simp only [if_true]
        simp only [prune_node, setNode_nodes_self, hSpar]
      rw [hrun, hSch]
      refine ⟨fun i hiS _ => setNode_nodes_other _ _ _ _ hiS,
        setNode_nodes_other _ _ _ _ hxS, by simp,
        by rw [setNode_nodes_self]; rfl, rfl, rfl, rfl, rfl, rfl⟩
    · have hrun : prune_node (f' + 2) st x =
          st.setNode S
            { Sd with children := Children.hashed (tbl.filter (fun e => ¬ e.1 = lk)) } := by
        show prune_node (f' + 1 + 1) st x = _
        simp only [prune_node, hx, hpar, hS, hSch, hkey]
        rw [destroy_node_leaf _ x xd
          (by rw [setNode_nodes_other _ _ _ _ hxS, hx]) hxch]
        simp only [htbl, if_false, Bool.false_eq_true]
      rw [hrun, hSch]
      refine ⟨fun i hiS _ => setNode_nodes_other _ _ _ _ hiS,
        setNode_nodes_other _ _ _ _ hxS, by simp,
        by rw [setNode_nodes_self]; rfl, rfl, rfl, rfl, rfl, rfl⟩
  | cons p rest ih =>
    intro f st x S lk xd Sd hf hnd hx hxch hchain hS hstop
    obtain ⟨xd', pd, hx', hpar, hpd, hpch, hchain'⟩ := hchain
    rw [hx] at hx'
    injection hx' with hx''
    subst hx''
    obtain ⟨f', rfl⟩ : ∃ f', f = f' + 1 := ⟨f - 1, by omega⟩
    have hndx : ¬ x ∈ (p :: rest) ++ [S] ∧ ((p :: rest) ++ [S]).Nodup := by
      rw [List.cons_append, List.nodup_cons] at hnd
      exact hnd
    have hxp : ¬ x = p := fun h => hndx.1 (by simp [h])
    have hxS : ¬ x = S := fun h => hndx.1 (by simp [h])
    have hxrest : ¬ x ∈ rest := fun h => hndx.1 (by simp [h])
    have hpS : ¬ p = S := by
      intro h
      have := hndx.2
      rw [List.cons_append, List.nodup_cons] at this
      exact this.1 (by simp [h])
    have hprest : ¬ p ∈ rest := by
      intro h
      have := hndx.2
      rw [List.cons_append, List.nodup_cons] at this
      exact this.1 (by simp [h])
    set st1 := st.setNode p { pd with children := .empty } with hst1
    have hdet : prune_node (f' + 1) st x = prune_node f' st1 p := by
      simp only [prune_node, hx, hpar, hpd, hpch]
      rw [destroy_node_leaf _ x xd
        (by rw [setNode_nodes_other _ _ _ _ hxp, hx]) hxch]
      simp only [if_true]
    have hih := ih f' st1 p S lk { pd with children := .empty } Sd
      (by simp at hf ⊢; omega)
      hndx.2
      (setNode_nodes_self _ _ _) rfl
      (PruneChain_congr st st1 p rest S lk
        (fun d hd => by
          rw [hpd] at hd
          injection hd with hd'
          subst hd'
          exact ⟨_, setNode_nodes_self _ _ _, rfl, rfl⟩)
        (fun i hi => setNode_nodes_other _ _ _ _ (fun h => hprest (by rw [← h]; exact hi)))
        hchain')
      (by rw [hst1, setNode_nodes_other _ _ _ _ (fun h => hpS h.symm), hS])
      hstop
    obtain ⟨hun, hxcl, hlcl, hScl, hc1, hc2, hc3, hc4, hc5⟩ := hih
    rw [hdet]
    refine ⟨?_, ?_, ?_, hScl, ?_, ?_, ?_, ?_, ?_⟩
    · intro i hiS hinl
      have hip : ¬ i = p := fun h => hinl (by simp [h])
      have hirest : ¬ i ∈ rest := fun h => hinl (by simp [h])
      rw [hun i hiS (by simp [hip, hirest]),
        setNode_nodes_other _ _ _ _ hip]
    · rw [hun x hxS (by simp [hxp, hxrest]),
        setNode_nodes_other _ _ _ _ hxp]
    · intro i hi
      rcases List.mem_cons.mp hi with rfl | hi'
      · exact ⟨pd, hpd, by rw [hxcl, setNode_nodes_self]⟩
      · obtain ⟨d, hd1, hd2⟩ := hlcl i hi'
        refine ⟨d, ?_, hd2⟩
        rw [← hd1, hst1, setNode_nodes_other _ _ _ _ (fun h => hprest (by rw [← h]; exact hi'))]
    · rw [hc1]; rfl
    · rw [hc2]; rfl
    · rw [hc3]; rfl
    · rw [hc4]; rfl
    · rw [hc5]; rfl

/-- C8 counterexample: in `exValuedAncestor`, node 1 is an ancestor of the
deleted node 2 and *has a value of its own* (`small 7`), so by the claim
pruning has to stop at node 1 and leave it intact as the root's child.
The code instead detaches node 1 from the root: after
`trie_delete _ 2 prune:=true` the root has no children, and looking up
node 1's key under the root fails. -/
theorem C8_counterexample :
    get_child (trie_delete exValuedAncestor 2 true) 0 (.cst 1) = none ∧
    (trie_delete exValuedAncestor 2 true).nodes 0 =
      some ⟨none, .cst 0, none, .empty⟩ := by
  constructor <;> rfl

/-- C8 (amended): deleting (with `prune`) a valued childless node `n` whose
strict ancestors `l` each hold only the single child below them detaches the
chain bottom-up and stops exactly at the first ancestor `S` that still has
other children (a hashed table that stays nonempty after removing the pruned
edge), or at the root; `S` keeps everything but the pruned edge, every node
outside the chain is untouched, and an ancestor's own value does **not**
stop the pruning (the chain hypotheses say nothing about values).  The
detached records themselves are leaked: `node_count` is unchanged. -/
theorem C8_prune_chain_behaviour (st : TrieSt) (n : Nat) (l : List Nat)
    (S : Nat) (lk : Key) (v : TrieVal) (nd Sd : NodeData)
    (hn : st.nodes n = some nd) (hval : nd.value = some v)
    (hch : nd.children = .empty)
    (hnd : (n :: l ++ [S]).Nodup)
    (hchain : PruneChain st n l S lk)
    (hS : st.nodes S = some Sd)
    (hstop : (Sd.parent = none ∧ Sd.children = .single lk (lastNode n l)) ∨
      (∃ tbl, Sd.children = .hashed tbl ∧
        ((tbl.filter (fun e => ¬ e.1 = lk)).isEmpty = false)))
    (hfuel : l.length + 1 ≤ st.node_count) :
    (∀ i, ¬ i = S → ¬ i ∈ n :: l →
        (trie_delete st n true).nodes i = st.nodes i) ∧
    (trie_delete st n true).nodes n = st.nodes n ∧
    (∀ i ∈ l, ∃ d, st.nodes i = some d ∧
        (trie_delete st n true).nodes i = some { d with children := .empty }) ∧
    (trie_delete st n true).nodes S =
      some { Sd with children := pruneStopChildren Sd.children lk } ∧
    (trie_delete st n true).node_count = st.node_count ∧
    (trie_delete st n true).value_count = st.value_count - 1 := by
  have hrun := prune_chain_run l (st.node_count + 1) st n S lk nd Sd
    (by omega) hnd hn hch hchain hS hstop
  have hdel : trie_delete st n true =
      { prune_node (st.node_count + 1) st n with
          value_count := (prune_node (st.node_count + 1) st n).value_count - 1 } := by
    simp [trie_delete, hn, hval]
  obtain ⟨hun, hxcl, hlcl, hScl, hc1, hc2, _, _, _⟩ := hrun
  rw [hdel]
  exact ⟨fun i a b => hun i a b, hxcl, fun i hi => hlcl i hi, hScl, hc1,
    by simp [hc2]⟩

/-- Witness for C8 at a concrete input: deleting the valued leaf 1 of
`exValued` (empty chain, stop node = root). -/
theorem C8_prune_chain_behaviour_witness :
    (∀ i, ¬ i = 0 → ¬ i ∈ [1] →
        (trie_delete exValued 1 true).nodes i = exValued.nodes i) ∧
    (trie_delete exValued 1 true).nodes 1 = exValued.nodes 1 ∧
    (∀ i ∈ ([] : List Nat), ∃ d, exValued.nodes i = some d ∧
        (trie_delete exValued 1 true).nodes i = some { d with children := .empty }) ∧
    (trie_delete exValued 1 true).nodes 0 =
      some { value := none, key := .cst 0, parent := none,
             children := pruneStopChildren (.single (.cst 5) 1) (.cst 5) } ∧
    (trie_delete exValued 1 true).node_count = exValued.node_count ∧
    (trie_delete exValued 1 true).value_count = exValued.value_count - 1 :=
  C8_prune_chain_behaviour exValued 1 [] 0 (.cst 5) (.small 9)
    ⟨some (.small 9), .cst 5, some 0, .empty⟩
    ⟨none, .cst 0, none, .single (.cst 5) 1⟩
    rfl rfl rfl (by decide) ⟨_, rfl, rfl, rfl⟩ rfl
    (Or.inl ⟨rfl, rfl⟩) (by decide)

/-- C2 (exhibiting the defect): starting from an empty trie
(`node_count = 0`), inserting the single-atom key of `heapAtom` creates leaf
node 1 (`node_count = 1`), associating a value makes `value_count = 1`, and
deleting that key with `prune = true` brings `value_count` back to 0 — but
`node_count` stays at 1 instead of returning to the baseline 0: `prune_node`
detaches the leaf yet `clear_node` never deallocates a childless node. -/
theorem C2_prune_does_not_restore_node_count :
    (trie_lookup 10 emptyTrie heapAtom 0 true).map (fun r => r.1) =
      some (.ok 1) ∧
    emptyTrie.node_count = 0 ∧
    c2Inserted.node_count = 1 ∧
    c2Valued.value_count = 1 ∧
    c2Deleted.value_count = 0 ∧
    c2Deleted.node_count = 1 := by
  refine ⟨rfl, rfl, rfl, rfl, rfl, rfl⟩

/-- C4 counterexample: with `add = false`, looking up a term that is a bare
attributed variable in an empty trie takes the `TAG_ATTVAR` branch, whose
`prune_error` inserts (with `add = TRUE`) and then prunes an error node —
so the supposedly pure walk changes `node_count` from 0 to 1.  Moreover,
looking up a term holding an oversized (indirect) value creates the
trie's indirect table even though `add = false`. -/
theorem C4_counterexample :
    (trie_lookup 10 emptyTrie heapAtt 0 false).map
        (fun r => (r.1, r.2.1.node_count)) = some (.attvar, 1) ∧
    (trie_lookup 10 emptyTrie [Cell.big 42] 0 false).map
        (fun r => (r.1, r.2.1.indirects)) = some (.notFound, some []) := by
  refine ⟨rfl, rfl⟩

/-- Auxiliary: `follow_node` without `add` never changes the trie. -/
theorem follow_node_noadd (st : TrieSt) (n : Nat) (k : Key) :
    (follow_node st n k false).1 = st := by
  unfold follow_node
  cases hg : get_child st n k <;> simp [hg]

/-- Auxiliary: the walk loop stops at once when the node is already gone. -/
theorem walk_run_stopped (f : Nat) (add : Bool) (s : WalkSt)
    (h : s.node = none) : walk_run f add s = some s := by
  cases f <;> simp [walk_run, h]

/-- Auxiliary: with `add = false` the walk loop never touches the node store
or the counters; the only trie mutation it can perform — unless it takes the
attributed-variable error branch — is the creation of an (empty) indirect
table. -/
theorem walk_run_nomut (f : Nat) :
    ∀ (s s' : WalkSt), walk_run f false s = some s' → ¬ s'.rc = .attvar →
      s'.st.nodes = s.st.nodes ∧
      s'.st.node_count = s.st.node_count ∧
      s'.st.value_count = s.st.value_count ∧
      s'.st.next = s.st.next ∧
      s'.st.pool = s.st.pool ∧
      (s'.st.indirects = s.st.indirects ∨
        (s.st.indirects = none ∧ s'.st.indirects = some [])) := by
  induction f with
  | zero =>
    intro s s' hrun _
    unfold walk_run at hrun
    split at hrun
    · injection hrun with h; subst h
      exact ⟨rfl, rfl, rfl, rfl, rfl, Or.inl rfl⟩
    · cases hrun
  | succ f ih =>
    intro s s' hrun hrc
    unfold walk_run at hrun
    split at hrun
    · injection hrun with h; subst h
      exact ⟨rfl, rfl, rfl, rfl, rfl, Or.inl rfl⟩
    · rename_i hstop
      have hnode : ∃ nd, s.node = some nd := by
        cases h : s.node with
        | none => exact absurd (Or.inl h) hstop
        | some nd => exact ⟨nd, rfl⟩
      have hag : ∃ it rest, s.ag = it :: rest := by
        cases h : s.ag with
        | nil => exact absurd (Or.inr h) hstop
        | cons it rest => exact ⟨it, rest, rfl⟩
      obtain ⟨nd, hnd⟩ := hnode
      obtain ⟨it, rest, hagr⟩ := hag
      have hmid := ih (walk_step false s) s' hrun hrc
      -- analyse the one step
      have hstep : (walk_step false s).st.nodes = s.st.nodes ∧
          (walk_step false s).st.node_count = s.st.node_count ∧
          (walk_step false s).st.value_count = s.st.value_count ∧
          (walk_step false s).st.next = s.st.next ∧
          (walk_step false s).st.pool = s.st.pool ∧
          ((walk_step false s).st.indirects = s.st.indirects ∨
            (s.st.indirects = none ∧
              (walk_step false s).st.indirects = some [])) := by
        cases it with
        | pop =>
          simp [walk_step, hnd, hagr, follow_node_noadd]
        | ad a =>
          simp only [walk_step, hnd, hagr]
          cases hc : hget s.h (derefA s.h a) with
          | unbound => simp [hc, follow_node_noadd]
          | mark i => simp [hc, follow_node_noadd]
          | att =>
            -- the attvar branch would make the final rc `.attvar`
            exfalso
            apply hrc
            have : (walk_step false s).rc = .attvar ∧
                (walk_step false s).node = none := by
              simp [walk_step, hnd, hagr, hc]
            have hfin : walk_run f false (walk_step false s) =
                some (walk_step false s) := walk_run_stopped f false _ this.2
            rw [hrun] at hfin
            injection hfin with h
            rw [h]
            exact this.1
          | ref b => simp [hc]
          | cst w => simp [hc, follow_node_noadd]
          | big w =>
            simp only []
            cases hi : (trie_intern_indirect s.st w false).2 with
            | some i =>
              simp only [hi, follow_node_noadd]
              constructor
              · show (trie_intern_indirect s.st w false).1.nodes = s.st.nodes
                simp [trie_intern_indirect]
              refine ⟨rfl, rfl, rfl, rfl, ?_⟩
              show (trie_intern_indirect s.st w false).1.indirects = _ ∨ _
              cases hind : s.st.indirects with
              | none =>
                refine Or.inr ⟨rfl, ?_⟩
                simp [trie_intern_indirect, hind, intern_indirect, idxOf]
              | some tab =>
                refine Or.inl ?_
                simp only [trie_intern_indirect, hind, Option.getD_some]
                have : (intern_indirect tab w false).1 = tab := by
                  unfold intern_indirect
                  cases h : idxOf tab w <;> simp [h]
                simp [this]
            | none =>
              simp only [hi]
              constructor
              · show (trie_intern_indirect s.st w false).1.nodes = s.st.nodes
                simp [trie_intern_indirect]
              refine ⟨rfl, rfl, rfl, rfl, ?_⟩
              show (trie_intern_indirect s.st w false).1.indirects = _ ∨ _
              cases hind : s.st.indirects with
              | none =>
                refine Or.inr ⟨rfl, ?_⟩
                simp [trie_intern_indirect, hind, intern_indirect, idxOf]
              | some tab =>
                refine Or.inl ?_
                simp only [trie_intern_indirect, hind, Option.getD_some]
                have : (intern_indirect tab w false).1 = tab := by
                  unfold intern_indirect
                  cases h : idxOf tab w <;> simp [h]
                simp [this]
          | fnc ff ar b =>
            simp [hc, follow_node_noadd]
      obtain ⟨a1, a2, a3, a4, a5, a6⟩ := hstep
      obtain ⟨b1, b2, b3, b4, b5, b6⟩ := hmid
      refine ⟨by rw [b1, a1], by rw [b2, a2], by rw [b3, a3],
        by rw [b4, a4], by rw [b5, a5], ?_⟩
      rcases a6 with a6 | ⟨a6l, a6r⟩
      · rcases b6 with b6 | ⟨b6l, b6r⟩
        · exact Or.inl (by rw [b6, a6])
        · exact Or.inr ⟨by rw [← a6, b6l], b6r⟩
      · rcases b6 with b6 | ⟨b6l, b6r⟩
        · exact Or.inr ⟨a6l, by rw [b6, a6r]⟩
        · exact Or.inr ⟨a6l, b6r⟩

/-- C4 (amended): `trie_lookup` with `add = false`, on any terminating run
that does not take the attributed-variable error branch, leaves the node
store, `node_count` and `value_count` (and the allocator and pool) unchanged
— the walk reads children via `get_child` only.  The one permitted side
effect is lazily creating an empty indirect table when the term contains an
oversized value and the trie had none. -/
theorem C4_lookup_without_add_pure (fuel : Nat) (st : TrieSt) (h : List Cell)
    (k : Nat) (r : LRes × TrieSt × List Cell)
    (hrun : trie_lookup fuel st h k false = some r) (hrc : ¬ r.1 = .attvar) :
    r.2.1.nodes = st.nodes ∧
    r.2.1.node_count = st.node_count ∧
    r.2.1.value_count = st.value_count ∧
    r.2.1.next = st.next ∧
    r.2.1.pool = st.pool ∧
    (r.2.1.indirects = st.indirects ∨
      (st.indirects = none ∧ r.2.1.indirects = some [])) := by
  unfold trie_lookup at hrun
  cases hw : walk_run fuel false ⟨h, [.ad k], 0, 0, st, some 0, .ok⟩ with
  | none => simp only [hw] at hrun; cases hrun
  | some s =>
    simp only [hw] at hrun
    cases hcv : clear_vars fuel s.h k s.vn with
    | none => simp only [hcv] at hrun; cases hrun
    | some h2 =>
      simp only [hcv] at hrun
      injection hrun with hr
      have hsrc : ¬ s.rc = .attvar := by
        intro hsa
        apply hrc
        rw [← hr, hsa]
      have := walk_run_nomut fuel _ s hw hsrc
      rw [← hr]
      cases hrcs : s.rc <;> simp only [hrcs] at this ⊢
      · cases s.node <;> exact this
      · exact this
      · exact this

/-- Witness for C4 at a concrete input: a plain lookup miss
(`add = false`) of an atomic key in the empty trie terminates with
`notFound` and an unchanged trie. -/
theorem C4_lookup_without_add_pure_witness :
    trie_lookup 10 emptyTrie heapAtom 0 false =
      some (.notFound, emptyTrie, heapAtom) ∧
    (emptyTrie.nodes = emptyTrie.nodes ∧
     emptyTrie.node_count = emptyTrie.node_count ∧
     emptyTrie.value_count = emptyTrie.value_count ∧
     emptyTrie.next = emptyTrie.next ∧
     emptyTrie.pool = emptyTrie.pool ∧
     (emptyTrie.indirects = emptyTrie.indirects ∨
       (emptyTrie.indirects = none ∧ emptyTrie.indirects = some []))) :=
  ⟨rfl, C4_lookup_without_add_pure 10 emptyTrie heapAtom 0
    (.notFound, emptyTrie, heapAtom) rfl (by decide)⟩

/-! ### C5: the cyclic term walk -/

theorem mem_downFrom (k i : Nat) : i ∈ downFrom k ↔ 1 ≤ i ∧ i ≤ k := by
  induction k with
  | zero => simp [downFrom]; omega
  | succ k ih =>
    simp only [downFrom, List.mem_cons, ih]
    omega

theorem downFrom_nodup (k : Nat) : (downFrom k).Nodup := by
  induction k with
  | zero => simp [downFrom]
  | succ k ih =>
    refine List.nodup_cons.mpr ⟨?_, ih⟩
    rw [mem_downFrom]
    omega

theorem downFrom_length (k : Nat) : (downFrom k).length = k := by
  induction k with
  | zero => rfl
  | succ k ih => simp [downFrom, ih]

theorem lastNode_downFrom (k x : Nat) (h : 1 ≤ k) :
    lastNode x (downFrom k) = 1 := by
  induction k generalizing x with
  | zero => omega
  | succ k ih =>
    show lastNode (k + 1) (downFrom k) = 1
    rcases Nat.eq_zero_or_pos k with rfl | hk
    · rfl
    · exact ih (k + 1) hk

/-- `new_trie_node` without a configured pool always succeeds and returns
the fresh allocator id. -/
theorem new_trie_node_nopool (st : TrieSt) (k : Key) (hp : st.pool = none) :
    new_trie_node st k =
      some ({ st with
                nodes := updf st.nodes st.next (some ⟨none, k, none, .empty⟩)
                next := st.next + 1
                node_count := st.node_count + 1 }, st.next) := by
  unfold new_trie_node
  rw [hp]

/-- `insert_child` on a node whose children representation is `NULL`:
allocate, publish the `TN_KEY` wrapper, set the parent pointer. -/
theorem insert_child_empty (st : TrieSt) (n : Nat) (k : Key) (nd : NodeData)
    (hn : st.nodes n = some nd) (hch : nd.children = .empty)
    (hp : st.pool = none) (hfresh : ¬ n = st.next) :
    insert_child st n k =
      some ({ st with
                nodes := updf (updf (updf st.nodes st.next
                    (some ⟨none, k, none, .empty⟩))
                  n (some { nd with children := .single k st.next }))
                  st.next (some ⟨none, k, some n, .empty⟩)
                next := st.next + 1
                node_count := st.node_count + 1 }, st.next) := by
  unfold insert_child
  rw [new_trie_node_nopool st k hp]
  simp only [updf_other st.nodes st.next (some ⟨none, k, none, .empty⟩) n hfresh,
    hn, hch, TrieSt.setNode, updf_self]
  rw [updf_other (updf st.nodes st.next (some ⟨none, k, none, .empty⟩)) n
      (some { nd with children := .single k st.next }) st.next
      (fun h => hfresh h.symm),
    updf_self]

/-- `follow_node` with `add` at a childless node inserts a fresh child. -/
theorem follow_node_insert_empty (st : TrieSt) (n : Nat) (k : Key)
    (nd : NodeData) (hn : st.nodes n = some nd) (hch : nd.children = .empty)
    (hp : st.pool = none) (hfresh : ¬ n = st.next) :
    follow_node st n k true =
      ({ st with
           nodes := updf (updf (updf st.nodes st.next
               (some ⟨none, k, none, .empty⟩))
             n (some { nd with children := .single k st.next }))
             st.next (some ⟨none, k, some n, .empty⟩)
           next := st.next + 1
           node_count := st.node_count + 1 }, some st.next) := by
  unfold follow_node
  have hgc : get_child st n k = none := by
    simp [get_child, hn, hch]
  rw [hgc, insert_child_empty st n k nd hn hch hp hfresh]
  rfl

/-- The record of the current chain leaf. -/
theorem cycChainNodes_leaf (k : Nat) (h1 : 1 ≤ k) :
    cycChainNodes k k = some ⟨none, .functor 7 1, some (k - 1), .empty⟩ := by
  unfold cycChainNodes
  have c1 : ¬ k = 0 := by omega
  have c2 : ¬ k < k := by omega
  have c3 : k = k ∧ 0 < k := ⟨rfl, by omega⟩
  rw [if_neg c1, if_neg c2, if_pos c3]

/-- Inserting one more `f/1` edge below the chain leaf. -/
theorem cycChain_follow (k : Nat) (hk : k ≤ 999) :
    follow_node (cycChainSt k) k (.functor 7 1) true =
      (cycChainSt (k + 1), some (k + 1)) := by
  have hleaf : ∃ nd, cycChainNodes k k = some nd ∧ nd.children = .empty := by
    rcases Nat.eq_zero_or_pos k with rfl | hpos
    · exact ⟨⟨none, .cst 0, none, .empty⟩, rfl, rfl⟩
    · exact ⟨_, cycChainNodes_leaf k hpos, rfl⟩
  obtain ⟨nd, hnd, hch⟩ := hleaf
  rw [follow_node_insert_empty (cycChainSt k) k (.functor 7 1) nd hnd hch rfl
    (by show ¬ k = k + 1; omega)]
  simp only [Prod.mk.injEq]
  refine ⟨?_, rfl⟩
  show ({ cycChainSt k with
      nodes := updf (updf (updf (cycChainSt k).nodes (k + 1)
          (some ⟨none, .functor 7 1, none, .empty⟩))
        k (some { nd with children := .single (.functor 7 1) (k + 1) }))
        (k + 1) (some ⟨none, .functor 7 1, some k, .empty⟩)
      next := k + 1 + 1, node_count := k + 1 } : TrieSt) = cycChainSt (k + 1)
  unfold cycChainSt
  simp only [TrieSt.mk.injEq, and_true, true_and]
  funext i
  rcases Nat.eq_zero_or_pos k with rfl | hpos
  · -- base case: the very first insertion below the root
    have hnd0 : nd = ⟨none, .cst 0, none, .empty⟩ := by
      have h0 : cycChainNodes 0 0 = some ⟨none, .cst 0, none, .empty⟩ := rfl
      rw [h0] at hnd; injection hnd with h; exact h.symm
    subst hnd0
    show updf (updf (updf (cycChainNodes 0) 1 _) 0 _) 1 _ i = cycChainNodes 1 i
    unfold updf cycChainNodes
    split_ifs <;> simp_all
  · have hndk : nd = ⟨none, .functor 7 1, some (k - 1), .empty⟩ := by
      rw [cycChainNodes_leaf k hpos] at hnd
      injection hnd with h; exact h.symm
    subst hndk
    show updf (updf (updf (cycChainNodes k) (k + 1)
        (some ⟨none, .functor 7 1, none, .empty⟩))
      k (some ⟨none, .functor 7 1, some (k - 1), .single (.functor 7 1) (k + 1)⟩))
      (k + 1) (some ⟨none, .functor 7 1, some k, .empty⟩) i =
      cycChainNodes (k + 1) i
    by_cases hi1 : i = k + 1
    · rw [hi1, updf_self]
      unfold cycChainNodes
      have c1 : ¬ k + 1 = 0 := by omega
      have c2 : ¬ k + 1 < k + 1 := by omega
      have c3 : k + 1 = k + 1 ∧ 0 < k + 1 := ⟨rfl, by omega⟩
      rw [if_neg c1, if_neg c2, if_pos c3]
      simp
    · rw [updf_other _ _ _ _ hi1]
      by_cases hi2 : i = k
      · rw [hi2, updf_self]
        unfold cycChainNodes
        have c1 : ¬ k = 0 := by omega
        have c2 : k < k + 1 := by omega
        rw [if_neg c1, if_pos c2]
      · rw [updf_other _ _ _ _ hi2, updf_other _ _ _ _ hi1]
        unfold cycChainNodes
        by_cases hi0 : i = 0
        · rw [hi0, if_pos rfl, if_pos rfl]
          have c1 : ¬ k = 0 := by omega
          have c2 : ¬ k + 1 = 0 := by omega
          rw [if_neg c1, if_neg c2]
        · rw [if_neg hi0, if_neg hi0]
          by_cases hilt : i < k
          · have c2 : i < k + 1 := by omega
            rw [if_pos hilt, if_pos c2]
          · have c2 : ¬ (i = k ∧ 0 < k) := fun h => hi2 h.1
            have c3 : ¬ i < k + 1 := by omega
            have c4 : ¬ (i = k + 1 ∧ 0 < k + 1) := fun h => hi1 h.1
            rw [if_neg hilt, if_neg c2, if_neg c3, if_neg c4]

/-- One mid-walk step of the cyclic insertion: from `k` visited compounds
(`1 ≤ k ≤ 998`) to `k + 1`. -/
theorem cyc_step (k : Nat) (h1 : 1 ≤ k) (h2 : k ≤ 998) :
    walk_step true (cycWalkSt k) = cycWalkSt (k + 1) := by
  have hda : derefA heapCyc 1 = 0 := rfl
  have hcg : hget heapCyc 0 = Cell.fnc 7 1 1 := rfl
  have hcond : ¬ (True ∧ k + 1 = 1000 ∧
      ¬ is_acyclic heapCyc 0 = true) := by
    intro h
    have := h.2.1
    omega
  unfold walk_step cycWalkSt
  simp only [hda, hcg]
  rw [if_neg hcond, cycChain_follow k (by omega)]
  rfl

/-- Two tries with equal components are equal. -/
theorem trieSt_eq (a b : TrieSt) (h1 : ∀ i, a.nodes i = b.nodes i)
    (h2 : a.next = b.next) (h3 : a.node_count = b.node_count)
    (h4 : a.value_count = b.value_count) (h5 : a.indirects = b.indirects)
    (h6 : a.pool = b.pool) : a = b := by
  cases a; cases b
  simp only [TrieSt.mk.injEq]
  exact ⟨funext h1, h2, h3, h4, h5, h6⟩

/-- The very first walk step of the cyclic insertion. -/
theorem cyc_step0 :
    walk_step true ⟨heapCyc, [.ad 0], 0, 0, emptyTrie, some 0, .ok⟩ =
      cycWalkSt 1 := by
  have hda : derefA heapCyc 0 = 0 := rfl
  have hcg : hget heapCyc 0 = Cell.fnc 7 1 1 := rfl
  have hcond : ¬ (True ∧ 0 + 1 = 1000 ∧ ¬ is_acyclic heapCyc 0 = true) := by
    intro h
    have := h.2.1
    omega
  have hempty : emptyTrie = cycChainSt 0 := by
    refine trieSt_eq _ _ ?_ rfl rfl rfl rfl rfl
    intro i
    show (if i = 0 then some ⟨none, .cst 0, none, .empty⟩ else none) =
      cycChainNodes 0 i
    unfold cycChainNodes
    by_cases h0 : i = 0
    · rw [h0]; rfl
    · have c2 : ¬ i < 0 := by omega
      have c3 : ¬ (i = 0 ∧ 0 < 0) := fun hh => h0 hh.1
      rw [if_neg h0, if_neg h0, if_neg c2, if_neg c3]
  unfold walk_step
  simp only [hda, hcg]
  rw [if_neg hcond, hempty, cycChain_follow 0 (by omega)]
  rfl

/-- `prune_error` adds the error node below leaf 999. -/
theorem cyc_errTrie_follow :
    follow_node (cycChainSt 999) 999 .errv true = (cycErrTrie, some 1000) := by
  rw [follow_node_insert_empty (cycChainSt 999) 999 .errv
    ⟨none, .functor 7 1, some 998, .empty⟩ (cycChainNodes_leaf 999 (by omega))
    rfl rfl (by show ¬ (999 : Nat) = 1000; omega)]
  simp only [Prod.mk.injEq]
  refine ⟨?_, rfl⟩
  refine trieSt_eq _ _ ?_ rfl rfl rfl rfl rfl
  intro i
  show updf (updf (updf (cycChainNodes 999) 1000
      (some ⟨none, .errv, none, .empty⟩))
    999 (some ⟨none, .functor 7 1, some 998, .single .errv 1000⟩))
    1000 (some ⟨none, .errv, some 999, .empty⟩) i = cycErrNodes i
  by_cases h1 : i = 1000
  · rw [h1, updf_self]; rfl
  · rw [updf_other _ _ _ _ h1]
    by_cases h2 : i = 999
    · rw [h2, updf_self]; rfl
    · rw [updf_other _ _ _ _ h2, updf_other _ _ _ _ h1]
      unfold cycChainNodes cycErrNodes
      by_cases h0 : i = 0
      · rw [h0]; rfl
      · rw [if_neg h0, if_neg h0]
        by_cases hlt : i < 999
        · rw [if_pos hlt, if_pos hlt]
        · have c2 : ¬ (i = 999 ∧ 0 < 999) := fun hh => h2 hh.1
          rw [if_neg hlt, if_neg c2, if_neg hlt, if_neg h2, if_neg h1]

/-- The single-child ancestor chain of the error node, as a `PruneChain`. -/
theorem cyc_chain_below : ∀ j, 1 ≤ j → j ≤ 999 →
    PruneChain cycErrTrie j (downFrom (j - 1)) 0 (.functor 7 1) := by
  intro j
  induction j with
  | zero => omega
  | succ j ih =>
    intro _ hle
    rcases Nat.eq_zero_or_pos j with rfl | hj
    · exact ⟨⟨none, .functor 7 1, some 0, .single (.functor 7 1) 2⟩, rfl, rfl, rfl⟩
    · have hdf : downFrom (j + 1 - 1) = j :: downFrom (j - 1) := by
        show downFrom j = j :: downFrom (j - 1)
        cases j with
        | zero => omega
        | succ jj => rfl
      rw [hdf]
      have hpd : cycErrNodes j =
          some ⟨none, .functor 7 1, some (j - 1), .single (.functor 7 1) (j + 1)⟩ := by
        unfold cycErrNodes
        have c1 : ¬ j = 0 := by omega
        have c2 : j < 999 := by omega
        rw [if_neg c1, if_pos c2]
      by_cases h999 : j + 1 = 999
      · refine ⟨⟨none, .functor 7 1, some 998, .single .errv 1000⟩, _, ?_, ?_,
          hpd, rfl, ih (by omega) (by omega)⟩
        · show cycErrNodes (j + 1) = _
          unfold cycErrNodes
          have c1 : ¬ j + 1 = 0 := by omega
          have c2 : ¬ j + 1 < 999 := by omega
          rw [if_neg c1, if_neg c2, if_pos h999]
        · exact congrArg some (by omega)
      · refine ⟨⟨none, .functor 7 1, some (j + 1 - 1),
          .single (.functor 7 1) (j + 1 + 1)⟩, _, ?_, ?_,
          hpd, rfl, ih (by omega) (by omega)⟩
        · show cycErrNodes (j + 1) = _
          unfold cycErrNodes
          have c1 : ¬ j + 1 = 0 := by omega
          have c2 : j + 1 < 999 := by omega
          rw [if_neg c1, if_pos c2]
        · exact congrArg some (by omega)

set_option maxHeartbeats 2000000 in
/-- `prune_error` on the chain: every node is detached but none is
deallocated, leaving the final trie `cycFinalSt` with `node_count = 1000`. -/
theorem cyc_prune : prune_error (cycChainSt 999) 999 = cycFinalSt := by
  unfold prune_error
  rw [cyc_errTrie_follow]
  show prune_node (cycErrTrie.node_count + 1) cycErrTrie 1000 = cycFinalSt
  have hchain : PruneChain cycErrTrie 1000 (downFrom 999) 0 (.functor 7 1) := by
    have hdf : downFrom 999 = 999 :: downFrom 998 := rfl
    rw [hdf]
    exact ⟨⟨none, .errv, some 999, .empty⟩,
      ⟨none, .functor 7 1, some 998, .single .errv 1000⟩,
      rfl, rfl, rfl, rfl, cyc_chain_below 999 (by omega) (by omega)⟩
  have hnodup : ((1000 : Nat) :: downFrom 999 ++ [0]).Nodup := by
    refine List.nodup_cons.mpr ⟨?_, ?_⟩
    · intro hmem
      rcases List.mem_append.mp hmem with hm | hm
      · rw [mem_downFrom] at hm; omega
      · simp at hm
    · refine List.Nodup.append (downFrom_nodup 999) (by simp) ?_
      intro a ha hb
      rw [mem_downFrom] at ha
      simp at hb
      omega
  have hrun := prune_chain_run (downFrom 999) (cycErrTrie.node_count + 1)
    cycErrTrie 1000 0 (.functor 7 1)
    ⟨none, .errv, some 999, .empty⟩
    ⟨none, .cst 0, none, .single (.functor 7 1) 1⟩
    (by rw [downFrom_length]; rfl)
    hnodup rfl rfl hchain rfl
    (Or.inl ⟨rfl, by rw [lastNode_downFrom 999 1000 (by omega)]⟩)
  obtain ⟨hun, hxcl, hlcl, hScl, hc1, hc2, hc3, hc4, hc5⟩ := hrun
  refine trieSt_eq _ _ ?_ hc3 hc1 hc2 hc4 hc5
  intro i
  show (prune_node (cycErrTrie.node_count + 1) cycErrTrie 1000).nodes i =
    cycPrunedNodes i
  by_cases hiS : i = 0
  · rw [hiS, hScl]; rfl
  · by_cases hix : i = 1000
    · rw [hix, hxcl]; rfl
    · by_cases hil : i ∈ downFrom 999
      · obtain ⟨d, hd1, hd2⟩ := hlcl i hil
        rw [hd2]
        rw [mem_downFrom] at hil
        replace hd1 : cycErrNodes i = some d := hd1
        by_cases h999 : i = 999
        · rw [h999] at hd1 ⊢
          have hv : cycErrNodes 999 =
              some ⟨none, .functor 7 1, some 998, .single .errv 1000⟩ := rfl
          rw [hv] at hd1
          injection hd1 with hd
          rw [← hd]
          rfl
        · have hv : cycErrNodes i =
              some ⟨none, .functor 7 1, some (i - 1),
                .single (.functor 7 1) (i + 1)⟩ := by
            unfold cycErrNodes
            have c1 : ¬ i = 0 := by omega
            have c2 : i < 999 := by omega
            rw [if_neg c1, if_pos c2]
          rw [hv] at hd1
          injection hd1 with hd
          rw [← hd]
          show _ = cycPrunedNodes i
          unfold cycPrunedNodes
          have c1 : ¬ i = 0 := by omega
          have c2 : i ≤ 999 := by omega
          rw [if_neg c1, if_pos c2]
      · rw [hun i hiS (by
          intro hmem
          rcases List.mem_cons.mp hmem with hm | hm
          · exact hix hm
          · exact hil hm)]
        rw [mem_downFrom] at hil
        show cycErrNodes i = cycPrunedNodes i
        unfold cycErrNodes cycPrunedNodes
        have c1 : ¬ i < 999 := by omega
        have c2 : ¬ i = 999 := by omega
        have c3 : ¬ i ≤ 999 := by omega
        rw [if_neg hiS, if_neg c1, if_neg c2, if_neg hix, if_neg hiS,
          if_neg c3]

/-- The 1000th compound visit: the acyclicity check fires and the walk
aborts with the cyclic error, pruning (but leaking) the chain. -/
theorem cyc_step999 : walk_step true (cycWalkSt 999) = cycErrWalk := by
  have hda : derefA heapCyc 1 = 0 := rfl
  have hcg : hget heapCyc 0 = Cell.fnc 7 1 1 := rfl
  unfold walk_step cycWalkSt
  simp only [hda, hcg]
  rw [if_pos ⟨trivial, trivial, by decide⟩, cyc_prune]
  rfl

/-- The mid-walk states are never stop states. -/
theorem cyc_not_stopped {k : Nat} :
    ¬ ((cycWalkSt k).node = none ∨ (cycWalkSt k).ag = []) := by
  rintro (h | h)
  · exact Option.noConfusion h
  · exact List.noConfusion h

/-- Running the walk from `k = 999 - d` visited compounds to the abort. -/
theorem cyc_run_iter : ∀ d, d ≤ 998 →
    walk_run (d + 2) true (cycWalkSt (999 - d)) = some cycErrWalk := by
  intro d
  induction d with
  | zero =>
    intro _
    show walk_run 2 true (cycWalkSt 999) = some cycErrWalk
    unfold walk_run
    rw [if_neg cyc_not_stopped, cyc_step999]
    rfl
  | succ d ih =>
    intro hle
    show walk_run (d + 2 + 1) true (cycWalkSt (999 - (d + 1))) = some cycErrWalk
    unfold walk_run
    rw [if_neg cyc_not_stopped,
      cyc_step (999 - (d + 1)) (by omega) (by omega),
      show 999 - (d + 1) + 1 = 999 - d from by omega]
    exact ih (by omega)

/-- C5 (exhibiting the defect): inserting the cyclic term `X = f(X)` into an
empty trie aborts with the distinguished cyclic-term error (the check firing
at the 1000th compound visit), but the trie's `node_count` after the failed
call is 1000, not the 0 it held before the call: `prune_error` detaches the
partially built chain, yet `clear_node` never deallocates childless nodes,
so every chain node (and the error node's chain) stays allocated. -/
theorem C5_cyclic_insert_aborts_but_leaks_nodes :
    trie_lookup 1001 emptyTrie heapCyc 0 true =
      some (.cyclic, cycFinalSt, heapCyc) ∧
    cycFinalSt.node_count = 1000 ∧
    emptyTrie.node_count = 0 := by
  refine ⟨?_, rfl, rfl⟩
  unfold trie_lookup
  have hrun : walk_run 1001 true ⟨heapCyc, [.ad 0], 0, 0, emptyTrie, some 0, .ok⟩ =
      some cycErrWalk := by
    show walk_run (1000 + 1) true _ = _
    unfold walk_run
    rw [if_neg (by simp), cyc_step0]
    exact cyc_run_iter 998 (by omega)
  rw [hrun]
  rfl

/-! ### C9: variable restoration by clear_vars -/


/-- Auxiliary: writing inside the heap is visible at the written address. -/
theorem hget_set_self (h : List Cell) (a : Nat) (c : Cell) (ha : a < h.length) :
    hget (h.set a c) a = c := by
  simp [hget, List.getD, List.getElem?_set_self, ha]

/-- Auxiliary: writing the heap leaves other addresses alone. -/
theorem hget_set_other (h : List Cell) (a b : Nat) (c : Cell) (hne : b ≠ a) :
    hget (h.set a c) b = hget h b := by
  simp [hget, List.getD, List.getElem?_set_ne (fun he => hne he.symm)]

/-- Auxiliary: an address holding a non-default cell is in range. -/
theorem hget_lt (h : List Cell) (a : Nat) (hne : hget h a ≠ .cst 0) :
    a < h.length := by
  by_contra hge
  exact hne (by simp [hget, List.getD, List.getElem?_eq_none (Nat.le_of_not_lt hge)])

theorem applyMarks_nil (h : List Cell) : applyMarks h [] = h := rfl

theorem applyMarks_cons (h : List Cell) (e : Nat × Nat) (m : List (Nat × Nat)) :
    applyMarks h (e :: m) = applyMarks (h.set e.1 (.mark e.2)) m := rfl

theorem applyMarks_append (h : List Cell) (m1 m2 : List (Nat × Nat)) :
    applyMarks h (m1 ++ m2) = applyMarks (applyMarks h m1) m2 := by
  simp [applyMarks, List.foldl_append]

theorem applyMarks_length (m : List (Nat × Nat)) :
    ∀ h : List Cell, (applyMarks h m).length = h.length := by
  induction m with
  | nil => intro h; rfl
  | cons e r ih => intro h; rw [applyMarks_cons, ih, List.length_set]

/-- Auxiliary: an unmarked address reads the same in the marked heap. -/
theorem hget_applyMarks_not (m : List (Nat × Nat)) :
    ∀ (h : List Cell) (a : Nat), (∀ i, (a, i) ∉ m) →
      hget (applyMarks h m) a = hget h a := by
  induction m with
  | nil => intro h a _; rfl
  | cons e r ih =>
    intro h a hnm
    rw [ applyMarks_cons, ih _ _ (fun i hi => hnm i (List.mem_cons.mpr (Or.inr hi)))]
    exact hget_set_other h e.1 a _ (fun he => hnm e.2 (he ▸ List.mem_cons.mpr (Or.inl rfl)))

/-- Auxiliary: a marked address reads its mark in the marked heap. -/
theorem hget_applyMarks_mem (m : List (Nat × Nat)) :
    ∀ (h : List Cell) (a i : Nat), (m.map Prod.fst).Nodup → (a, i) ∈ m →
      a < h.length → hget (applyMarks h m) a = .mark i := by
  induction m with
  | nil => intro h a i _ hm _; cases hm
  | cons e r ih =>
    intro h a i hnd hm hlt
    rw [applyMarks_cons]
    have hnd' : (∀ x, (e.1, x) ∉ r) ∧ (r.map Prod.fst).Nodup := by
      simpa using hnd
    rcases List.mem_cons.mp hm with he | hr
    · have hea : e.1 = a := by rw [← he]
      have hnone : ∀ j, (a, j) ∉ r := fun j => hea ▸ hnd'.1 j
      rw [hget_applyMarks_not r _ _ hnone, ← he]
      exact hget_set_self h a (.mark i) hlt
    · exact ih _ a i hnd'.2 hr (by simpa using hlt)

/-- Auxiliary: marking rewrites unbound cells only, so dereferencing is
unaffected by the accumulated marks. -/
theorem derefN_applyMarks (m : List (Nat × Nat)) (h : List Cell)
    (hw : ∀ e ∈ m, hget h e.1 = Cell.unbound ∧ e.1 < h.length)
    (hnd : (m.map Prod.fst).Nodup) :
    ∀ (f a : Nat), derefN f (applyMarks h m) a = derefN f h a := by
  intro f
  induction f with
  | zero => intro a; rfl
  | succ f ih =>
    intro a
    unfold derefN
    by_cases hm : ∃ i, (a, i) ∈ m
    · obtain ⟨i, hi⟩ := hm
      rw [hget_applyMarks_mem m h a i hnd hi (hw _ hi).2, (hw _ hi).1]
    · have hnone : ∀ i, (a, i) ∉ m := fun i hi => hm ⟨i, hi⟩
      rw [hget_applyMarks_not m h a hnone]
      cases hget h a <;> simp [ih]

/-- Auxiliary: `deRef` on the marked heap agrees with `deRef` on the
original heap. -/
theorem derefA_applyMarks (m : List (Nat × Nat)) (h : List Cell)
    (hw : ∀ e ∈ m, hget h e.1 = Cell.unbound ∧ e.1 < h.length)
    (hnd : (m.map Prod.fst).Nodup) (a : Nat) :
    derefA (applyMarks h m) a = derefA h a := by
  unfold derefA
  rw [applyMarks_length, derefN_applyMarks m h hw hnd]

/-- Auxiliary: inversion of `ReadsAs` — the four possible shapes of the cell
at the dereferenced address. -/
theorem ReadsAs_cell (h : List Cell) (a : Nat) (t : PTerm)
    (hr : ReadsAs h a t) :
    (t = .pvar (derefA h a) ∧ hget h (derefA h a) = .unbound) ∨
    (∃ w, t = .patom w ∧ hget h (derefA h a) = .cst w) ∨
    (∃ w, t = .pbig w ∧ hget h (derefA h a) = .big w) ∨
    (∃ f n b ts, t = .pcomp f ts ∧ hget h (derefA h a) = .fnc f n b ∧
      ReadsArgs h n b ts) := by
  match hr with
  | .var _ _ hc => exact Or.inl ⟨rfl, hc⟩
  | .atom _ _ w hc => exact Or.inr (Or.inl ⟨w, rfl, hc⟩)
  | .big _ _ w hc => exact Or.inr (Or.inr (Or.inl ⟨w, rfl, hc⟩))
  | .comp _ _ f n b ts hc hargs =>
    exact Or.inr (Or.inr (Or.inr ⟨f, n, b, ts, rfl, hc, hargs⟩))

/-- Auxiliary: resetting one marked cell realises removal of its entry from
the mark list. -/
theorem applyMarks_reset (h : List Cell) (m : List (Nat × Nat)) (p i : Nat)
    (hw : ∀ e ∈ m, hget h e.1 = Cell.unbound ∧ e.1 < h.length)
    (hnd : (m.map Prod.fst).Nodup) (hmem : (p, i) ∈ m) :
    (applyMarks h m).set p Cell.unbound =
      applyMarks h (m.filter (fun e => e.1 != p)) := by
  have hplen : p < h.length := (hw _ hmem).2
  have hfw : ∀ e ∈ m.filter (fun e => e.1 != p), e ∈ m :=
    fun e he => (List.mem_filter.mp he).1
  have hsub : (m.filter (fun e => e.1 != p)).Sublist m := List.filter_sublist m
  have hfnd : ((m.filter (fun e => e.1 != p)).map Prod.fst).Nodup :=
    (hsub.map Prod.fst).nodup hnd
  apply List.ext_getElem
  · simp [applyMarks_length]
  intro j hj1 hj2
  have hjlen : j < h.length := by
    rw [List.length_set, applyMarks_length] at hj1
    exact hj1
  have hgetd : ∀ (l : List Cell) (hl : j < l.length), l[j] = hget l j := by
    intro l hl
    simp [hget, List.getD, List.getElem?_eq_getElem hl]
  rw [hgetd _ hj1, hgetd _ hj2]
  by_cases hjp : j = p
  · subst hjp
    rw [hget_set_self _ _ _ (by rw [applyMarks_length]; exact hjlen)]
    have hnone : ∀ i', (j, i') ∉ m.filter (fun e => e.1 != j) := by
      intro i' hi'
      have hx := (List.mem_filter.mp hi').2
      simp at hx
    rw [hget_applyMarks_not _ _ _ hnone]
    exact ((hw _ hmem).1).symm
  · rw [hget_set_other _ _ _ _ hjp]
    by_cases hm : ∃ i', (j, i') ∈ m
    · obtain ⟨i', hi'⟩ := hm
      have hif : (j, i') ∈ m.filter (fun e => e.1 != p) := by
        rw [List.mem_filter]
        exact ⟨hi', by simpa using hjp⟩
      rw [hget_applyMarks_mem m h j i' hnd hi' (hw _ hi').2,
        hget_applyMarks_mem _ h j i' hfnd hif (hw _ hi').2]
    · have hnone : ∀ i', (j, i') ∉ m := fun i' hi' => hm ⟨i', hi'⟩
      have hnonef : ∀ i', (j, i') ∉ m.filter (fun e => e.1 != p) :=
        fun i' hi' => hnone i' (hfw _ hi')
      rw [hget_applyMarks_not m h j hnone, hget_applyMarks_not _ h j hnonef]

/-- Auxiliary: removing the one entry at a marked address shortens the mark
list by exactly one. -/
theorem filter_fst_length (m : List (Nat × Nat)) :
    ∀ (p i : Nat), (m.map Prod.fst).Nodup → (p, i) ∈ m →
      (m.filter (fun e => e.1 != p)).length = m.length - 1 := by
  induction m with
  | nil => intro p i _ hm; cases hm
  | cons e r ih =>
    intro p i hnd hm
    have hnd' : (∀ x, (e.1, x) ∉ r) ∧ (r.map Prod.fst).Nodup := by
      simpa using hnd
    rcases List.mem_cons.mp hm with he | hr
    · have hep : e.1 = p := by rw [← he]
      have hall : r.filter (fun e => e.1 != p) = r := by
        apply List.filter_eq_self.mpr
        intro x hx
        have : x.1 ≠ p := by
          intro hxp
          exact hnd'.1 x.2 (by
            have : x = (e.1, x.2) := by
              rw [hep]
              rw [← hxp]
            rw [← this]
            exact hx)
        simpa using this
      simp [List.filter_cons, hep, hall]
    · have hlen := ih p i hnd'.2 hr
      have hrpos : 0 < r.length := List.length_pos_of_mem hr
      by_cases hep : e.1 = p
      · exfalso
        apply hnd'.1 i
        have hpe : (e.1, i) = (p, i) := by rw [hep]
        rw [hpe]
        exact hr
      · have : (e :: r).filter (fun e => e.1 != p) =
            e :: r.filter (fun e => e.1 != p) := by
          simp [List.filter_cons, hep]
        rw [this]
        simp only [List.length_cons, hlen]
        omega

/-- Auxiliary: inversion — no arguments. -/
theorem ReadsArgs_zero (h : List Cell) (b : Nat) (ts : PTermL)
    (hr : ReadsArgs h 0 b ts) : ts = .nil := by
  match hr with
  | .nil _ _ => rfl

/-- Auxiliary: inversion — one more argument. -/
theorem ReadsArgs_succ (h : List Cell) (n b : Nat) (ts : PTermL)
    (hr : ReadsArgs h (n + 1) b ts) :
    ∃ t ts', ts = .cons t ts' ∧ ReadsAs h b t ∧ ReadsArgs h n (b + 1) ts' := by
  match hr with
  | .cons _ _ _ t ts' ht hts => exact ⟨t, ts', rfl, ht, hts⟩

theorem pendW_append (l1 : List PendI) :
    ∀ l2, pendW (l1 ++ l2) = pendW l1 ++ pendW l2 := by
  induction l1 with
  | nil => intro l2; rfl
  | cons e r ih =>
    intro l2
    cases e <;> simp [pendW, ih]

/-- Auxiliary: the agenda items scheduled for a compound's arguments. -/
theorem pendW_argsPend (h : List Cell) :
    ∀ (n b : Nat) (ts : PTermL), ReadsArgs h n b ts →
      pendW (argsPend b ts) = (List.range n).map (fun i => WItem.ad (b + i)) := by
  intro n
  induction n with
  | zero =>
    intro b ts hr
    rw [ReadsArgs_zero h b ts hr]
    rfl
  | succ n ih =>
    intro b ts hr
    obtain ⟨t, ts', hts, _, hrest⟩ := ReadsArgs_succ h n b ts hr
    subst hts
    show WItem.ad b :: pendW (argsPend (b + 1) ts') = _
    rw [ih (b + 1) ts' hrest, List.range_succ_eq_map, List.map_cons,
      List.map_map]
    refine congrArg₂ _ (by rw [Nat.add_zero]) ?_
    apply List.map_congr_left
    intro i _
    show WItem.ad (b + 1 + i) = WItem.ad (b + (i + 1))
    rw [Nat.add_right_comm, Nat.add_assoc]

/-- Auxiliary: every scheduled argument reads as its term, whose variables
are among the compound's. -/
theorem argsPend_mem (h : List Cell) :
    ∀ (n b : Nat) (ts : PTermL), ReadsArgs h n b ts →
      ∀ a t, PendI.tm a t ∈ argsPend b ts →
        ReadsAs h a t ∧ ∀ v ∈ vaT t, v ∈ vaL ts := by
  intro n
  induction n with
  | zero =>
    intro b ts hr a t hm
    rw [ReadsArgs_zero h b ts hr] at hm
    cases hm
  | succ n ih =>
    intro b ts hr a t hm
    obtain ⟨t0, ts', hts, ht0, hrest⟩ := ReadsArgs_succ h n b ts hr
    subst hts
    rcases List.mem_cons.mp hm with he | hr2
    · injection he with h1 h2
      subst h1; subst h2
      exact ⟨ht0, fun v hv => by
        show v ∈ vaT t ++ vaL ts'
        exact List.mem_append.mpr (Or.inl hv)⟩
    · obtain ⟨hra, hsub⟩ := ih (b + 1) ts' hrest a t hr2
      exact ⟨hra, fun v hv => by
        show v ∈ vaT t0 ++ vaL ts'
        exact List.mem_append.mpr (Or.inr (hsub v hv))⟩

/-- Auxiliary: the `clear_vars` agenda items for a compound's arguments. -/
theorem argsPendC_fst (h : List Cell) :
    ∀ (n b : Nat) (ts : PTermL), ReadsArgs h n b ts →
      (argsPendC b ts).map Prod.fst = (List.range n).map (fun i => b + i) := by
  intro n
  induction n with
  | zero =>
    intro b ts hr
    rw [ReadsArgs_zero h b ts hr]
    rfl
  | succ n ih =>
    intro b ts hr
    obtain ⟨t, ts', hts, _, hrest⟩ := ReadsArgs_succ h n b ts hr
    subst hts
    show b :: (argsPendC (b + 1) ts').map Prod.fst = _
    rw [ih (b + 1) ts' hrest, List.range_succ_eq_map, List.map_cons,
      List.map_map]
    refine congrArg₂ _ (by rw [Nat.add_zero]) ?_
    apply List.map_congr_left
    intro i _
    show b + 1 + i = b + (i + 1)
    rw [Nat.add_right_comm, Nat.add_assoc]

/-- Auxiliary: as `argsPend_mem` for the `clear_vars` agenda. -/
theorem argsPendC_mem (h : List Cell) :
    ∀ (n b : Nat) (ts : PTermL), ReadsArgs h n b ts →
      ∀ q, q ∈ argsPendC b ts → ReadsAs h q.1 q.2 := by
  intro n
  induction n with
  | zero =>
    intro b ts hr q hm
    rw [ReadsArgs_zero h b ts hr] at hm
    cases hm
  | succ n ih =>
    intro b ts hr q hm
    obtain ⟨t0, ts', hts, ht0, hrest⟩ := ReadsArgs_succ h n b ts hr
    subst hts
    rcases List.mem_cons.mp hm with he | hr2
    · subst he; exact ht0
    · exact ih (b + 1) ts' hrest q hr2

/-- Auxiliary: every variable of a compound argument list occurs in one of
its scheduled arguments. -/
theorem argsPendC_cover (h : List Cell) :
    ∀ (n b : Nat) (ts : PTermL), ReadsArgs h n b ts →
      ∀ v, v ∈ vaL ts → ∃ q ∈ argsPendC b ts, v ∈ vaT q.2 := by
  intro n
  induction n with
  | zero =>
    intro b ts hr v hv
    rw [ReadsArgs_zero h b ts hr] at hv
    cases hv
  | succ n ih =>
    intro b ts hr v hv
    obtain ⟨t0, ts', hts, _, hrest⟩ := ReadsArgs_succ h n b ts hr
    subst hts
    have hv' : v ∈ vaT t0 ++ vaL ts' := hv
    rcases List.mem_append.mp hv' with hl | hrr
    · exact ⟨(b, t0), List.mem_cons.mpr (Or.inl rfl), hl⟩
    · obtain ⟨q, hq, hvq⟩ := ih (b + 1) ts' hrest v hrr
      exact ⟨q, List.mem_cons.mpr (Or.inr hq), hvq⟩

/-- Auxiliary: the master heap invariant of the `trie_lookup` walk loop —
whatever the trie does, the heap stays the original heap with a well-formed
mark list applied, and `var_number` counts the marks. -/
theorem walk_run_heap (t0 : PTerm) (h0 : List Cell) :
    ∀ (f : Nat) (add : Bool) (s s' : WalkSt) (pend : List PendI)
      (m : List (Nat × Nat)),
      s.h = applyMarks h0 m →
      s.ag = pendW pend →
      (∀ a t, PendI.tm a t ∈ pend →
        ReadsAs h0 a t ∧ ∀ v ∈ vaT t, v ∈ vaT t0) →
      MarksWF h0 t0 m →
      s.vn = m.length →
      walk_run f add s = some s' →
      ∃ m', s'.h = applyMarks h0 m' ∧ MarksWF h0 t0 m' ∧
        s'.vn = m'.length := by
  intro f
  induction f with
  | zero =>
    intro add s s' pend m hh hag hpend hwf hvn hrun
    unfold walk_run at hrun
    split at hrun
    · injection hrun with h; subst h; exact ⟨m, hh, hwf, hvn⟩
    · cases hrun
  | succ f ih =>
    intro add s s' pend m hh hag hpend hwf hvn hrun
    unfold walk_run at hrun
    split at hrun
    · injection hrun with h; subst h; exact ⟨m, hh, hwf, hvn⟩
    · rename_i hstop
      have hnode : ∃ nd, s.node = some nd := by
        cases h : s.node with
        | none => exact absurd (Or.inl h) hstop
        | some nd => exact ⟨nd, rfl⟩
      obtain ⟨nd, hnd⟩ := hnode
      obtain ⟨hwf1, hwf2⟩ := hwf
      cases pend with
      | nil =>
        exact absurd (Or.inr (by rw [hag]; rfl)) hstop
      | cons pi rest =>
        cases pi with
        | pop =>
          have hagr : s.ag = .pop :: pendW rest := by rw [hag]; rfl
          have hsh : (walk_step add s).h = s.h := by
            simp [walk_step, hnd, hagr]
          have hsag : (walk_step add s).ag = pendW rest := by
            simp [walk_step, hnd, hagr]
          have hsvn : (walk_step add s).vn = s.vn := by
            simp [walk_step, hnd, hagr]
          exact ih add _ s' rest m (by rw [hsh, hh]) hsag
            (fun a t hm => hpend a t (List.mem_cons.mpr (Or.inr hm)))
            ⟨hwf1, hwf2⟩ (by rw [hsvn, hvn]) hrun
        | tm a t =>
          have hagr : s.ag = .ad a :: pendW rest := by rw [hag]; rfl
          obtain ⟨hra, hsub⟩ :=
            hpend a t (List.mem_cons.mpr (Or.inl rfl))
          have hwf01 : ∀ e ∈ m, hget h0 e.1 = Cell.unbound ∧
              e.1 < h0.length :=
            fun e he => ⟨(hwf1 e he).1, (hwf1 e he).2.1⟩
          have hp : derefA s.h a = derefA h0 a := by
            rw [hh]; exact derefA_applyMarks m h0 hwf01 hwf2 a
          have hrest : ∀ a' t', PendI.tm a' t' ∈ rest →
              ReadsAs h0 a' t' ∧ ∀ v ∈ vaT t', v ∈ vaT t0 :=
            fun a' t' hm => hpend a' t' (List.mem_cons.mpr (Or.inr hm))
          by_cases hmk : ∃ i, (derefA h0 a, i) ∈ m
          · -- already marked: the `.mark` branch, nothing changes
            obtain ⟨i, hi⟩ := hmk
            have hc' : hget s.h (derefA s.h a) = .mark i := by
              rw [hp, hh]
              exact hget_applyMarks_mem m h0 _ i hwf2 hi (hwf01 _ hi).2
            have hsh : (walk_step add s).h = s.h := by
              simp [walk_step, hnd, hagr, hc']
            have hsag : (walk_step add s).ag = pendW rest := by
              simp [walk_step, hnd, hagr, hc']
            have hsvn : (walk_step add s).vn = s.vn := by
              simp [walk_step, hnd, hagr, hc']
            exact ih add _ s' rest m (by rw [hsh, hh]) hsag hrest
              ⟨hwf1, hwf2⟩ (by rw [hsvn, hvn]) hrun
          · have hnone : ∀ i, (derefA h0 a, i) ∉ m :=
              fun i hi => hmk ⟨i, hi⟩
            have hc0 : hget s.h (derefA s.h a) = hget h0 (derefA h0 a) := by
              rw [hp, hh]
              exact hget_applyMarks_not m h0 _ hnone
            rcases ReadsAs_cell h0 a t hra with
              ⟨ht, hcu⟩ | ⟨w, ht, hcw⟩ | ⟨w, ht, hcw⟩ |
              ⟨fn, n, b, ts, ht, hcw, hargs⟩
            · -- a fresh variable: mark it
              have hc' : hget s.h (derefA s.h a) = .unbound := by
                rw [hc0, hcu]
              have hsh : (walk_step add s).h =
                  s.h.set (derefA s.h a) (.mark (s.vn + 1)) := by
                simp [walk_step, hnd, hagr, hc']
              have hsag : (walk_step add s).ag = pendW rest := by
                simp [walk_step, hnd, hagr, hc']
              have hsvn : (walk_step add s).vn = s.vn + 1 := by
                simp [walk_step, hnd, hagr, hc']
              have hlt : derefA h0 a < h0.length :=
                hget_lt h0 _ (by rw [hcu]; intro hx; cases hx)
              have hhm : (walk_step add s).h =
                  applyMarks h0 (m ++ [(derefA h0 a, m.length + 1)]) := by
                rw [hsh, hp, hh, hvn, applyMarks_append]
                rfl
              have hnin : derefA h0 a ∉ m.map Prod.fst := by
                intro hx
                obtain ⟨e, he, hefst⟩ := List.mem_map.mp hx
                exact hnone e.2 (by
                  have : (derefA h0 a, e.2) = e := by
                    rw [← hefst]
                  rw [this]
                  exact he)
              refine ih add _ s' rest (m ++ [(derefA h0 a, m.length + 1)])
                hhm hsag hrest ⟨?_, ?_⟩ ?_ hrun
              · intro e he
                rcases List.mem_append.mp he with hel | her
                · exact hwf1 e hel
                · rcases List.mem_cons.mp her with hee | hee
                  · subst hee
                    refine ⟨hcu, hlt, hsub _ ?_⟩
                    rw [ht]
                    exact List.mem_singleton.mpr rfl
                  · cases hee
              · rw [List.map_append]
                simp [List.nodup_append, hwf2, hnin]
              · rw [hsvn, hvn, List.length_append]
                rfl
            · -- an inline constant
              have hc' : hget s.h (derefA s.h a) = .cst w := by
                rw [hc0, hcw]
              have hsh : (walk_step add s).h = s.h := by
                simp [walk_step, hnd, hagr, hc']
              have hsag : (walk_step add s).ag = pendW rest := by
                simp [walk_step, hnd, hagr, hc']
              have hsvn : (walk_step add s).vn = s.vn := by
                simp [walk_step, hnd, hagr, hc']
              exact ih add _ s' rest m (by rw [hsh, hh]) hsag hrest
                ⟨hwf1, hwf2⟩ (by rw [hsvn, hvn]) hrun
            · -- an indirect value
              have hc' : hget s.h (derefA s.h a) = .big w := by
                rw [hc0, hcw]
              cases hi : (trie_intern_indirect s.st w add).2 with
              | some tok =>
                have hsh : (walk_step add s).h = s.h := by
                  simp [walk_step, hnd, hagr, hc', hi]
                have hsag : (walk_step add s).ag = pendW rest := by
                  simp [walk_step, hnd, hagr, hc', hi]
                have hsvn : (walk_step add s).vn = s.vn := by
                  simp [walk_step, hnd, hagr, hc', hi]
                exact ih add _ s' rest m (by rw [hsh, hh]) hsag hrest
                  ⟨hwf1, hwf2⟩ (by rw [hsvn, hvn]) hrun
              | none =>
                have hsh : (walk_step add s).h = s.h := by
                  simp [walk_step, hnd, hagr, hc', hi]
                have hsag : (walk_step add s).ag = pendW rest := by
                  simp [walk_step, hnd, hagr, hc', hi]
                have hsvn : (walk_step add s).vn = s.vn := by
                  simp [walk_step, hnd, hagr, hc', hi]
                exact ih add _ s' rest m (by rw [hsh, hh]) hsag hrest
                  ⟨hwf1, hwf2⟩ (by rw [hsvn, hvn]) hrun
            · -- a compound
              have hc' : hget s.h (derefA s.h a) = .fnc fn n b := by
                rw [hc0, hcw]
              by_cases hcy : add = true ∧ s.cps + 1 = 1000 ∧
                  ¬ is_acyclic s.h (derefA s.h a) = true
              · -- the cyclic-abort branch: heap untouched, walk stops
                have hsh : (walk_step add s).h = s.h := by
                  simp only [walk_step, hnd, hagr, hc']
                  rw [if_pos (by simpa using hcy)]
                have hsag : (walk_step add s).ag = pendW rest := by
                  simp only [walk_step, hnd, hagr, hc']
                  rw [if_pos (by simpa using hcy)]
                have hsvn : (walk_step add s).vn = s.vn := by
                  simp only [walk_step, hnd, hagr, hc']
                  rw [if_pos (by simpa using hcy)]
                exact ih add _ s' rest m (by rw [hsh, hh]) hsag hrest
                  ⟨hwf1, hwf2⟩ (by rw [hsvn, hvn]) hrun
              · -- descend into the arguments
                have hsh : (walk_step add s).h = s.h := by
                  simp only [walk_step, hnd, hagr, hc']
                  rw [if_neg (by simpa using hcy)]
                have hsag : (walk_step add s).ag =
                    pendW (argsPend b ts ++ .pop :: rest) := by
                  simp only [walk_step, hnd, hagr, hc']
                  rw [if_neg (by simpa using hcy)]
                  rw [pendW_append, pendW_argsPend h0 n b ts hargs]
                  rfl
                have hsvn : (walk_step add s).vn = s.vn := by
                  simp only [walk_step, hnd, hagr, hc']
                  rw [if_neg (by simpa using hcy)]
                refine ih add _ s' (argsPend b ts ++ .pop :: rest) m
                  (by rw [hsh, hh]) hsag ?_ ⟨hwf1, hwf2⟩
                  (by rw [hsvn, hvn]) hrun
                intro a' t' hm
                rcases List.mem_append.mp hm with hargm | hrm
                · obtain ⟨hra', hsub'⟩ :=
                    argsPend_mem h0 n b ts hargs a' t' hargm
                  refine ⟨hra', fun v hv => hsub v ?_⟩
                  rw [ht]
                  exact hsub' v hv
                · rcases List.mem_cons.mp hrm with hee | hee
                  · cases hee
                  · exact hrest a' t' hee

/-- Auxiliary: `clear_vars` undoes exactly the accumulated marks — walking
the term again resets every marked cell, so the run ends on the original
heap. -/
theorem clear_vars_run_restore (h0 : List Cell) :
    ∀ (f : Nat) (pend : List (Nat × PTerm)) (m : List (Nat × Nat))
      (h2 : List Cell),
      (∀ q ∈ pend, ReadsAs h0 q.1 q.2) →
      (∀ e ∈ m, hget h0 e.1 = Cell.unbound ∧ e.1 < h0.length) →
      (m.map Prod.fst).Nodup →
      (∀ e ∈ m, ∃ q ∈ pend, e.1 ∈ vaT q.2) →
      clear_vars_run f (applyMarks h0 m) (pend.map Prod.fst) m.length =
        some h2 →
      h2 = h0 := by
  intro f
  induction f with
  | zero =>
    intro pend m h2 _ _ _ _ hrun
    cases hrun
  | succ f ih =>
    intro pend m h2 hreads hw hnd hcov hrun
    unfold clear_vars_run at hrun
    by_cases hz : m.length = 0
    · have hm0 : m = [] := List.eq_nil_of_length_eq_zero hz
      subst hm0
      rw [if_pos hz] at hrun
      injection hrun with h
      exact h.symm
    · rw [if_neg hz] at hrun
      cases pend with
      | nil =>
        cases m with
        | nil => exact absurd rfl hz
        | cons e r =>
          obtain ⟨q, hq, _⟩ := hcov e (List.mem_cons.mpr (Or.inl rfl))
          cases hq
      | cons q rest =>
        obtain ⟨a, t⟩ := q
        simp only [List.map_cons] at hrun
        have hra : ReadsAs h0 a t :=
          hreads (a, t) (List.mem_cons.mpr (Or.inl rfl))
        have hrrest : ∀ q ∈ rest, ReadsAs h0 q.1 q.2 :=
          fun q hq => hreads q (List.mem_cons.mpr (Or.inr hq))
        have hp' : derefA (applyMarks h0 m) a = derefA h0 a :=
          derefA_applyMarks m h0 hw hnd a
        by_cases hmk : ∃ i, (derefA h0 a, i) ∈ m
        · -- the address is marked: this step resets it
          obtain ⟨i, hi⟩ := hmk
          have hunb : hget h0 (derefA h0 a) = Cell.unbound := (hw _ hi).1
          have ht : t = .pvar (derefA h0 a) := by
            rcases ReadsAs_cell h0 a t hra with
              ⟨ht, _⟩ | ⟨w, _, hcw⟩ | ⟨w, _, hcw⟩ |
              ⟨fn, n, b, ts, _, hcw, _⟩
            · exact ht
            · rw [hunb] at hcw; cases hcw
            · rw [hunb] at hcw; cases hcw
            · rw [hunb] at hcw; cases hcw
          have hcP : hget (applyMarks h0 m)
              (derefA (applyMarks h0 m) a) = .mark i := by
            rw [hp']
            exact hget_applyMarks_mem m h0 _ i hnd hi (hw _ hi).2
          simp only [hcP] at hrun
          rw [hp', applyMarks_reset h0 m _ i hw hnd hi] at hrun
          have hflen : (m.filter
              (fun e => e.1 != derefA h0 a)).length = m.length - 1 :=
            filter_fst_length m _ i hnd hi
          rw [← hflen] at hrun
          have hsub : (m.filter (fun e => e.1 != derefA h0 a)).Sublist m :=
            List.filter_sublist m
          refine ih rest (m.filter (fun e => e.1 != derefA h0 a)) h2
            hrrest (fun e he => hw e (hsub.mem he))
            ((hsub.map Prod.fst).nodup hnd) ?_ hrun
          intro e he
          obtain ⟨q', hq', hv'⟩ := hcov e (hsub.mem he)
          rcases List.mem_cons.mp hq' with hqh | hqt
          · exfalso
            subst hqh
            rw [ht] at hv'
            have hefst : e.1 = derefA h0 a := List.mem_singleton.mp hv'
            have := (List.mem_filter.mp he).2
            rw [hefst] at this
            simp at this
          · exact ⟨q', hqt, hv'⟩
        · -- unmarked: the cell is what the original heap holds
          have hnone : ∀ i, (derefA h0 a, i) ∉ m :=
            fun i hi => hmk ⟨i, hi⟩
          have hc0 : hget (applyMarks h0 m) (derefA (applyMarks h0 m) a) =
              hget h0 (derefA h0 a) := by
            rw [hp']
            exact hget_applyMarks_not m h0 _ hnone
          have hcovtail : (∀ v, v ∈ vaT t → v = derefA h0 a ∨ False) →
              ∀ e ∈ m, ∃ q ∈ rest, e.1 ∈ vaT q.2 := by
            intro hvt e he
            obtain ⟨q', hq', hv'⟩ := hcov e he
            rcases List.mem_cons.mp hq' with hqh | hqt
            · subst hqh
              rcases hvt e.1 hv' with hev | hev
              · exact absurd (hev ▸ he) (hnone e.2)
              · cases hev
            · exact ⟨q', hqt, hv'⟩
          rcases ReadsAs_cell h0 a t hra with
            ⟨ht, hcu⟩ | ⟨w, ht, hcw⟩ | ⟨w, ht, hcw⟩ |
            ⟨fn, n, b, ts, ht, hcw, hargs⟩
          · -- an unmarked variable: skipped
            have hcP : hget (applyMarks h0 m)
                (derefA (applyMarks h0 m) a) = .unbound := by
              rw [hc0, hcu]
            simp only [hcP] at hrun
            refine ih rest m h2 hrrest hw hnd ?_ hrun
            apply hcovtail
            intro v hv
            rw [ht] at hv
            exact Or.inl (List.mem_singleton.mp hv)
          · -- an inline constant: skipped
            have hcP : hget (applyMarks h0 m)
                (derefA (applyMarks h0 m) a) = .cst w := by
              rw [hc0, hcw]
            simp only [hcP] at hrun
            refine ih rest m h2 hrrest hw hnd ?_ hrun
            apply hcovtail
            intro v hv
            rw [ht] at hv
            cases hv
          · -- an indirect value: skipped
            have hcP : hget (applyMarks h0 m)
                (derefA (applyMarks h0 m) a) = .big w := by
              rw [hc0, hcw]
            simp only [hcP] at hrun
            refine ih rest m h2 hrrest hw hnd ?_ hrun
            apply hcovtail
            intro v hv
            rw [ht] at hv
            cases hv
          · -- a compound: descend into the arguments
            have hcP : hget (applyMarks h0 m)
                (derefA (applyMarks h0 m) a) = .fnc fn n b := by
              rw [hc0, hcw]
            simp only [hcP] at hrun
            have hagm : (List.range n).map (fun i => b + i) ++
                rest.map Prod.fst =
                (argsPendC b ts ++ rest).map Prod.fst := by
              rw [List.map_append, argsPendC_fst h0 n b ts hargs]
            rw [hagm] at hrun
            refine ih (argsPendC b ts ++ rest) m h2 ?_ hw hnd ?_ hrun
            · intro q hq
              rcases List.mem_append.mp hq with hql | hqr
              · exact argsPendC_mem h0 n b ts hargs q hql
              · exact hrrest q hqr
            · intro e he
              obtain ⟨q', hq', hv'⟩ := hcov e he
              rcases List.mem_cons.mp hq' with hqh | hqt
              · subst hqh
                rw [ht] at hv'
                obtain ⟨q2, hq2, hv2⟩ :=
                  argsPendC_cover h0 n b ts hargs e.1 hv'
                exact ⟨q2, List.mem_append.mpr (Or.inl hq2), hv2⟩
              · exact ⟨q', List.mem_append.mpr (Or.inr hqt), hv'⟩

/-- C9: for every input term (any heap address that reads as a term), after
`trie_lookup` returns, every variable that was rewritten in place to an
ordinal marker during encoding has been restored by `clear_vars`, so the
input term — indeed the whole global stack — is unchanged by the
operation. -/
theorem C9_lookup_restores_bindings (fuel : Nat) (st : TrieSt)
    (h : List Cell) (k : Nat) (add : Bool) (t : PTerm)
    (r : LRes × TrieSt × List Cell) (hr : ReadsAs h k t)
    (hl : trie_lookup fuel st h k add = some r) : r.2.2 = h := by
  unfold trie_lookup at hl
  cases hw : walk_run fuel add ⟨h, [.ad k], 0, 0, st, some 0, .ok⟩ with
  | none => simp only [hw] at hl; cases hl
  | some s =>
    simp only [hw] at hl
    obtain ⟨m', hh, ⟨hwf1, hwf2⟩, hvn⟩ :=
      walk_run_heap t h fuel add _ s [.tm k t] [] rfl rfl
        (fun a t' hm => by
          rcases List.mem_cons.mp hm with he | he
          · injection he with h1 h2
            subst h1; subst h2
            exact ⟨hr, fun v hv => hv⟩
          · cases he)
        ⟨fun e he => absurd he (List.not_mem_nil e), List.nodup_nil⟩ rfl hw
    cases hcv : clear_vars fuel s.h k s.vn with
    | none => simp only [hcv] at hl; cases hl
    | some h2 =>
      simp only [hcv] at hl
      have hh2 : h2 = h := by
        unfold clear_vars at hcv
        by_cases hz : s.vn = 0
        · rw [if_pos hz] at hcv
          injection hcv with hx
          rw [← hx, hh]
          have hm0 : m' = [] :=
            List.eq_nil_of_length_eq_zero (by rw [← hvn]; exact hz)
          rw [hm0]
          rfl
        · rw [if_neg hz] at hcv
          refine clear_vars_run_restore h fuel [(k, t)] m' h2
            (fun q hq => by
              rcases List.mem_cons.mp hq with he | he
              · subst he; exact hr
              · cases he)
            (fun e he => ⟨(hwf1 e he).1, (hwf1 e he).2.1⟩) hwf2
            (fun e he => ⟨(k, t), List.mem_cons.mpr (Or.inl rfl),
              (hwf1 e he).2.2⟩) ?_
          rw [← hh, ← hvn]
          exact hcv
      injection hl with hx
      rw [← hx]
      exact hh2

/-- Witness for C9 at a concrete input: inserting a one-variable term leaves
the one-cell heap exactly as it was. -/
theorem C9_lookup_restores_bindings_witness :
    ReadsAs [Cell.unbound] 0 (.pvar 0) ∧ c9r.2.2 = [Cell.unbound] :=
  ⟨ReadsAs.var [Cell.unbound] 0 rfl,
    C9_lookup_restores_bindings 10 emptyTrie [Cell.unbound] 0 true
      (.pvar 0) c9r (ReadsAs.var [Cell.unbound] 0 rfl) rfl⟩

/-! ### C7: the enumerator -/


/-- Auxiliary: subtrie well-formedness is monotone in the fuel. -/
theorem okSub_mono (st : TrieSt) :
    ∀ (g G : Nat), g ≤ G → ∀ n, okSub g st n = true → okSub G st n = true := by
  intro g
  induction g with
  | zero => intro G _ n h; cases h
  | succ g ih =>
    intro G hle n h
    obtain ⟨G0, rfl⟩ : ∃ G0, G = G0 + 1 := ⟨G - 1, by omega⟩
    unfold okSub at h ⊢
    cases hc : childrenOf st n with
    | empty => simp only [hc] at h ⊢; exact h
    | single k c => simp only [hc] at h ⊢; exact ih G0 (by omega) c h
    | hashed tbl =>
      simp only [hc] at h ⊢
      rw [Bool.and_eq_true] at h ⊢
      refine ⟨h.1, ?_⟩
      rw [List.all_eq_true] at h ⊢
      exact fun e he => ih G0 (by omega) e.2 (h.2 e he)

/-- Auxiliary: on a well-formed subtrie, `subLeaves` no longer depends on
the fuel. -/
theorem subLeaves_stable (st : TrieSt) :
    ∀ (g G : Nat), g ≤ G → ∀ n, okSub g st n = true →
      ∀ pre, subLeaves G st pre n = subLeaves g st pre n := by
  intro g
  induction g with
  | zero => intro G _ n h; cases h
  | succ g ih =>
    intro G hle n h pre
    obtain ⟨G0, rfl⟩ : ∃ G0, G = G0 + 1 := ⟨G - 1, by omega⟩
    unfold okSub at h
    unfold subLeaves
    cases hc : childrenOf st n with
    | empty => simp only [hc]
    | single k c =>
      simp only [hc] at h ⊢
      rw [ih G0 (by omega) c h]
    | hashed tbl =>
      simp only [hc] at h ⊢
      rw [Bool.and_eq_true, List.all_eq_true] at h
      refine congrArg List.flatten (List.map_congr_left ?_)
      intro e he
      exact ih G0 (by omega) e.2 (h.2 e he) (pre ++ [e.1])

/-- Auxiliary: a well-formed subtrie holds at least one valued leaf. -/
theorem okSub_leaves_ne (st : TrieSt) :
    ∀ (g : Nat) (n : Nat), okSub g st n = true →
      ∀ pre, subLeaves g st pre n ≠ [] := by
  intro g
  induction g with
  | zero => intro n h; cases h
  | succ g ih =>
    intro n h pre
    unfold okSub at h
    unfold subLeaves
    cases hc : childrenOf st n with
    | empty =>
      simp only [hc] at h ⊢
      cases hv : valueOf st n with
      | none => rw [hv] at h; cases h
      | some v => simp
    | single k c =>
      simp only [hc] at h ⊢
      exact ih c h (pre ++ [k])
    | hashed tbl =>
      simp only [hc] at h ⊢
      rw [Bool.and_eq_true, List.all_eq_true] at h
      cases tbl with
      | nil => cases h.1
      | cons e rest =>
        intro hemp
        rw [List.map_cons, List.flatten_cons, List.append_eq_nil] at hemp
        exact ih e.2 (h.2 e (List.mem_cons.mpr (Or.inl rfl))) (pre ++ [e.1])
          hemp.1

/-- Auxiliary: the path of a pushed frame. -/
theorem preOf_cons (ch : ChoiceF) (stk : List ChoiceF) :
    preOf (ch :: stk) = preOf stk ++ [ch.key] := by
  simp [preOf]

/-- Auxiliary: on a well-formed subtrie, `descent_node` always succeeds and
lands on a valued leaf; the pairs remaining in the extended stack are the
subtrie's leaves followed by what was already pending. -/
theorem descent_ok (st : TrieSt) (G : Nat) :
    ∀ (g d : Nat) (ch : ChoiceF) (below : List ChoiceF),
      okSub g st ch.child = true → g ≤ d → g ≤ G →
      (∀ e ∈ ch.iter, okSub g st e.2 = true) →
      (ch.isTable = false → ch.iter = []) →
      StkI st (g + 1) below →
      ∃ g2 stk2, descent_node d st (ch :: below) = (stk2, true) ∧
        StkI st g2 stk2 ∧ g2 + stk2.length = g + (ch :: below).length ∧
        topLeaf st stk2 ∧
        fullRem G st stk2 =
          subLeaves G st (preOf below ++ [ch.key]) ch.child ++
            sibRem G st (ch :: below) := by
  intro g
  induction g with
  | zero => intro d ch below h; cases h
  | succ g ih =>
    intro d ch below hok hd hG hit hflat hbelow
    obtain ⟨d0, rfl⟩ : ∃ d0, d = d0 + 1 := ⟨d - 1, by omega⟩
    obtain ⟨G0, hG0⟩ : ∃ G0, G = G0 + 1 := ⟨G - 1, by omega⟩
    unfold okSub at hok
    unfold descent_node
    cases hc : childrenOf st ch.child with
    | empty =>
      simp only [hc] at hok ⊢
      refine ⟨g + 1, ch :: below, by rw [hok], ⟨hit, hflat, hbelow⟩, rfl, ?_, ?_⟩
      · exact ⟨ch, below, rfl, hc, hok⟩
      · cases hv : valueOf st ch.child with
        | none => rw [hv] at hok; cases hok
        | some v =>
          subst hG0
          unfold fullRem subLeaves
          simp only [hc, hv, preOf_cons, Option.getD_some]
          rfl
    | single k c =>
      simp only [hc] at hok ⊢
      have hchn : add_choice st ch.child = ⟨k, c, [], false⟩ := by
        unfold add_choice
        simp only [hc]
      rw [hchn]
      obtain ⟨g2, stk2, hrun, hsi, hsum, htop, hrem⟩ :=
        ih d0 ⟨k, c, [], false⟩ (ch :: below) hok (by omega) (by omega)
          (fun e he => absurd he (List.not_mem_nil e)) (fun _ => rfl)
          ⟨hit, hflat, hbelow⟩
      refine ⟨g2, stk2, hrun, hsi, by simp at hsum ⊢; omega, htop, ?_⟩
      rw [hrem]
      have hsib : sibRem G st ((⟨k, c, [], false⟩ : ChoiceF) :: ch :: below) =
          sibRem G st (ch :: below) := rfl
      rw [hsib]
      show subLeaves G st (preOf (ch :: below) ++ [k]) c ++
        sibRem G st (ch :: below) = _
      simp only [preOf_cons]
      subst hG0
      have h1 : subLeaves (G0 + 1) st (preOf below ++ [ch.key]) ch.child =
          subLeaves (G0 + 1) st ((preOf below ++ [ch.key]) ++ [k]) c := by
        conv_lhs => rw [subLeaves]
        simp only [hc]
        rw [subLeaves_stable st g G0 (by omega) c hok,
          subLeaves_stable st g (G0 + 1) (by omega) c hok]
      rw [h1]
    | hashed tbl =>
      simp only [hc] at hok ⊢
      rw [Bool.and_eq_true, List.all_eq_true] at hok
      cases htbl : tbl with
      | nil => rw [htbl] at hok; cases hok.1
      | cons e0 rest =>
        rw [htbl] at hok
        have hok0 : okSub g st e0.2 = true :=
          hok.2 e0 (List.mem_cons.mpr (Or.inl rfl))
        have hchn : add_choice st ch.child = ⟨e0.1, e0.2, rest, true⟩ := by
          unfold add_choice
          simp only [hc, htbl]
        rw [hchn]
        obtain ⟨g2, stk2, hrun, hsi, hsum, htop, hrem⟩ :=
          ih d0 ⟨e0.1, e0.2, rest, true⟩ (ch :: below) hok0 (by omega)
            (by omega) (fun e he => hok.2 e (List.mem_cons.mpr (Or.inr he)))
            (fun h => nomatch h) ⟨hit, hflat, hbelow⟩
        refine ⟨g2, stk2, hrun, hsi, by simp at hsum ⊢; omega, htop, ?_⟩
        rw [hrem]
        have hsib : sibRem G st
            ((⟨e0.1, e0.2, rest, true⟩ : ChoiceF) :: ch :: below) =
            (rest.map (fun e => subLeaves G st
              (preOf (ch :: below) ++ [e.1]) e.2)).flatten ++
              sibRem G st (ch :: below) := rfl
        rw [hsib]
        show subLeaves G st (preOf (ch :: below) ++ [e0.1]) e0.2 ++
          ((rest.map (fun e => subLeaves G st
            (preOf (ch :: below) ++ [e.1]) e.2)).flatten ++
            sibRem G st (ch :: below)) = _
        simp only [preOf_cons]
        subst hG0
        have h1 : subLeaves (G0 + 1) st (preOf below ++ [ch.key]) ch.child =
            subLeaves (G0 + 1) st ((preOf below ++ [ch.key]) ++ [e0.1])
              e0.2 ++
            (rest.map (fun e => subLeaves (G0 + 1) st
              ((preOf below ++ [ch.key]) ++ [e.1]) e.2)).flatten := by
          conv_lhs => rw [subLeaves]
          simp only [hc, htbl, List.map_cons, List.flatten_cons]
          refine congrArg₂ _ ?_ (congrArg List.flatten
            (List.map_congr_left ?_))
          · rw [subLeaves_stable st g G0 (by omega) e0.2 hok0,
              subLeaves_stable st g (G0 + 1) (by omega) e0.2 hok0]
          · intro e he
            rw [subLeaves_stable st g G0 (by omega) e.2
              (hok.2 e (List.mem_cons.mpr (Or.inr he))),
              subLeaves_stable st g (G0 + 1) (by omega) e.2
              (hok.2 e (List.mem_cons.mpr (Or.inr he)))]
        rw [h1]
        exact (List.append_assoc _ _ _).symm

/-- Auxiliary: on a stack whose pending subtries are all well-formed,
`next_choice` fails exactly when nothing remains, and otherwise moves the
stack to the next valued leaf without dropping anything. -/
theorem next_ok (st : TrieSt) (G : Nat) :
    ∀ (c g d : Nat) (stk : List ChoiceF),
      StkI st g stk → g + stk.length ≤ G + 1 → G ≤ d → stk.length ≤ c →
      (sibRem G st stk = [] ∧ next_choice d c st stk = none) ∨
      (∃ g2 stk2, next_choice d c st stk = some stk2 ∧
        StkI st g2 stk2 ∧ g2 + stk2.length = g + stk.length ∧
        topLeaf st stk2 ∧
        fullRem G st stk2 = sibRem G st stk) := by
  intro c
  induction c with
  | zero =>
    intro g d stk hsi hsum hd hlen
    have hstk : stk = [] := List.eq_nil_of_length_eq_zero (by omega)
    subst hstk
    exact Or.inl ⟨rfl, rfl⟩
  | succ c ih =>
    intro g d stk hsi hsum hd hlen
    cases stk with
    | nil => exact Or.inl ⟨rfl, rfl⟩
    | cons ch below =>
      obtain ⟨hit, hflat, hbelow⟩ := hsi
      by_cases htab : ch.isTable = true
      · cases hiter : ch.iter with
        | nil =>
          -- cannot advance: pop the frame
          have hadv : advance_node ch = none := by
            unfold advance_node
            rw [if_pos htab, hiter]
          have hnc : next_choice d (c + 1) st (ch :: below) =
              next_choice d c st below := by
            simp only [next_choice, hadv]
          have hsib : sibRem G st (ch :: below) = sibRem G st below := by
            simp only [sibRem, hiter, List.map_nil, List.flatten_nil,
              List.nil_append]
          rw [hnc, hsib]
          rcases ih (g + 1) d below hbelow (by simp at hsum ⊢; omega) hd
            (by simp at hlen; omega) with ⟨h1, h2⟩ |
            ⟨g2, stk2, h1, h2, h3, h4, h5⟩
          · exact Or.inl ⟨h1, h2⟩
          · exact Or.inr ⟨g2, stk2, h1, h2, by simp at h3 ⊢; omega, h4, h5⟩
        | cons e it2 =>
          -- advance to the next sibling and descend
          have hadv : advance_node ch =
              some ⟨e.1, e.2, it2, ch.isTable⟩ := by
            unfold advance_node
            rw [if_pos htab, hiter]
          have hoke : okSub g st e.2 = true :=
            hit e (by rw [hiter]; exact List.mem_cons.mpr (Or.inl rfl))
          have hgG : g ≤ G := by simp at hsum; omega
          obtain ⟨g2, stk2, hdesc, hsi2, hsum2, htop2, hrem2⟩ :=
            descent_ok st G g d ⟨e.1, e.2, it2, ch.isTable⟩ below hoke
              (by omega) hgG
              (fun e2 he2 => hit e2
                (by rw [hiter]; exact List.mem_cons.mpr (Or.inr he2)))
              (fun h => by rw [htab] at h; cases h) hbelow
          have hnc : next_choice d (c + 1) st (ch :: below) = some stk2 := by
            simp only [next_choice, hadv, hdesc]
          refine Or.inr ⟨g2, stk2, hnc, hsi2, by simp at hsum2 ⊢; omega,
            htop2, ?_⟩
          rw [hrem2]
          show subLeaves G st (preOf below ++ [e.1]) e.2 ++
            sibRem G st ((⟨e.1, e.2, it2, ch.isTable⟩ : ChoiceF) :: below) = _
          have hsib2 : sibRem G st
              ((⟨e.1, e.2, it2, ch.isTable⟩ : ChoiceF) :: below) =
              (it2.map (fun e2 => subLeaves G st
                (preOf below ++ [e2.1]) e2.2)).flatten ++
                sibRem G st below := by
            simp only [sibRem]
          have hsib : sibRem G st (ch :: below) =
              subLeaves G st (preOf below ++ [e.1]) e.2 ++
                ((it2.map (fun e2 => subLeaves G st
                  (preOf below ++ [e2.1]) e2.2)).flatten ++
                  sibRem G st below) := by
            simp only [sibRem, hiter, List.map_cons, List.flatten_cons,
              List.append_assoc]
          rw [hsib2, hsib]
      · -- a single-key frame can never advance
        have hiter : ch.iter = [] := hflat (by
          cases h : ch.isTable with
          | false => rfl
          | true => exact absurd h htab)
        have hadv : advance_node ch = none := by
          unfold advance_node
          rw [if_neg htab]
        have hnc : next_choice d (c + 1) st (ch :: below) =
            next_choice d c st below := by
          simp only [next_choice, hadv]
        have hsib : sibRem G st (ch :: below) = sibRem G st below := by
          simp only [sibRem, hiter, List.map_nil, List.flatten_nil,
            List.nil_append]
        rw [hnc, hsib]
        rcases ih (g + 1) d below hbelow (by simp at hsum ⊢; omega) hd
          (by simp at hlen; omega) with ⟨h1, h2⟩ |
          ⟨g2, stk2, h1, h2, h3, h4, h5⟩
        · exact Or.inl ⟨h1, h2⟩
        · exact Or.inr ⟨g2, stk2, h1, h2, by simp at h3 ⊢; omega, h4, h5⟩

/-- Auxiliary: the redo loop yields exactly the remaining pairs of the
stack. -/
theorem gen_ok (st : TrieSt) (G : Nat) :
    ∀ (f c d g : Nat) (stk : List ChoiceF),
      topLeaf st stk → StkI st g stk → g + stk.length ≤ G + 1 →
      G ≤ d → G + 1 ≤ c →
      (fullRem G st stk).length ≤ f →
      gen_loop c d f st stk = fullRem G st stk := by
  intro f
  induction f with
  | zero =>
    intro c d g stk htop hsi hsum hd hc hflen
    obtain ⟨ch, rest, hstk, hcc, hval⟩ := htop
    subst hstk
    simp [fullRem] at hflen
  | succ f ih =>
    intro c d g stk htop hsi hsum hd hc hflen
    obtain ⟨ch, rest, hstk, hcc, hval⟩ := htop
    subst hstk
    have hlen : (ch :: rest).length ≤ c := by simp at hsum ⊢; omega
    rcases next_ok st G c g d (ch :: rest) hsi hsum hd hlen with
      ⟨hsib, hnone⟩ | ⟨g2, stk2, hsome, hsi2, hsum2, htop2, hrem2⟩
    · simp only [gen_loop, hnone, fullRem, hsib]
    · simp only [gen_loop, hsome, fullRem]
      have hflen2 : (fullRem G st stk2).length ≤ f := by
        rw [hrem2]
        simp only [fullRem] at hflen
        simp at hflen
        omega
      rw [ih c d g2 stk2 htop2 hsi2 (by omega) hd hc hflen2, hrem2]

/-- C7 (counterexample): the claimed completeness fails.  In `c7Trie` the
stored valued childless pairs are three — `[1] ↦ 10`, `[2,5] ↦ 20` and
`[3] ↦ 30` — but the enumeration yields only the first: after yielding it,
`next_choice` advances the root frame to the `2`-subtrie, the descent ends
on the valueless childless node `4`, and the failed descent pops the root
frame itself, abandoning both the `5`-sibling and the whole `3`-subtrie. -/
theorem C7_counterexample :
    trie_gen 10 10 10 c7Trie = [([Key.cst 1], TrieVal.small 10)] ∧
    subLeaves 10 c7Trie [] 0 =
      [([Key.cst 1], TrieVal.small 10),
       ([Key.cst 2, Key.cst 5], TrieVal.small 20),
       ([Key.cst 3], TrieVal.small 30)] ∧
    childrenOf c7Trie 5 = .empty ∧ valueOf c7Trie 5 = some (.small 20) ∧
    childrenOf c7Trie 3 = .empty ∧ valueOf c7Trie 3 = some (.small 30) ∧
    ([Key.cst 2, Key.cst 5], TrieVal.small 20) ∉ trie_gen 10 10 10 c7Trie ∧
    ([Key.cst 3], TrieVal.small 30) ∉ trie_gen 10 10 10 c7Trie := by
  refine ⟨by decide, by decide, by decide, by decide, by decide, by decide,
    ?_, ?_⟩ <;> decide

/-- C7 (amended): on a trie whose every childless node is valued (and whose
hash tables are nonempty), the enumeration is exhaustive: run to completion
with sufficient fuel, `trie_gen` yields exactly the stored (key path, value)
pairs, each exactly once, in depth-first child-table order. -/
theorem C7_gen_exhaustive_when_leaves_valued (g c d f : Nat) (st : TrieSt)
    (hok : okSub (g + 1) st 0 = true)
    (hne : childrenOf st 0 ≠ .empty)
    (hd : g + 1 ≤ d) (hc : g + 2 ≤ c)
    (hf : (subLeaves (g + 1) st [] 0).length ≤ f) :
    trie_gen c d f st = subLeaves (g + 1) st [] 0 := by
  unfold trie_gen
  unfold okSub at hok
  cases hr : childrenOf st 0 with
  | empty => exact absurd hr hne
  | single k0 c0 =>
    simp only [hr] at hok ⊢
    have hadd : add_choice st 0 = ⟨k0, c0, [], false⟩ := by
      unfold add_choice
      simp only [hr]
    rw [hadd]
    obtain ⟨g2, stk2, hdesc, hsi2, hsum2, htop2, hrem2⟩ :=
      descent_ok st g g d ⟨k0, c0, [], false⟩ [] hok (by omega) (by omega)
        (fun e he => absurd he (List.not_mem_nil e)) (fun _ => rfl) trivial
    rw [hdesc]
    show gen_loop c d f st stk2 = _
    have hleaves : subLeaves (g + 1) st [] 0 =
        subLeaves g st [k0] c0 := by
      conv_lhs => rw [subLeaves]
      simp only [hr, List.nil_append]
    have hrem2' : fullRem g st stk2 = subLeaves (g + 1) st [] 0 := by
      rw [hrem2, hleaves]
      show subLeaves g st ([] ++ [k0]) c0 ++ sibRem g st _ = _
      have hsib : sibRem g st ((⟨k0, c0, [], false⟩ : ChoiceF) :: []) =
          [] := by
        simp only [sibRem, List.map_nil, List.flatten_nil, List.nil_append]
      rw [hsib]
      simp only [List.append_nil]
      rfl
    rw [gen_ok st g f c d g2 stk2 htop2 hsi2 (by simp at hsum2 ⊢; omega)
      (by omega) (by omega) (by rw [hrem2']; exact hf), hrem2']
  | hashed tbl =>
    simp only [hr] at hok ⊢
    rw [Bool.and_eq_true, List.all_eq_true] at hok
    cases htbl : tbl with
    | nil => rw [htbl] at hok; cases hok.1
    | cons e0 rest =>
      rw [htbl] at hok
      have hok0 : okSub g st e0.2 = true :=
        hok.2 e0 (List.mem_cons.mpr (Or.inl rfl))
      have hadd : add_choice st 0 = ⟨e0.1, e0.2, rest, true⟩ := by
        unfold add_choice
        simp only [hr, htbl]
      rw [hadd]
      obtain ⟨g2, stk2, hdesc, hsi2, hsum2, htop2, hrem2⟩ :=
        descent_ok st g g d ⟨e0.1, e0.2, rest, true⟩ [] hok0 (by omega)
          (by omega)
          (fun e he => hok.2 e (List.mem_cons.mpr (Or.inr he)))
          (fun h => nomatch h) trivial
      rw [hdesc]
      show gen_loop c d f st stk2 = _
      have hleaves : subLeaves (g + 1) st [] 0 =
          subLeaves g st [e0.1] e0.2 ++
            (rest.map (fun e => subLeaves g st [e.1] e.2)).flatten := by
        conv_lhs => rw [subLeaves]
        simp only [hr, htbl, List.map_cons, List.flatten_cons,
          List.nil_append]
      have hrem2' : fullRem g st stk2 = subLeaves (g + 1) st [] 0 := by
        rw [hrem2, hleaves]
        show subLeaves g st ([] ++ [e0.1]) e0.2 ++ sibRem g st _ = _
        have hsib : sibRem g st
            ((⟨e0.1, e0.2, rest, true⟩ : ChoiceF) :: []) =
            (rest.map (fun e => subLeaves g st ([] ++ [e.1]) e.2)).flatten
              ++ [] := by
          simp only [sibRem]
          rfl
        rw [hsib]
        simp only [List.append_nil]
        rfl
      rw [gen_ok st g f c d g2 stk2 htop2 hsi2 (by simp at hsum2 ⊢; omega)
        (by omega) (by omega) (by rw [hrem2']; exact hf), hrem2']

/-- Witness for the amended C7 theorem on the well-formed two-leaf trie
`c7Good`. -/
theorem C7_gen_exhaustive_when_leaves_valued_witness :
    okSub 2 c7Good 0 = true ∧
    trie_gen 3 2 2 c7Good = subLeaves 2 c7Good [] 0 :=
  ⟨by decide, C7_gen_exhaustive_when_leaves_valued 1 3 2 2 c7Good
    (by decide) (by decide) (by decide) (by decide) (by decide)⟩

end TrieModel

namespace TrieModel

/-- Auxiliary: a successful `idxOf` lookup reads back the sought value. -/
theorem idxOf_get : ∀ (l : List Nat) (w j : Nat), idxOf l w = some j →
    l[j]? = some w := by
  intro l
  induction l with
  | nil => intro w j h; cases h
  | cons a r ih =>
    intro w j h
    unfold idxOf at h
    by_cases haw : a = w
    · rw [if_pos haw] at h
      injection h with h
      subst h
      simp [haw]
    · rw [if_neg haw] at h
      cases hr : idxOf r w with
      | none => rw [hr] at h; cases h
      | some j0 =>
        rw [hr] at h
        injection h with h
        subst h
        simpa using ih w j0 hr

/-- Auxiliary: `idxOf` on a list extended beyond a miss finds the appended
occurrence. -/
theorem idxOf_append_self : ∀ (l : List Nat) (w : Nat), idxOf l w = none →
    ∀ r, idxOf (l ++ w :: r) w = some l.length := by
  intro l
  induction l with
  | nil =>
    intro w _ r
    simp [idxOf]
  | cons a t ih =>
    intro w h r
    simp only [idxOf, List.cons_append, List.append_eq] at h ⊢
    by_cases haw : a = w
    · rw [if_pos haw] at h; cases h
    · rw [if_neg haw] at h ⊢
      cases ht : idxOf t w with
      | none => rw [ih w ht r]; rfl
      | some j => rw [ht] at h; cases h

/-- Auxiliary: `idxOf` is stable under extension when it already hits. -/
theorem idxOf_append_of_some : ∀ (l : List Nat) (w j : Nat),
    idxOf l w = some j → ∀ r, idxOf (l ++ r) w = some j := by
  intro l
  induction l with
  | nil => intro w j h; cases h
  | cons a t ih =>
    intro w j h r
    simp only [idxOf, List.cons_append, List.append_eq] at h ⊢
    by_cases haw : a = w
    · rw [if_pos haw] at h ⊢; exact h
    · rw [if_neg haw] at h ⊢
      cases ht : idxOf t w with
      | none => rw [ht] at h; cases h
      | some j0 =>
        rw [ht] at h
        rw [ih w j0 ht r]
        exact h

mutual
/-- Auxiliary: the encoder and the canonical renaming thread the variable
list identically. -/
theorem encKsT_vs (T : List Nat) :
    ∀ (t : PTerm) (vs : List Nat), (encKsT T t vs).2 = (canT t vs).2
  | .pvar a, vs => by
    unfold encKsT canT
    cases idxOf vs a <;> rfl
  | .patom w, vs => rfl
  | .pbig w, vs => rfl
  | .pcomp f ts, vs => encLT_vs T ts vs
/-- See `encKsT_vs`. -/
theorem encLT_vs (T : List Nat) :
    ∀ (ts : PTermL) (vs : List Nat), (encLT T ts vs).2 = (canL ts vs).2
  | .nil, vs => rfl
  | .cons t ts, vs => by
    show (encLT T ts (encKsT T t vs).2).2 = (canL ts (canT t vs).2).2
    rw [encKsT_vs T t vs, encLT_vs T ts (canT t vs).2]
end

/-- Auxiliary: a read argument list has as many elements as the functor's
arity. -/
theorem ReadsArgs_len (h : List Cell) :
    ∀ (n b : Nat) (ts : PTermL), ReadsArgs h n b ts → lenL ts = n := by
  intro n
  induction n with
  | zero =>
    intro b ts hr
    rw [ReadsArgs_zero h b ts hr]
    rfl
  | succ n ih =>
    intro b ts hr
    obtain ⟨t, ts2, hts, _, hrest⟩ := ReadsArgs_succ h n b ts hr
    subst hts
    show lenL ts2 + 1 = n + 1
    rw [ih (b + 1) ts2 hrest]

/-- Auxiliary: the pending key stream of scheduled arguments followed by a
continuation. -/
theorem encPend_args (T : List Nat) :
    ∀ (ts : PTermL) (b : Nat) (l : List PendI) (vs : List Nat),
      encPend T (argsPend b ts ++ l) vs =
        (encLT T ts vs).1 ++ encPend T l (encLT T ts vs).2
  | .nil, b, l, vs => rfl
  | .cons t ts, b, l, vs => by
    show (encKsT T t vs).1 ++
      encPend T (argsPend (b + 1) ts ++ l) (encKsT T t vs).2 = _
    rw [encPend_args T ts (b + 1) l (encKsT T t vs).2]
    show _ = ((encKsT T t vs).1 ++ (encLT T ts (encKsT T t vs).2).1) ++ _
    rw [List.append_assoc]
    rfl

/-- Auxiliary: the final variable list of a scheduled-arguments agenda. -/
theorem encPendVs_args (T : List Nat) :
    ∀ (ts : PTermL) (b : Nat) (l : List PendI) (vs : List Nat),
      encPendVs T (argsPend b ts ++ l) vs =
        encPendVs T l (encLT T ts vs).2
  | .nil, b, l, vs => rfl
  | .cons t ts, b, l, vs => by
    show encPendVs T (argsPend (b + 1) ts ++ l) (encKsT T t vs).2 = _
    rw [encPendVs_args T ts (b + 1) l (encKsT T t vs).2]
    rfl

/-- Auxiliary: `get_child` through the children representation. -/
theorem get_child_eq (st : TrieSt) (n : Nat) (nd : NodeData) (k : Key)
    (hnd : st.nodes n = some nd) :
    get_child st n k = childLook nd.children k := by
  unfold get_child childLook
  rw [hnd]

/-- Auxiliary: association lookup in an extended table. -/
theorem assocFind_append (tbl : List (Key × Nat)) (k k2 : Key) (nw : Nat) :
    assocFind (tbl ++ [(k, nw)]) k2 =
      match assocFind tbl k2 with
      | some c => some c
      | none => if k = k2 then some nw else none := by
  induction tbl with
  | nil => rfl
  | cons e r ih =>
    show (if e.1 = k2 then some e.2 else assocFind (r ++ [(k, nw)]) k2) = _
    by_cases he : e.1 = k2
    · rw [if_pos he]
      show _ = (match if e.1 = k2 then some e.2 else assocFind r k2 with
        | some c => some c
        | none => if k = k2 then some nw else none)
      rw [if_pos he]
    · rw [if_neg he, ih]
      show _ = (match if e.1 = k2 then some e.2 else assocFind r k2 with
        | some c => some c
        | none => if k = k2 then some nw else none)
      rw [if_neg he]

/-- Auxiliary: the common shape of every `insert_child` success that links a
fresh node: well-formedness, preservation and the new edge all follow from
the node-store description. -/
theorem insert_shape (st : TrieSt) (n : Nat) (nd : NodeData) (k : Key)
    (X : Children) (st2 : TrieSt)
    (hwf : WFT st) (hnd : st.nodes n = some nd)
    (hn3 : ∀ x, st2.nodes x =
      if x = st.next then some ⟨none, k, some n, Children.empty⟩
      else if x = n then some { nd with children := X } else st.nodes x)
    (hnext : st2.next = st.next + 1)
    (hX : ∀ k2 c2, childLook X k2 = some c2 →
      (k2 = k ∧ c2 = st.next) ∨ childLook nd.children k2 = some c2) :
    WFT st2 ∧ NPres st st2 ∧
    (∃ dc, st2.nodes st.next = some dc ∧ dc.key = k ∧
      dc.parent = some n) := by
  obtain ⟨⟨d0, hd0, hd0p⟩, hedge, hpdec, hfree⟩ := hwf
  have hnN : n < st.next := by
    by_contra hge
    rw [hfree n (Nat.le_of_not_lt hge)] at hnd
    cases hnd
  have hNn : ¬ n = st.next := by omega
  have hwf2 : WFT st2 := by
    refine ⟨?_, ?_, ?_, ?_⟩
    · -- root
      have h0N : ¬ (0 : Nat) = st.next := by omega
      by_cases h0n : (0 : Nat) = n
      · refine ⟨{ nd with children := X }, ?_, ?_⟩
        · rw [hn3 0, if_neg h0N, if_pos h0n]
        · show nd.parent = none
          rw [← h0n] at hnd
          rw [hnd] at hd0
          injection hd0 with he
          rw [he]
          exact hd0p
      · exact ⟨d0, by rw [hn3 0, if_neg h0N, if_neg h0n]; exact hd0, hd0p⟩
    · -- edges
      intro p k2 c2 hg
      unfold get_child at hg
      rw [hn3 p] at hg
      by_cases hpN : p = st.next
      · rw [if_pos hpN] at hg
        cases hg
      · rw [if_neg hpN] at hg
        by_cases hpn : p = n
        · rw [if_pos hpn] at hg
          have hx := hX k2 c2 hg
          rcases hx with ⟨hk2, hc2⟩ | hold
          · refine ⟨⟨none, k, some n, Children.empty⟩, ?_, ?_, ?_⟩
            · rw [hc2, hn3 st.next, if_pos rfl]
            · show k = k2
              rw [hk2]
            · show some n = some p
              rw [hpn]
          · have hge : get_child st n k2 = some c2 := by
              rw [get_child_eq st n nd k2 hnd]
              exact hold
            obtain ⟨dc, hdc, hdck, hdcp⟩ := hedge n k2 c2 hge
            have hc2N : ¬ c2 = st.next := by
              intro he
              rw [he, hfree st.next (Nat.le_refl _)] at hdc
              cases hdc
            have hc2n : ¬ c2 = n := by
              intro he
              have := hpdec c2 dc n hdc hdcp
              omega
            refine ⟨dc, ?_, hdck, by rw [hdcp, hpn]⟩
            rw [hn3 c2, if_neg hc2N, if_neg hc2n]
            exact hdc
        · rw [if_neg hpn] at hg
          -- an untouched node: its children representation is unchanged
          have hge : get_child st p k2 = some c2 := by
            unfold get_child
            exact hg
          obtain ⟨dc, hdc, hdck, hdcp⟩ := hedge p k2 c2 hge
          have hc2N : ¬ c2 = st.next := by
            intro he
            rw [he, hfree st.next (Nat.le_refl _)] at hdc
            cases hdc
          by_cases hc2n : c2 = n
          · refine ⟨{ nd with children := X }, ?_, ?_, ?_⟩
            · rw [hn3 c2, if_neg hc2N, if_pos hc2n]
            · show nd.key = k2
              rw [hc2n, hnd] at hdc
              injection hdc with he
              rw [← he] at hdck
              exact hdck
            · show nd.parent = some p
              rw [hc2n, hnd] at hdc
              injection hdc with he
              rw [← he] at hdcp
              exact hdcp
          · refine ⟨dc, ?_, hdck, hdcp⟩
            rw [hn3 c2, if_neg hc2N, if_neg hc2n]
            exact hdc
    · -- decreasing parents
      intro x d p hx hp
      rw [hn3 x] at hx
      by_cases hxN : x = st.next
      · rw [if_pos hxN] at hx
        injection hx with he
        rw [← he] at hp
        injection hp with he2
        omega
      · rw [if_neg hxN] at hx
        by_cases hxn : x = n
        · rw [if_pos hxn] at hx
          injection hx with he
          rw [← he] at hp
          exact hpdec x nd p (hxn ▸ hnd) hp
        · rw [if_neg hxn] at hx
          exact hpdec x d p hx hp
    · -- ids beyond the cursor are free
      intro x hx
      rw [hnext] at hx
      rw [hn3 x, if_neg (by omega), if_neg (by omega)]
      exact hfree x (by omega)
  refine ⟨hwf2, ?_, ?_⟩
  · intro x hx
    rw [hn3 x, if_neg (by omega)]
    by_cases hxn : x = n
    · rw [if_pos hxn]
      exact Or.inr ⟨nd, { nd with children := X }, hxn ▸ hnd, rfl, rfl, rfl⟩
    · rw [if_neg hxn]
      exact Or.inl rfl
  · exact ⟨⟨none, k, some n, Children.empty⟩,
      by rw [hn3 st.next, if_pos rfl], rfl, rfl⟩

/-- Auxiliary: what a successful node allocation looks like. -/
theorem new_node_spec (st : TrieSt) (k : Key) (st1 : TrieSt) (nw : Nat)
    (h : new_trie_node st k = some (st1, nw)) :
    nw = st.next ∧
    st1.nodes = updf st.nodes st.next (some ⟨none, k, none, .empty⟩) ∧
    st1.next = st.next + 1 ∧ st1.indirects = st.indirects := by
  unfold new_trie_node at h
  split at h
  · split at h
    · injection h with h2
      rw [Prod.mk.injEq] at h2
      obtain ⟨ha, hb⟩ := h2
      rw [← ha, ← hb]
      exact ⟨rfl, rfl, rfl, rfl⟩
    · cases h
  · injection h with h2
    rw [Prod.mk.injEq] at h2
    obtain ⟨ha, hb⟩ := h2
    rw [← ha, ← hb]
    exact ⟨rfl, rfl, rfl, rfl⟩

/-- Auxiliary: every linking branch of `insert_child` produces the same
store shape; package `insert_shape` for it. -/
theorem insert_branch (st st1 : TrieSt) (n nw : Nat) (nd0 : NodeData)
    (k : Key) (X : Children)
    (hwf : WFT st) (hnd0 : st.nodes n = some nd0) (hnN : n < st.next)
    (hnw : nw = st.next)
    (hn1 : st1.nodes = updf st.nodes st.next (some ⟨none, k, none, .empty⟩))
    (hnx1 : st1.next = st.next + 1) (hi1 : st1.indirects = st.indirects)
    (hX : ∀ k2 c2, childLook X k2 = some c2 →
      (k2 = k ∧ c2 = st.next) ∨ childLook nd0.children k2 = some c2) :
    WFT ((st1.setNode n { nd0 with children := X }).setNode nw
        { (⟨none, k, none, .empty⟩ : NodeData) with parent := some n }) ∧
    NPres st ((st1.setNode n { nd0 with children := X }).setNode nw
        { (⟨none, k, none, .empty⟩ : NodeData) with parent := some n }) ∧
    st.next ≤ ((st1.setNode n { nd0 with children := X }).setNode nw
        { (⟨none, k, none, .empty⟩ : NodeData) with
          parent := some n }).next ∧
    (∃ dc, ((st1.setNode n { nd0 with children := X }).setNode nw
        { (⟨none, k, none, .empty⟩ : NodeData) with
          parent := some n }).nodes nw = some dc ∧ dc.key = k ∧
        dc.parent = some n) ∧
    ((st1.setNode n { nd0 with children := X }).setNode nw
        { (⟨none, k, none, .empty⟩ : NodeData) with
          parent := some n }).indirects = st.indirects := by
  have hnwn : ¬ n = nw := by omega
  obtain ⟨hw2, hp2, he2⟩ := insert_shape st n nd0 k X
    ((st1.setNode n { nd0 with children := X }).setNode nw
      { (⟨none, k, none, .empty⟩ : NodeData) with parent := some n })
    hwf hnd0
    (by
      intro x
      show updf (updf st1.nodes n
        (some { nd0 with children := X })) nw
        (some { (⟨none, k, none, .empty⟩ : NodeData) with
          parent := some n }) x = _
      rw [← hnw]
      by_cases hxN : x = nw
      · rw [hxN, updf_self]
        rw [if_pos (show nw = nw from rfl)]
      · rw [updf_other _ _ _ _ hxN, if_neg (fun he => hxN (by rw [he, hnw]))]
        by_cases hxn : x = n
        · rw [hxn, updf_self, if_pos rfl]
        · rw [updf_other _ _ _ _ hxn, if_neg hxn, hn1,
            updf_other _ _ _ _ (fun he => hxN (by rw [he, hnw]))])
    (by
      show st1.next = st.next + 1
      exact hnx1)
    hX
  refine ⟨hw2, hp2, ?_, hnw ▸ he2, ?_⟩
  · show st.next ≤ st1.next
    omega
  · show st1.indirects = st.indirects
    exact hi1

/-- Auxiliary: a successful `follow_node` with `add` preserves
well-formedness, the identity of every existing node and the indirect
table, only moves the allocation cursor forward, and reaches a node whose
record carries the followed key and a parent pointer to the source node. -/
theorem follow_add (st : TrieSt) (n : Nat) (k : Key) (st2 : TrieSt) (c : Nat)
    (hwf : WFT st) (hex : ∃ d, st.nodes n = some d)
    (hf : follow_node st n k true = (st2, some c)) :
    WFT st2 ∧ NPres st st2 ∧ st.next ≤ st2.next ∧
    (∃ dc, st2.nodes c = some dc ∧ dc.key = k ∧ dc.parent = some n) ∧
    st2.indirects = st.indirects := by
  obtain ⟨nd0, hnd0⟩ := hex
  have hnN : n < st.next := by
    by_contra hge
    rw [hwf.2.2.2 n (Nat.le_of_not_lt hge)] at hnd0
    cases hnd0
  unfold follow_node at hf
  cases hg : get_child st n k with
  | some c0 =>
    rw [hg] at hf
    injection hf with h1 h2
    injection h2 with h2
    rw [← h1, ← h2]
    exact ⟨hwf, fun x _ => Or.inl rfl, Nat.le_refl _,
      hwf.2.1 n k c0 hg, rfl⟩
  | none =>
    rw [hg, if_pos rfl] at hf
    cases hins : insert_child st n k with
    | none => rw [hins] at hf; injection hf with h1 h2; cases h2
    | some r =>
      obtain ⟨st1', c'⟩ := r
      rw [hins] at hf
      injection hf with h1 h2
      injection h2 with h2
      unfold insert_child at hins
      cases hnew : new_trie_node st k with
      | none =>
        simp only [hnew] at hins
        exact Option.noConfusion hins
      | some q =>
        obtain ⟨st1, nw⟩ := q
        simp only [hnew] at hins
        obtain ⟨hnw, hn1, hnx1, hi1⟩ := new_node_spec st k st1 nw hnew
        have hnwn : ¬ n = nw := by omega
        have hnd1 : st1.nodes n = some nd0 := by
          rw [hn1, updf_other st.nodes st.next _ n (by omega)]
          exact hnd0
        simp only [hnd1] at hins
        have hfreshd : st1.nodes nw = some ⟨none, k, none, .empty⟩ := by
          rw [hn1, hnw]
          exact updf_self _ _ _
        have hset : ∀ (X : Children),
            (TrieSt.setNode st1 n { nd0 with children := X }).nodes nw =
              some ⟨none, k, none, .empty⟩ := by
          intro X
          show updf st1.nodes n _ nw = _
          rw [updf_other _ _ _ nw (fun he => hnwn he.symm)]
          exact hfreshd
        cases hch : nd0.children with
        | empty =>
          simp only [hch, hset (Children.single k nw)] at hins
          injection hins with h3
          rw [Prod.mk.injEq] at h3
          obtain ⟨ha, hb⟩ := h3
          have hres := insert_branch st st1 n nw nd0 k
            (Children.single k nw) hwf hnd0 hnN hnw hn1 hnx1 hi1
            (by
              intro k2 c2 hl
              have hl2 : (if k = k2 then some nw else none) = some c2 := hl
              by_cases hk2 : k = k2
              · rw [if_pos hk2] at hl2
                injection hl2 with hl2
                exact Or.inl ⟨hk2.symm, by rw [← hl2, hnw]⟩
              · rw [if_neg hk2] at hl2
                cases hl2)
          rw [← h1, ← ha, ← h2, ← hb]
          exact hres
        | single k' c'' =>
          simp only [hch] at hins
          have hkk : ¬ k' = k := by
            intro he
            rw [get_child_eq st n nd0 k hnd0, hch] at hg
            have hg2 : (if k' = k then some c'' else none) = none := hg
            rw [if_pos he] at hg2
            cases hg2
          rw [if_neg hkk] at hins
          simp only [hset (Children.hashed [(k', c''), (k, nw)])] at hins
          injection hins with h3
          rw [Prod.mk.injEq] at h3
          obtain ⟨ha, hb⟩ := h3
          have hres := insert_branch st st1 n nw nd0 k
            (Children.hashed [(k', c''), (k, nw)]) hwf hnd0 hnN hnw hn1
            hnx1 hi1
            (by
              intro k2 c2 hl
              have hl2 : (if k' = k2 then some c''
                  else if k = k2 then some nw else none) = some c2 := hl
              by_cases hk2 : k' = k2
              · rw [if_pos hk2] at hl2
                refine Or.inr ?_
                rw [hch]
                show (if k' = k2 then some c'' else none) = some c2
                rw [if_pos hk2]
                exact hl2
              · rw [if_neg hk2] at hl2
                by_cases hk3 : k = k2
                · rw [if_pos hk3] at hl2
                  injection hl2 with hl2
                  exact Or.inl ⟨hk3.symm, by rw [← hl2, hnw]⟩
                · rw [if_neg hk3] at hl2
                  cases hl2)
          rw [← h1, ← ha, ← h2, ← hb]
          exact hres
        | hashed tbl =>
          simp only [hch] at hins
          have hafk : assocFind tbl k = none := by
            rw [get_child_eq st n nd0 k hnd0, hch] at hg
            exact hg
          simp only [hafk, hset (Children.hashed (tbl ++ [(k, nw)]))] at hins
          injection hins with h3
          rw [Prod.mk.injEq] at h3
          obtain ⟨ha, hb⟩ := h3
          have hres := insert_branch st st1 n nw nd0 k
            (Children.hashed (tbl ++ [(k, nw)])) hwf hnd0 hnN hnw hn1
            hnx1 hi1
            (by
              intro k2 c2 hl
              have hl2 : assocFind (tbl ++ [(k, nw)]) k2 = some c2 := hl
              rw [assocFind_append tbl k k2 nw] at hl2
              cases haf : assocFind tbl k2 with
              | some c3 =>
                rw [haf] at hl2
                refine Or.inr ?_
                rw [hch]
                show assocFind tbl k2 = some c2
                rw [haf]
                exact hl2
              | none =>
                rw [haf] at hl2
                by_cases hk3 : k = k2
                · rw [if_pos hk3] at hl2
                  injection hl2 with hl2
                  exact Or.inl ⟨hk3.symm, by rw [← hl2, hnw]⟩
                · rw [if_neg hk3] at hl2
                  cases hl2)
          rw [← h1, ← ha, ← h2, ← hb]
          exact hres

/-- Auxiliary: with decreasing parent pointers, the collected key chain does
not depend on the fuel once it exceeds the node id. -/
theorem nodeKeys_stable (st : TrieSt)
    (hp : ∀ x d p, st.nodes x = some d → d.parent = some p → p < x) :
    ∀ (x B1 B2 : Nat), x < B1 → x < B2 →
      nodeKeys B1 st x = nodeKeys B2 st x := by
  intro x
  induction x using Nat.strong_induction_on with
  | _ x ih =>
    intro B1 B2 h1 h2
    obtain ⟨b1, rfl⟩ : ∃ b1, B1 = b1 + 1 := ⟨B1 - 1, by omega⟩
    obtain ⟨b2, rfl⟩ : ∃ b2, B2 = b2 + 1 := ⟨B2 - 1, by omega⟩
    unfold nodeKeys
    cases hn : st.nodes x with
    | none => simp only [hn]
    | some d =>
      simp only [hn]
      cases hpar : d.parent with
      | none => rfl
      | some p =>
        have hpx : p < x := hp x d p hn hpar
        show d.key :: nodeKeys b1 st p = d.key :: nodeKeys b2 st p
        rw [ih p hpx b1 b2 (by omega) (by omega)]

/-- Auxiliary: node preservation keeps every existing key chain intact. -/
theorem nodeKeys_NPres (st st2 : TrieSt)
    (hp : ∀ x d p, st.nodes x = some d → d.parent = some p → p < x)
    (hnp : NPres st st2) :
    ∀ (B x : Nat), x < st.next → nodeKeys B st2 x = nodeKeys B st x := by
  intro B
  induction B with
  | zero => intro x _; rfl
  | succ B ih =>
    intro x hx
    unfold nodeKeys
    rcases hnp x hx with heq | ⟨d, d2, hd, hd2, hk, hpp⟩
    · rw [heq]
      cases hn : st.nodes x with
      | none => simp only [hn]
      | some d =>
        simp only [hn]
        cases hpar : d.parent with
        | none => rfl
        | some p =>
          have hpx : p < x := hp x d p hn hpar
          show d.key :: nodeKeys B st2 p = d.key :: nodeKeys B st p
          rw [ih p (by omega)]
    · simp only [hd, hd2, hpp, hk]
      cases hpar : d.parent with
      | none => rfl
      | some p =>
        have hpx : p < x := hp x d p hd hpar
        show d.key :: nodeKeys B st2 p = d.key :: nodeKeys B st p
        rw [ih p (by omega)]

/-- Auxiliary: one more edge extends the collected chain by its key. -/
theorem nodeKeys_child (st2 : TrieSt) (c n : Nat) (k : Key) (dc : NodeData)
    (hdc : st2.nodes c = some dc) (hk : dc.key = k) (hp : dc.parent = some n)
    (B : Nat) :
    nodeKeys (B + 1) st2 c = k :: nodeKeys B st2 n := by
  conv_lhs => rw [nodeKeys]
  simp only [hdc, hp, hk]

/-- Auxiliary: `clear_node` never touches the indirect table. -/
theorem clear_node_ind : ∀ (f : Nat) (st : TrieSt) (n : Nat) (b : Bool),
    (clear_node f st n b).indirects = st.indirects := by
  intro f
  induction f with
  | zero => intro st n b; rfl
  | succ f ih =>
    intro st n b
    unfold clear_node
    cases hn : st.nodes n with
    | none => simp only [hn]
    | some nd =>
      simp only [hn]
      cases hch : nd.children with
      | empty => rfl
      | single k c =>
        rw [ih]
        cases b <;> rfl
      | hashed tbl =>
        have hfold : ∀ (l : List (Key × Nat)) (s : TrieSt),
            (l.foldl (fun s e => clear_node f s e.2 true) s).indirects =
              s.indirects := by
          intro l
          induction l with
          | nil => intro s; rfl
          | cons e r ihl =>
            intro s
            show (r.foldl _ (clear_node f s e.2 true)).indirects = _
            rw [ihl, ih]
        rw [hfold]
        cases b <;> rfl

/-- Auxiliary: `destroy_node` never touches the indirect table. -/
theorem destroy_node_ind (st : TrieSt) (n : Nat) :
    (destroy_node st n).indirects = st.indirects :=
  clear_node_ind _ st n true

/-- Auxiliary: `prune_node` never touches the indirect table. -/
theorem prune_node_ind : ∀ (f : Nat) (st : TrieSt) (n : Nat),
    (prune_node f st n).indirects = st.indirects := by
  intro f
  induction f with
  | zero => intro st n; rfl
  | succ f ih =>
    intro st n
    unfold prune_node
    cases hn : st.nodes n with
    | none => simp only [hn]
    | some nd =>
      simp only [hn]
      cases hp : nd.parent with
      | none => simp only [hp]
      | some p =>
        simp only [hp]
        cases hpd : st.nodes p with
        | none => simp only [hpd]
        | some pd =>
          simp only [hpd]
          cases hch : pd.children with
          | empty =>
            simp only [hch]
            rw [if_pos trivial, ih, destroy_node_ind]
          | single k c =>
            simp only [hch]
            rw [if_pos trivial, ih, destroy_node_ind]
            rfl
          | hashed tbl =>
            simp only [hch]
            by_cases he :
                (tbl.filter (fun e => ¬ e.1 = nd.key)).isEmpty = true
            · rw [if_pos he, ih, destroy_node_ind]
              rfl
            · rw [if_neg he, destroy_node_ind]
              rfl

/-- Auxiliary: `follow_node` never touches the indirect table. -/
theorem follow_node_ind (st : TrieSt) (n : Nat) (k : Key) (add : Bool) :
    (follow_node st n k add).1.indirects = st.indirects := by
  unfold follow_node
  cases hg : get_child st n k with
  | some c => rfl
  | none =>
    cases add with
    | false => rfl
    | true =>
      rw [if_pos rfl]
      cases hins : insert_child st n k with
      | none => rfl
      | some r =>
        show r.1.indirects = st.indirects
        unfold insert_child at hins
        cases hnew : new_trie_node st k with
        | none =>
          simp only [hnew] at hins
          exact Option.noConfusion hins
        | some q =>
          obtain ⟨st1, nw⟩ := q
          simp only [hnew] at hins
          obtain ⟨hnw, hn1, hnx1, hi1⟩ := new_node_spec st k st1 nw hnew
          cases hnd : st1.nodes n with
          | none =>
            simp only [hnd] at hins
            exact Option.noConfusion hins
          | some nd =>
            simp only [hnd] at hins
            cases hch : nd.children with
            | empty =>
              simp only [hch] at hins
              cases hnw2 : (st1.setNode n
                  { nd with children := Children.single k nw }).nodes nw with
              | none =>
                simp only [hnw2] at hins
                exact Option.noConfusion hins
              | some nwd =>
                simp only [hnw2] at hins
                injection hins with h3
                rw [Prod.mk.injEq] at h3
                rw [← h3.1]
                exact hi1
            | single k2 c2 =>
              simp only [hch] at hins
              by_cases hk2 : k2 = k
              · rw [if_pos hk2] at hins
                injection hins with h3
                rw [Prod.mk.injEq] at h3
                rw [← h3.1]
                exact hi1
              · rw [if_neg hk2] at hins
                cases hnw2 : (st1.setNode n
                    { nd with children :=
                      Children.hashed [(k2, c2), (k, nw)] }).nodes nw with
                | none =>
                  simp only [hnw2] at hins
                  exact Option.noConfusion hins
                | some nwd =>
                  simp only [hnw2] at hins
                  injection hins with h3
                  rw [Prod.mk.injEq] at h3
                  rw [← h3.1]
                  exact hi1
            | hashed tbl =>
              simp only [hch] at hins
              cases haf : assocFind tbl k with
              | some old =>
                simp only [haf] at hins
                injection hins with h3
                rw [Prod.mk.injEq] at h3
                rw [← h3.1, destroy_node_ind]
                exact hi1
              | none =>
                simp only [haf] at hins
                cases hnw2 : (st1.setNode n
                    { nd with children :=
                      Children.hashed (tbl ++ [(k, nw)]) }).nodes nw with
                | none =>
                  simp only [hnw2] at hins
                  exact Option.noConfusion hins
                | some nwd =>
                  simp only [hnw2] at hins
                  injection hins with h3
                  rw [Prod.mk.injEq] at h3
                  rw [← h3.1]
                  exact hi1

/-- Auxiliary: `prune_error` never touches the indirect table. -/
theorem prune_error_ind (st : TrieSt) (n : Nat) :
    (prune_error st n).indirects = st.indirects := by
  unfold prune_error
  cases hf : follow_node st n .errv true with
  | mk st1 r =>
    cases r with
    | none =>
      have := follow_node_ind st n .errv true
      rw [hf] at this
      exact this
    | some e =>
      have := follow_node_ind st n .errv true
      rw [hf] at this
      rw [prune_node_ind]
      exact this

/-- Auxiliary: interning only appends to the table. -/
theorem intern_pref (tab : List Nat) (w : Nat) (add : Bool) :
    List.IsPrefix tab (intern_indirect tab w add).1 := by
  unfold intern_indirect
  cases hi : idxOf tab w with
  | some j => exact List.prefix_refl _
  | none =>
    cases add with
    | false => exact List.prefix_refl _
    | true => exact ⟨[w], rfl⟩

/-- Auxiliary: one walk iteration only appends to the indirect table. -/
theorem walk_step_tab (add : Bool) (s : WalkSt) (nd : Nat) (it : WItem)
    (rest : List WItem) (hnd : s.node = some nd) (hag : s.ag = it :: rest) :
    List.IsPrefix (tabOf s.st) (tabOf (walk_step add s).st) := by
  cases it with
  | pop =>
    have h1 : (walk_step add s).st = (follow_node s.st nd .pop add).1 := by
      simp [walk_step, hnd, hag]
    rw [h1]
    unfold tabOf
    rw [follow_node_ind]
  | ad a =>
    cases hc : hget s.h (derefA s.h a) with
    | unbound =>
      have h1 : (walk_step add s).st =
          (follow_node s.st nd (.avar (s.vn + 1)) add).1 := by
        simp [walk_step, hnd, hag, hc]
      rw [h1]
      unfold tabOf
      rw [follow_node_ind]
    | mark i =>
      have h1 : (walk_step add s).st =
          (follow_node s.st nd (.avar i) add).1 := by
        simp [walk_step, hnd, hag, hc]
      rw [h1]
      unfold tabOf
      rw [follow_node_ind]
    | att =>
      have h1 : (walk_step add s).st = prune_error s.st nd := by
        simp [walk_step, hnd, hag, hc]
      rw [h1]
      unfold tabOf
      rw [prune_error_ind]
    | ref b =>
      have h1 : (walk_step add s).st = s.st := by
        simp [walk_step, hnd, hag, hc]
      rw [h1]
    | cst w =>
      have h1 : (walk_step add s).st =
          (follow_node s.st nd (.cst w) add).1 := by
        simp [walk_step, hnd, hag, hc]
      rw [h1]
      unfold tabOf
      rw [follow_node_ind]
    | big w =>
      have htab1 : tabOf (trie_intern_indirect s.st w add).1 =
          (intern_indirect (tabOf s.st) w add).1 := by
        unfold trie_intern_indirect tabOf
        rfl
      have hpre : List.IsPrefix (tabOf s.st)
          (tabOf (trie_intern_indirect s.st w add).1) := by
        rw [htab1]
        exact intern_pref _ w add
      cases hi : (trie_intern_indirect s.st w add).2 with
      | some tok =>
        have h1 : (walk_step add s).st =
            (follow_node (trie_intern_indirect s.st w add).1 nd
              (.indirect tok) add).1 := by
          simp [walk_step, hnd, hag, hc, hi]
        rw [h1]
        unfold tabOf
        rw [follow_node_ind]
        exact hpre
      | none =>
        have h1 : (walk_step add s).st =
            (trie_intern_indirect s.st w add).1 := by
          simp [walk_step, hnd, hag, hc, hi]
        rw [h1]
        exact hpre
    | fnc f2 ar b =>
      by_cases hcy : add = true ∧ s.cps + 1 = 1000 ∧
          ¬ is_acyclic s.h (derefA s.h a) = true
      · have h1 : (walk_step add s).st = prune_error s.st nd := by
          simp only [walk_step, hnd, hag, hc]
          rw [if_pos (by simpa using hcy)]
        rw [h1]
        unfold tabOf
        rw [prune_error_ind]
      · have h1 : (walk_step add s).st =
            (follow_node s.st nd (.functor f2 ar) add).1 := by
          simp only [walk_step, hnd, hag, hc]
          rw [if_neg (by simpa using hcy)]
        rw [h1]
        unfold tabOf
        rw [follow_node_ind]

/-- Auxiliary: over a whole walk the indirect table only grows. -/
theorem walk_run_tab (f : Nat) (add : Bool) :
    ∀ (s s2 : WalkSt), walk_run f add s = some s2 →
      List.IsPrefix (tabOf s.st) (tabOf s2.st) := by
  induction f with
  | zero =>
    intro s s2 hrun
    unfold walk_run at hrun
    split at hrun
    · injection hrun with h
      rw [h]
    · cases hrun
  | succ f ih =>
    intro s s2 hrun
    unfold walk_run at hrun
    split at hrun
    · injection hrun with h
      rw [h]
    · rename_i hstop
      have hnode : ∃ nd, s.node = some nd := by
        cases h : s.node with
        | none => exact absurd (Or.inl h) hstop
        | some nd => exact ⟨nd, rfl⟩
      have hag : ∃ it rest, s.ag = it :: rest := by
        cases h : s.ag with
        | nil => exact absurd (Or.inr h) hstop
        | cons it rest => exact ⟨it, rest, rfl⟩
      obtain ⟨nd, hnd⟩ := hnode
      obtain ⟨it, rest, hagr⟩ := hag
      exact (walk_step_tab add s nd it rest hnd hagr).trans
        (ih (walk_step add s) s2 hrun)

/-- Auxiliary: a value not in the list has no index. -/
theorem idxOf_not_mem : ∀ (l : List Nat) (w : Nat), w ∉ l → idxOf l w = none := by
  intro l
  induction l with
  | nil => intro w _; rfl
  | cons a r ih =>
    intro w hw
    unfold idxOf
    rw [if_neg (fun he => hw (by rw [← he]; exact List.mem_cons_self a r))]
    rw [ih w (fun hm => hw (List.mem_cons.mpr (Or.inr hm)))]
    rfl

/-- Auxiliary: when the ordinals of the mark list are consecutive from
`o + 1`, a marked address's position in the address list recovers its
ordinal. -/
theorem mark_idx : ∀ (m : List (Nat × Nat)) (o : Nat),
    m.map Prod.snd = List.range' (o + 1) m.length →
    (m.map Prod.fst).Nodup →
    ∀ P i, (P, i) ∈ m →
      idxOf (m.map Prod.fst) P = some (i - o - 1) ∧ o + 1 ≤ i := by
  intro m
  induction m with
  | nil => intro o _ _ P i hPi; cases hPi
  | cons e r ih =>
    intro o hr hnd P i hPi
    have hr' : e.2 :: r.map Prod.snd =
        (o + 1) :: List.range' (o + 2) r.length := hr
    injection hr' with he2 hrs
    have hnd' := hnd
    rw [List.map_cons, List.nodup_cons] at hnd'
    rcases List.mem_cons.mp hPi with hee | hmr
    · have hP : P = e.1 := by rw [← hee]
      have hi : i = e.2 := by rw [← hee]
      constructor
      · show idxOf (e.1 :: r.map Prod.fst) P = some (i - o - 1)
        unfold idxOf
        rw [if_pos hP.symm]
        rw [hi, he2]
        simp
      · omega
    · have hPr : P ∈ r.map Prod.fst :=
        List.mem_map.mpr ⟨(P, i), hmr, rfl⟩
      have hPne : ¬ e.1 = P := fun he => hnd'.1 (he ▸ hPr)
      obtain ⟨hidx, hge⟩ := ih (o + 1) hrs hnd'.2 P i hmr
      constructor
      · show idxOf (e.1 :: r.map Prod.fst) P = some (i - o - 1)
        unfold idxOf
        rw [if_neg hPne, hidx]
        show some (i - (o + 1) - 1 + 1) = some (i - o - 1)
        congr 1
        omega
      · omega

/-- Auxiliary: node preservation is reflexive. -/
theorem NPres_refl (st : TrieSt) : NPres st st :=
  fun x _ => Or.inl rfl

/-- Auxiliary: node preservation composes along growing allocation
cursors. -/
theorem NPres_trans (st st2 st3 : TrieSt) (h12 : NPres st st2)
    (h23 : NPres st2 st3) (hn : st.next ≤ st2.next) : NPres st st3 := by
  intro x hx
  have hx2 : x < st2.next := Nat.lt_of_lt_of_le hx hn
  rcases h12 x hx with he1 | ⟨d, d2, hd, hd2, hk, hp⟩
  · rcases h23 x hx2 with he2 | ⟨d2, d3, hd2, hd3, hk2, hp2⟩
    · exact Or.inl (he2.trans he1)
    · exact Or.inr ⟨d2, d3, he1 ▸ hd2, hd3, hk2, hp2⟩
  · rcases h23 x hx2 with he2 | ⟨d2', d3, hd2', hd3, hk2, hp2⟩
    · exact Or.inr ⟨d, d2, hd, he2.trans hd2, hk, hp⟩
    · refine Or.inr ⟨d, d3, hd, hd3, ?_, ?_⟩
      · rw [hd2] at hd2'
        injection hd2' with he
        rw [hk2, ← he, hk]
      · rw [hd2] at hd2'
        injection hd2' with he
        rw [hp2, ← he, hp]

/-- Auxiliary: token validity over a scheduled argument block. -/
theorem tokPend_args (T : List Nat) :
    ∀ (ts : PTermL) (b : Nat) (l : List PendI),
      tokPend T (argsPend b ts ++ l) = (tokOkL T ts && tokPend T l)
  | .nil, b, l => by simp [argsPend, tokOkL]
  | .cons t ts, b, l => by
    show (tokOkT T t && tokPend T (argsPend (b + 1) ts ++ l)) = _
    rw [tokPend_args T ts (b + 1) l]
    show _ = ((tokOkT T t && tokOkL T ts) && tokPend T l)
    rw [Bool.and_assoc]

/-- Auxiliary: consecutive ordinals extend by one at the top. -/
theorem range1_concat (n : Nat) :
    List.range' 1 (n + 1) = List.range' 1 n ++ [n + 1] := by
  induction n with
  | zero => rfl
  | succ n ih =>
    have h : ∀ (s m : Nat), List.range' s (m + 1) = s :: List.range' (s + 1) m :=
      fun s m => rfl
    rw [h 1 (n + 1), h 1 n]
    have h2 : ∀ (m s : Nat), List.range' (s + 1) m =
        (List.range' s m).map (· + 1) := by
      intro m
      induction m with
      | zero => intro s; rfl
      | succ m ihm =>
        intro s
        rw [h (s + 1) m, h s m, List.map_cons, ← ihm (s + 1)]
    rw [h2 (n + 1) 1, h2 n 1, ih, List.map_append]
    simp

/-- Auxiliary: one successful `follow_node` step composes with the rest of
the run — node preservation extends, and the key chain of the reached child
in the final trie is the step's key consed onto the chain of its parent. -/
theorem walk_combine (stA st1 s2st : TrieSt) (nd c : Nat) (k : Key)
    (hwf : WFT stA) (hex : ∃ d, stA.nodes nd = some d)
    (hfol : follow_node stA nd k true = (st1, some c))
    (hwf2 : WFT s2st) (hnp2 : NPres st1 s2st) (hnx2 : st1.next ≤ s2st.next) :
    NPres stA s2st ∧ stA.next ≤ s2st.next ∧
    ∀ B, s2st.next ≤ B →
      nodeKeys B s2st c = k :: nodeKeys B s2st nd := by
  obtain ⟨hwf1, hnp1, hnx1, ⟨dc, hdc, hk, hp⟩, _⟩ :=
    follow_add stA nd k st1 c hwf hex hfol
  have hcN : c < st1.next := by
    by_contra hge
    rw [hwf1.2.2.2 c (Nat.le_of_not_lt hge)] at hdc
    cases hdc
  have hrec2 : ∃ dc2, s2st.nodes c = some dc2 ∧ dc2.key = k ∧
      dc2.parent = some nd := by
    rcases hnp2 c hcN with he | ⟨d, d2, hd, hd2, hk2, hp2⟩
    · exact ⟨dc, he.trans hdc, hk, hp⟩
    · rw [hdc] at hd
      injection hd with hd
      exact ⟨d2, hd2, by rw [hk2, ← hd, hk], by rw [hp2, ← hd, hp]⟩
  obtain ⟨dc2, hdc2, hk2, hp2⟩ := hrec2
  refine ⟨NPres_trans stA st1 s2st hnp1 hnp2 hnx1,
    Nat.le_trans hnx1 hnx2, ?_⟩
  intro B hB
  have hchild := nodeKeys_child s2st c nd k dc2 hdc2 hk2 hp2 B
  have hcB : c < B := Nat.lt_of_lt_of_le (Nat.lt_of_lt_of_le hcN hnx2) hB
  have hstable := nodeKeys_stable s2st hwf2.2.2.1 c B (B + 1) hcB
    (Nat.lt_succ_of_lt hcB)
  rw [hstable, hchild]

/-- Master simulation of the insert walk (`trie_lookup` with `add=TRUE`):
over a well-formed trie, a terminating run on a readable pending agenda
either aborts (final node `NULL`) or ends on a node whose parent chain
spells, in reverse, exactly the key stream the encoder assigns to the
pending agenda over the final indirect table, with every emitted indirect
token interned. -/
theorem walk_run_keys (h0 : List Cell) (t0 : PTerm) :
    ∀ (f : Nat) (s s2 : WalkSt) (pend : List PendI)
      (m : List (Nat × Nat)) (nd : Nat),
      s.h = applyMarks h0 m →
      s.ag = pendW pend →
      (∀ a t, PendI.tm a t ∈ pend →
        ReadsAs h0 a t ∧ ∀ v ∈ vaT t, v ∈ vaT t0) →
      MarksWF h0 t0 m →
      s.vn = m.length →
      m.map Prod.snd = List.range' 1 m.length →
      s.node = some nd →
      WFT s.st →
      (∃ d, s.st.nodes nd = some d) →
      walk_run f true s = some s2 →
      s2.node = none ∨
      (∃ nfin, s2.node = some nfin ∧ s2.ag = [] ∧
        WFT s2.st ∧ NPres s.st s2.st ∧ s.st.next ≤ s2.st.next ∧
        (∃ d, s2.st.nodes nfin = some d) ∧
        tokPend (tabOf s2.st) pend = true ∧
        ∀ B, s2.st.next ≤ B →
          nodeKeys B s2.st nfin =
            (encPend (tabOf s2.st) pend (m.map Prod.fst)).reverse ++
              nodeKeys B s2.st nd) := by
  intro f
  induction f with
  | zero =>
    intro s s2 pend m nd hh hag hpend hwf hvn hsnd hnd hwfT hexist hrun
    unfold walk_run at hrun
    split at hrun
    · rename_i hstop
      injection hrun with hs2
      rcases hstop with hn | hagn
    -- the node is live, so the loop stopped on an empty agenda
      · rw [hnd] at hn; cases hn
      · cases pend with
        | nil =>
          refine Or.inr ⟨nd, ?_, ?_, ?_, ?_, ?_, ?_, rfl, ?_⟩
          · rw [← hs2]; exact hnd
          · rw [← hs2]; exact hagn
          · rw [← hs2]; exact hwfT
          · rw [← hs2]; exact NPres_refl s.st
          · rw [← hs2]
          · rw [← hs2]; exact hexist
          · intro B _; rfl
        | cons pi rest =>
          rw [hag] at hagn
          cases pi <;> cases hagn
    · cases hrun
  | succ f ih =>
    intro s s2 pend m nd hh hag hpend hwf hvn hsnd hnd hwfT hexist hrun
    unfold walk_run at hrun
    split at hrun
    · rename_i hstop
      injection hrun with hs2
      rcases hstop with hn | hagn
      · rw [hnd] at hn; cases hn
      · cases pend with
        | nil =>
          refine Or.inr ⟨nd, ?_, ?_, ?_, ?_, ?_, ?_, rfl, ?_⟩
          · rw [← hs2]; exact hnd
          · rw [← hs2]; exact hagn
          · rw [← hs2]; exact hwfT
          · rw [← hs2]; exact NPres_refl s.st
          · rw [← hs2]
          · rw [← hs2]; exact hexist
          · intro B _; rfl
        | cons pi rest =>
          rw [hag] at hagn
          cases pi <;> cases hagn
    · rename_i hstop
      have habort : ∀ (hsn : (walk_step true s).node = none),
          s2.node = none := by
        intro hsn
        rw [walk_run_stopped f true (walk_step true s) hsn] at hrun
        injection hrun with hr
        rw [← hr]
        exact hsn
      obtain ⟨hwf1m, hwf2m⟩ := hwf
      cases pend with
      | nil =>
        exact absurd (Or.inr (by rw [hag]; rfl)) hstop
      | cons pi rest =>
        cases pi with
        | pop =>
          have hagr : s.ag = .pop :: pendW rest := by rw [hag]; rfl
          cases hfol : follow_node s.st nd .pop true with
          | mk st1 onew =>
            cases onew with
            | none =>
              exact Or.inl (habort (by simp [walk_step, hnd, hagr, hfol]))
            | some c =>
              have hss : (walk_step true s).st = st1 := by
                simp [walk_step, hnd, hagr, hfol]
              have hsn : (walk_step true s).node = some c := by
                simp [walk_step, hnd, hagr, hfol]
              have hsh : (walk_step true s).h = s.h := by
                simp [walk_step, hnd, hagr]
              have hsag : (walk_step true s).ag = pendW rest := by
                simp [walk_step, hnd, hagr]
              have hsvn : (walk_step true s).vn = s.vn := by
                simp [walk_step, hnd, hagr]
              obtain ⟨hwf1, _, _, ⟨dc, hdc, _, _⟩, _⟩ :=
                follow_add s.st nd .pop st1 c hwfT hexist hfol
              rcases ih _ s2 rest m c (by rw [hsh, hh]) hsag
                (fun a t hm => hpend a t (List.mem_cons.mpr (Or.inr hm)))
                ⟨hwf1m, hwf2m⟩ (by rw [hsvn, hvn]) hsnd hsn
                (by rw [hss]; exact hwf1) (by rw [hss]; exact ⟨dc, hdc⟩)
                hrun with hnone | hgood
              · exact Or.inl hnone
              · obtain ⟨nfin, hnfin, hag2, hwf2, hnp2, hnx2, hex2, htok2,
                  hchain2⟩ := hgood
                rw [hss] at hnp2 hnx2
                obtain ⟨hnpA, hnxA, hcext⟩ := walk_combine s.st st1 s2.st
                  nd c .pop hwfT hexist hfol hwf2 hnp2 hnx2
                refine Or.inr ⟨nfin, hnfin, hag2, hwf2, hnpA, hnxA, hex2,
                  htok2, ?_⟩
                intro B hB
                rw [hchain2 B hB, hcext B hB]
                show _ ++ _ :: _ =
                  (Key.pop :: encPend (tabOf s2.st) rest
                    (m.map Prod.fst)).reverse ++ _
                simp [List.append_assoc]
        | tm a t =>
          have hagr : s.ag = .ad a :: pendW rest := by rw [hag]; rfl
          obtain ⟨hra, hsub⟩ :=
            hpend a t (List.mem_cons.mpr (Or.inl rfl))
          have hwf01 : ∀ e ∈ m, hget h0 e.1 = Cell.unbound ∧
              e.1 < h0.length :=
            fun e he => ⟨(hwf1m e he).1, (hwf1m e he).2.1⟩
          have hp : derefA s.h a = derefA h0 a := by
            rw [hh]; exact derefA_applyMarks m h0 hwf01 hwf2m a
          have hrest : ∀ a' t', PendI.tm a' t' ∈ rest →
              ReadsAs h0 a' t' ∧ ∀ v ∈ vaT t', v ∈ vaT t0 :=
            fun a' t' hm => hpend a' t' (List.mem_cons.mpr (Or.inr hm))
          by_cases hmk : ∃ i, (derefA h0 a, i) ∈ m
          · -- the address is already marked: an `.avar i` key is emitted
            obtain ⟨i, hi⟩ := hmk
            have hc' : hget s.h (derefA s.h a) = .mark i := by
              rw [hp, hh]
              exact hget_applyMarks_mem m h0 _ i hwf2m hi (hwf01 _ hi).2
            have htv : t = .pvar (derefA h0 a) := by
              rcases ReadsAs_cell h0 a t hra with
                ⟨ht, _⟩ | ⟨w, _, hcw⟩ | ⟨w, _, hcw⟩ | ⟨fn, n, b, ts, _, hcw, _⟩
              · exact ht
              · rw [(hwf1m _ hi).1] at hcw; cases hcw
              · rw [(hwf1m _ hi).1] at hcw; cases hcw
              · rw [(hwf1m _ hi).1] at hcw; cases hcw
            obtain ⟨hidx, hge⟩ := mark_idx m 0 hsnd hwf2m _ i hi
            cases hfol : follow_node s.st nd (.avar i) true with
            | mk st1 onew =>
              cases onew with
              | none =>
                exact Or.inl (habort
                  (by simp [walk_step, hnd, hagr, hc', hfol]))
              | some c =>
                have hss : (walk_step true s).st = st1 := by
                  simp [walk_step, hnd, hagr, hc', hfol]
                have hsn : (walk_step true s).node = some c := by
                  simp [walk_step, hnd, hagr, hc', hfol]
                have hsh : (walk_step true s).h = s.h := by
                  simp [walk_step, hnd, hagr, hc']
                have hsag : (walk_step true s).ag = pendW rest := by
                  simp [walk_step, hnd, hagr, hc']
                have hsvn : (walk_step true s).vn = s.vn := by
                  simp [walk_step, hnd, hagr, hc']
                obtain ⟨hwf1, _, _, ⟨dc, hdc, _, _⟩, _⟩ :=
                  follow_add s.st nd (.avar i) st1 c hwfT hexist hfol
                rcases ih _ s2 rest m c (by rw [hsh, hh]) hsag hrest
                  ⟨hwf1m, hwf2m⟩ (by rw [hsvn, hvn]) hsnd hsn
                  (by rw [hss]; exact hwf1) (by rw [hss]; exact ⟨dc, hdc⟩)
                  hrun with hnone | hgood
                · exact Or.inl hnone
                · obtain ⟨nfin, hnfin, hag2, hwf2, hnp2, hnx2, hex2, htok2,
                    hchain2⟩ := hgood
                  rw [hss] at hnp2 hnx2
                  obtain ⟨hnpA, hnxA, hcext⟩ := walk_combine s.st st1 s2.st
                    nd c (.avar i) hwfT hexist hfol hwf2 hnp2 hnx2
                  refine Or.inr ⟨nfin, hnfin, hag2, hwf2, hnpA, hnxA, hex2,
                    ?_, ?_⟩
                  · show (tokOkT (tabOf s2.st) t &&
                      tokPend (tabOf s2.st) rest) = true
                    rw [htv]
                    rw [Bool.and_eq_true]
                    exact ⟨rfl, htok2⟩
                  · intro B hB
                    rw [hchain2 B hB, hcext B hB, htv]
                    have hi1 : i - 0 - 1 + 1 = i := by omega
                    simp only [encPend, encKsT, hidx, hi1,
                      List.reverse_append, List.reverse_cons,
                      List.reverse_nil, List.nil_append, List.append_assoc,
                      List.cons_append]
          · -- the address is not yet marked: inspect the original cell
            have hnone : ∀ i, (derefA h0 a, i) ∉ m :=
              fun i hi => hmk ⟨i, hi⟩
            have hc0 : hget s.h (derefA s.h a) = hget h0 (derefA h0 a) := by
              rw [hp, hh]
              exact hget_applyMarks_not m h0 _ hnone
            rcases ReadsAs_cell h0 a t hra with
              ⟨ht, hcu⟩ | ⟨w, ht, hcw⟩ | ⟨w, ht, hcw⟩ |
              ⟨fn, n, b, ts, ht, hcw, hargs⟩
            · -- a fresh variable: mark it, emit `.avar (vn+1)`
              have hc' : hget s.h (derefA s.h a) = .unbound := by
                rw [hc0, hcu]
              have hlt : derefA h0 a < h0.length :=
                hget_lt h0 _ (by rw [hcu]; intro hx; cases hx)
              have hnin : derefA h0 a ∉ m.map Prod.fst := by
                intro hx
                obtain ⟨e, he, hefst⟩ := List.mem_map.mp hx
                exact hnone e.2 (by
                  have : (derefA h0 a, e.2) = e := by
                    rw [← hefst]
                  rw [this]
                  exact he)
              have hidxn : idxOf (m.map Prod.fst) (derefA h0 a) = none :=
                idxOf_not_mem _ _ hnin
              cases hfol : follow_node s.st nd (.avar (s.vn + 1)) true with
              | mk st1 onew =>
                cases onew with
                | none =>
                  exact Or.inl (habort
                    (by simp [walk_step, hnd, hagr, hc', hfol]))
                | some c =>
                  have hss : (walk_step true s).st = st1 := by
                    simp [walk_step, hnd, hagr, hc', hfol]
                  have hsn : (walk_step true s).node = some c := by
                    simp [walk_step, hnd, hagr, hc', hfol]
                  have hsh : (walk_step true s).h =
                      s.h.set (derefA s.h a) (.mark (s.vn + 1)) := by
                    simp [walk_step, hnd, hagr, hc']
                  have hsag : (walk_step true s).ag = pendW rest := by
                    simp [walk_step, hnd, hagr, hc']
                  have hsvn : (walk_step true s).vn = s.vn + 1 := by
                    simp [walk_step, hnd, hagr, hc']
                  have hhm : (walk_step true s).h =
                      applyMarks h0 (m ++ [(derefA h0 a, m.length + 1)]) := by
                    rw [hsh, hp, hh, hvn, applyMarks_append]
                    rfl
                  obtain ⟨hwf1, _, _, ⟨dc, hdc, _, _⟩, _⟩ :=
                    follow_add s.st nd (.avar (s.vn + 1)) st1 c hwfT hexist
                      hfol
                  have hm1 : ∀ e ∈ m ++ [(derefA h0 a, m.length + 1)],
                      hget h0 e.1 = Cell.unbound ∧ e.1 < h0.length ∧
                        e.1 ∈ vaT t0 := by
                    intro e he
                    rcases List.mem_append.mp he with hel | her
                    · exact hwf1m e hel
                    · rcases List.mem_cons.mp her with hee | hee
                      · subst hee
                        refine ⟨hcu, hlt, hsub _ ?_⟩
                        rw [ht]
                        exact List.mem_singleton.mpr rfl
                      · cases hee
                  have hm2 : ((m ++ [(derefA h0 a, m.length + 1)]).map
                      Prod.fst).Nodup := by
                    rw [List.map_append]
                    simp [List.nodup_append, hwf2m, hnin]
                  have hm3 : (walk_step true s).vn =
                      (m ++ [(derefA h0 a, m.length + 1)]).length := by
                    rw [hsvn, hvn, List.length_append]
                    rfl
                  have hm4 : (m ++ [(derefA h0 a, m.length + 1)]).map
                      Prod.snd = List.range' 1
                        (m ++ [(derefA h0 a, m.length + 1)]).length := by
                    rw [List.map_append, List.length_append, hsnd]
                    show _ = List.range' 1 (m.length + 1)
                    rw [range1_concat]
                    rfl
                  rcases ih _ s2 rest (m ++ [(derefA h0 a, m.length + 1)]) c
                    hhm hsag hrest
                    ⟨hm1, hm2⟩ hm3 hm4 hsn
                    (by rw [hss]; exact hwf1) (by rw [hss]; exact ⟨dc, hdc⟩)
                    hrun with hnone2 | hgood
                  · exact Or.inl hnone2
                  · obtain ⟨nfin, hnfin, hag2, hwf2, hnp2, hnx2, hex2,
                      htok2, hchain2⟩ := hgood
                    rw [hss] at hnp2 hnx2
                    obtain ⟨hnpA, hnxA, hcext⟩ := walk_combine s.st st1
                      s2.st nd c (.avar (s.vn + 1)) hwfT hexist hfol hwf2
                      hnp2 hnx2
                    refine Or.inr ⟨nfin, hnfin, hag2, hwf2, hnpA, hnxA,
                      hex2, ?_, ?_⟩
                    · show (tokOkT (tabOf s2.st) t &&
                        tokPend (tabOf s2.st) rest) = true
                      rw [ht]
                      rw [Bool.and_eq_true]
                      exact ⟨rfl, htok2⟩
                    · intro B hB
                      rw [hchain2 B hB, hcext B hB, ht]
                      have hlen : (m.map Prod.fst).length = m.length :=
                        List.length_map m Prod.fst
                      have hfst : (m ++ [(derefA h0 a, m.length + 1)]).map
                          Prod.fst = m.map Prod.fst ++ [derefA h0 a] := by
                        rw [List.map_append]
                        rfl
                      rw [hfst, hvn]
                      simp only [encPend, encKsT, hidxn, hlen,
                        List.reverse_append, List.reverse_cons,
                        List.reverse_nil, List.nil_append,
                        List.append_assoc, List.cons_append]
            · -- an inline constant: emit `.cst w`
              have hc' : hget s.h (derefA s.h a) = .cst w := by
                rw [hc0, hcw]
              cases hfol : follow_node s.st nd (.cst w) true with
              | mk st1 onew =>
                cases onew with
                | none =>
                  exact Or.inl (habort
                    (by simp [walk_step, hnd, hagr, hc', hfol]))
                | some c =>
                  have hss : (walk_step true s).st = st1 := by
                    simp [walk_step, hnd, hagr, hc', hfol]
                  have hsn : (walk_step true s).node = some c := by
                    simp [walk_step, hnd, hagr, hc', hfol]
                  have hsh : (walk_step true s).h = s.h := by
                    simp [walk_step, hnd, hagr, hc']
                  have hsag : (walk_step true s).ag = pendW rest := by
                    simp [walk_step, hnd, hagr, hc']
                  have hsvn : (walk_step true s).vn = s.vn := by
                    simp [walk_step, hnd, hagr, hc']
                  obtain ⟨hwf1, _, _, ⟨dc, hdc, _, _⟩, _⟩ :=
                    follow_add s.st nd (.cst w) st1 c hwfT hexist hfol
                  rcases ih _ s2 rest m c (by rw [hsh, hh]) hsag hrest
                    ⟨hwf1m, hwf2m⟩ (by rw [hsvn, hvn]) hsnd hsn
                    (by rw [hss]; exact hwf1) (by rw [hss]; exact ⟨dc, hdc⟩)
                    hrun with hnone2 | hgood
                  · exact Or.inl hnone2
                  · obtain ⟨nfin, hnfin, hag2, hwf2, hnp2, hnx2, hex2,
                      htok2, hchain2⟩ := hgood
                    rw [hss] at hnp2 hnx2
                    obtain ⟨hnpA, hnxA, hcext⟩ := walk_combine s.st st1
                      s2.st nd c (.cst w) hwfT hexist hfol hwf2 hnp2 hnx2
                    refine Or.inr ⟨nfin, hnfin, hag2, hwf2, hnpA, hnxA,
                      hex2, ?_, ?_⟩
                    · show (tokOkT (tabOf s2.st) t &&
                        tokPend (tabOf s2.st) rest) = true
                      rw [ht]
                      rw [Bool.and_eq_true]
                      exact ⟨rfl, htok2⟩
                    · intro B hB
                      rw [hchain2 B hB, hcext B hB, ht]
                      simp only [encPend, encKsT, List.reverse_append,
                        List.reverse_cons, List.reverse_nil,
                        List.nil_append, List.append_assoc,
                        List.cons_append]
            · -- an oversized value: intern it and emit `.indirect tok`
              have hc' : hget s.h (derefA s.h a) = .big w := by
                rw [hc0, hcw]
              cases hio : idxOf (tabOf s.st) w with
              | some j =>
                have hio' : idxOf (s.st.indirects.getD []) w = some j := hio
                have hti : trie_intern_indirect s.st w true =
                    ({ s.st with indirects := some (tabOf s.st) }, some j) := by
                  simp [trie_intern_indirect, intern_indirect, hio']
                  rfl
                cases hfol : follow_node
                    { s.st with indirects := some (tabOf s.st) } nd
                    (.indirect j) true with
                | mk st1 onew =>
                  cases onew with
                  | none =>
                    exact Or.inl (habort
                      (by simp [walk_step, hnd, hagr, hc', hti, hfol]))
                  | some c =>
                    have hss : (walk_step true s).st = st1 := by
                      simp [walk_step, hnd, hagr, hc', hti, hfol]
                    have hsn : (walk_step true s).node = some c := by
                      simp [walk_step, hnd, hagr, hc', hti, hfol]
                    have hsh : (walk_step true s).h = s.h := by
                      simp [walk_step, hnd, hagr, hc', hti]
                    have hsag : (walk_step true s).ag = pendW rest := by
                      simp [walk_step, hnd, hagr, hc', hti]
                    have hsvn : (walk_step true s).vn = s.vn := by
                      simp [walk_step, hnd, hagr, hc', hti]
                    obtain ⟨hwf1, _, _, ⟨dc, hdc, _, _⟩, _⟩ :=
                      follow_add { s.st with
                          indirects := some (tabOf s.st) } nd
                        (.indirect j) st1 c hwfT hexist hfol
                    rcases ih _ s2 rest m c (by rw [hsh, hh]) hsag hrest
                      ⟨hwf1m, hwf2m⟩ (by rw [hsvn, hvn]) hsnd hsn
                      (by rw [hss]; exact hwf1)
                      (by rw [hss]; exact ⟨dc, hdc⟩)
                      hrun with hnone2 | hgood
                    · exact Or.inl hnone2
                    · obtain ⟨nfin, hnfin, hag2, hwf2, hnp2, hnx2, hex2,
                        htok2, hchain2⟩ := hgood
                      rw [hss] at hnp2 hnx2
                      obtain ⟨hnpA, hnxA, hcext⟩ := walk_combine
                        { s.st with indirects := some (tabOf s.st) } st1
                        s2.st nd c (.indirect j) hwfT hexist hfol hwf2
                        hnp2 hnx2
                      have htabpref : List.IsPrefix (tabOf s.st)
                          (tabOf s2.st) := by
                        have hstep := walk_run_tab f true (walk_step true s)
                          s2 hrun
                        have hst : tabOf (walk_step true s).st =
                            tabOf s.st := by
                          rw [hss]
                          have := follow_node_ind
                            { s.st with indirects := some (tabOf s.st) } nd
                            (.indirect j) true
                          rw [hfol] at this
                          show (st1.indirects).getD [] = _
                          rw [this]
                          exact rfl
                        rw [hst] at hstep
                        exact hstep
                      obtain ⟨u, hu⟩ := htabpref
                      have hTfind : idxOf (tabOf s2.st) w = some j := by
                        rw [← hu]
                        exact idxOf_append_of_some _ w j hio u
                      refine Or.inr ⟨nfin, hnfin, hag2, hwf2, hnpA, hnxA,
                        hex2, ?_, ?_⟩
                      · show (tokOkT (tabOf s2.st) t &&
                          tokPend (tabOf s2.st) rest) = true
                        rw [ht]
                        show ((idxOf (tabOf s2.st) w).isSome && _) = true
                        rw [hTfind]
                        rw [Bool.and_eq_true]
                        exact ⟨rfl, htok2⟩
                      · intro B hB
                        rw [hchain2 B hB, hcext B hB, ht]
                        simp only [encPend, encKsT, hTfind, Option.getD,
                          List.reverse_append, List.reverse_cons,
                          List.reverse_nil, List.nil_append,
                          List.append_assoc, List.cons_append]
              | none =>
                have hio' : idxOf (s.st.indirects.getD []) w = none := hio
                have hint : intern_indirect (s.st.indirects.getD []) w true =
                    (s.st.indirects.getD [] ++ [w],
                      some (s.st.indirects.getD []).length) := by
                  simp only [intern_indirect, hio']
                  rw [if_pos trivial]
                have hti : trie_intern_indirect s.st w true =
                    ({ s.st with indirects := some (tabOf s.st ++ [w]) },
                      some (tabOf s.st).length) := by
                  show ({ s.st with indirects := some (intern_indirect (s.st.indirects.getD []) w true).1 }, (intern_indirect (s.st.indirects.getD []) w true).2) = _
                  rw [hint]
                  exact rfl
                cases hfol : follow_node
                    { s.st with indirects := some (tabOf s.st ++ [w]) } nd
                    (.indirect (tabOf s.st).length) true with
                | mk st1 onew =>
                  cases onew with
                  | none =>
                    exact Or.inl (habort
                      (by simp [walk_step, hnd, hagr, hc', hti, hfol]))
                  | some c =>
                    have hss : (walk_step true s).st = st1 := by
                      simp [walk_step, hnd, hagr, hc', hti, hfol]
                    have hsn : (walk_step true s).node = some c := by
                      simp [walk_step, hnd, hagr, hc', hti, hfol]
                    have hsh : (walk_step true s).h = s.h := by
                      simp [walk_step, hnd, hagr, hc', hti]
                    have hsag : (walk_step true s).ag = pendW rest := by
                      simp [walk_step, hnd, hagr, hc', hti]
                    have hsvn : (walk_step true s).vn = s.vn := by
                      simp [walk_step, hnd, hagr, hc', hti]
                    obtain ⟨hwf1, _, _, ⟨dc, hdc, _, _⟩, _⟩ :=
                      follow_add { s.st with
                          indirects := some (tabOf s.st ++ [w]) } nd
                        (.indirect (tabOf s.st).length) st1 c
                        hwfT hexist hfol
                    rcases ih _ s2 rest m c (by rw [hsh, hh]) hsag hrest
                      ⟨hwf1m, hwf2m⟩ (by rw [hsvn, hvn]) hsnd hsn
                      (by rw [hss]; exact hwf1)
                      (by rw [hss]; exact ⟨dc, hdc⟩)
                      hrun with hnone2 | hgood
                    · exact Or.inl hnone2
                    · obtain ⟨nfin, hnfin, hag2, hwf2, hnp2, hnx2, hex2,
                        htok2, hchain2⟩ := hgood
                      rw [hss] at hnp2 hnx2
                      obtain ⟨hnpA, hnxA, hcext⟩ := walk_combine
                        { s.st with indirects := some (tabOf s.st ++ [w]) }
                        st1 s2.st nd c (.indirect (tabOf s.st).length) hwfT
                        hexist hfol hwf2 hnp2 hnx2
                      have htabpref : List.IsPrefix (tabOf s.st ++ [w])
                          (tabOf s2.st) := by
                        have hstep := walk_run_tab f true (walk_step true s)
                          s2 hrun
                        have hst : tabOf (walk_step true s).st =
                            tabOf s.st ++ [w] := by
                          rw [hss]
                          have := follow_node_ind
                            { s.st with
                              indirects := some (tabOf s.st ++ [w]) } nd
                            (.indirect (tabOf s.st).length) true
                          rw [hfol] at this
                          show (st1.indirects).getD [] = _
                          rw [this]
                          exact rfl
                        rw [hst] at hstep
                        exact hstep
                      obtain ⟨u, hu⟩ := htabpref
                      have hTfind : idxOf (tabOf s2.st) w =
                          some (tabOf s.st).length := by
                        rw [← hu, List.append_assoc]
                        exact idxOf_append_self _ w hio ([] ++ u)
                      refine Or.inr ⟨nfin, hnfin, hag2, hwf2, hnpA, hnxA,
                        hex2, ?_, ?_⟩
                      · show (tokOkT (tabOf s2.st) t &&
                          tokPend (tabOf s2.st) rest) = true
                        rw [ht]
                        show ((idxOf (tabOf s2.st) w).isSome && _) = true
                        rw [hTfind]
                        rw [Bool.and_eq_true]
                        exact ⟨rfl, htok2⟩
                      · intro B hB
                        rw [hchain2 B hB, hcext B hB, ht]
                        simp only [encPend, encKsT, hTfind, Option.getD,
                          List.reverse_append, List.reverse_cons,
                          List.reverse_nil, List.nil_append,
                          List.append_assoc, List.cons_append]
            · -- a compound: the cyclic check, then descend
              have hc' : hget s.h (derefA s.h a) = .fnc fn n b := by
                rw [hc0, hcw]
              by_cases hcy : s.cps + 1 = 1000 ∧
                  ¬ is_acyclic s.h (derefA s.h a) = true
              · refine Or.inl (habort ?_)
                simp only [walk_step, hnd, hagr, hc']
                rw [if_pos (by simpa using hcy)]
              · have hlen : lenL ts = n := ReadsArgs_len h0 n b ts hargs
                cases hfol : follow_node s.st nd (.functor fn n) true with
                | mk st1 onew =>
                  cases onew with
                  | none =>
                    refine Or.inl (habort ?_)
                    simp only [walk_step, hnd, hagr, hc']
                    rw [if_neg (by simpa using hcy)]
                    simp [hfol]
                  | some c =>
                    have hss : (walk_step true s).st = st1 := by
                      simp only [walk_step, hnd, hagr, hc']
                      rw [if_neg (by simpa using hcy)]
                      simp [hfol]
                    have hsn : (walk_step true s).node = some c := by
                      simp only [walk_step, hnd, hagr, hc']
                      rw [if_neg (by simpa using hcy)]
                      simp [hfol]
                    have hsh : (walk_step true s).h = s.h := by
                      simp only [walk_step, hnd, hagr, hc']
                      rw [if_neg (by simpa using hcy)]
                    have hsag : (walk_step true s).ag =
                        pendW (argsPend b ts ++ .pop :: rest) := by
                      simp only [walk_step, hnd, hagr, hc']
                      rw [if_neg (by simpa using hcy)]
                      rw [pendW_append, pendW_argsPend h0 n b ts hargs]
                      rfl
                    have hsvn : (walk_step true s).vn = s.vn := by
                      simp only [walk_step, hnd, hagr, hc']
                      rw [if_neg (by simpa using hcy)]
                    have hpend' : ∀ a' t',
                        PendI.tm a' t' ∈ argsPend b ts ++ .pop :: rest →
                        ReadsAs h0 a' t' ∧ ∀ v ∈ vaT t', v ∈ vaT t0 := by
                      intro a' t' hm
                      rcases List.mem_append.mp hm with hargm | hrm
                      · obtain ⟨hra', hsub'⟩ :=
                          argsPend_mem h0 n b ts hargs a' t' hargm
                        refine ⟨hra', fun v hv => hsub v ?_⟩
                        rw [ht]
                        exact hsub' v hv
                      · rcases List.mem_cons.mp hrm with hee | hee
                        · cases hee
                        · exact hrest a' t' hee
                    obtain ⟨hwf1, _, _, ⟨dc, hdc, _, _⟩, _⟩ :=
                      follow_add s.st nd (.functor fn n) st1 c hwfT hexist
                        hfol
                    rcases ih _ s2 (argsPend b ts ++ .pop :: rest) m c
                      (by rw [hsh, hh]) hsag hpend'
                      ⟨hwf1m, hwf2m⟩ (by rw [hsvn, hvn]) hsnd hsn
                      (by rw [hss]; exact hwf1)
                      (by rw [hss]; exact ⟨dc, hdc⟩)
                      hrun with hnone2 | hgood
                    · exact Or.inl hnone2
                    · obtain ⟨nfin, hnfin, hag2, hwf2, hnp2, hnx2, hex2,
                        htok2, hchain2⟩ := hgood
                      rw [hss] at hnp2 hnx2
                      obtain ⟨hnpA, hnxA, hcext⟩ := walk_combine s.st st1
                        s2.st nd c (.functor fn n) hwfT hexist hfol hwf2
                        hnp2 hnx2
                      rw [tokPend_args, Bool.and_eq_true] at htok2
                      obtain ⟨htokL, htokR⟩ := htok2
                      refine Or.inr ⟨nfin, hnfin, hag2, hwf2, hnpA, hnxA,
                        hex2, ?_, ?_⟩
                      · show (tokOkT (tabOf s2.st) t &&
                          tokPend (tabOf s2.st) rest) = true
                        rw [ht]
                        rw [Bool.and_eq_true]
                        exact ⟨htokL, htokR⟩
                      · intro B hB
                        rw [hchain2 B hB, hcext B hB, ht,
                          encPend_args (tabOf s2.st) ts b (.pop :: rest)
                            (m.map Prod.fst)]
                        simp only [encPend, encKsT, hlen,
                          List.reverse_append, List.reverse_cons,
                          List.reverse_nil, List.nil_append,
                          List.append_assoc, List.cons_append]

/-- Auxiliary: a reading is stable under heap growth that keeps every
non-variable cell and keeps the variable-table cells unbound. -/
theorem RdV_stable (h h2 : List Cell) (vm : List Nat)
    (hfr : ∀ x, x < h.length → hget h x ≠ .unbound → hget h2 x = hget h x)
    (hwfh : WFH h) (hvm : ∀ e ∈ vm, hget h2 e = .unbound)
    (a : Nat) (t : PTerm) (hd : RdV h vm a t) :
    a < h.length → RdV h2 vm a t := by
  refine @RdV.rec h vm (fun a t _ => a < h.length → RdV h2 vm a t)
    (fun n b ts _ => b + n ≤ h.length → RdArgsV h2 vm n b ts)
    ?_ ?_ ?_ ?_ ?_ ?_ ?_ a t hd
  · intro a b t hr _ ihb ha
    have hb : b < h.length := by
      have := hwfh a ha
      rw [hr] at this
      exact this
    exact RdV.ref h2 vm a b t
      (by rw [hfr a ha (by rw [hr]; intro hx; cases hx)]; exact hr)
      (ihb hb)
  · intro a i _ hvi h1 _
    refine RdV.var h2 vm a i ?_ hvi h1
    refine hvm a ?_
    rcases List.getElem?_eq_some_iff.mp hvi with ⟨hlt, hval⟩
    exact hval ▸ List.getElem_mem hlt
  · intro a w hc ha
    exact RdV.atom h2 vm a w
      (by rw [hfr a ha (by rw [hc]; intro hx; cases hx)]; exact hc)
  · intro a w hc ha
    exact RdV.big h2 vm a w
      (by rw [hfr a ha (by rw [hc]; intro hx; cases hx)]; exact hc)
  · intro a f n b ts hc _ ihargs ha
    have hb : b + n ≤ h.length := by
      have := hwfh a ha
      rw [hc] at this
      exact this
    exact RdV.comp h2 vm a f n b ts
      (by rw [hfr a ha (by rw [hc]; intro hx; cases hx)]; exact hc)
      (ihargs hb)
  · intro b _
    exact RdArgsV.nil h2 vm b
  · intro n b t ts _ _ iht ihts hbn
    exact RdArgsV.cons h2 vm n b t ts (iht (by omega)) (ihts (by omega))

/-- See `RdV_stable`. -/
theorem RdArgsV_stable (h h2 : List Cell) (vm : List Nat)
    (hfr : ∀ x, x < h.length → hget h x ≠ .unbound → hget h2 x = hget h x)
    (hwfh : WFH h) (hvm : ∀ e ∈ vm, hget h2 e = .unbound)
    (n b : Nat) (ts : PTermL) (hd : RdArgsV h vm n b ts) :
    b + n ≤ h.length → RdArgsV h2 vm n b ts := by
  refine @RdArgsV.rec h vm (fun a t _ => a < h.length → RdV h2 vm a t)
    (fun n b ts _ => b + n ≤ h.length → RdArgsV h2 vm n b ts)
    ?_ ?_ ?_ ?_ ?_ ?_ ?_ n b ts hd
  · intro a b t hr _ ihb ha
    have hb : b < h.length := by
      have := hwfh a ha
      rw [hr] at this
      exact this
    exact RdV.ref h2 vm a b t
      (by rw [hfr a ha (by rw [hr]; intro hx; cases hx)]; exact hr)
      (ihb hb)
  · intro a i _ hvi h1 _
    refine RdV.var h2 vm a i ?_ hvi h1
    refine hvm a ?_
    rcases List.getElem?_eq_some_iff.mp hvi with ⟨hlt, hval⟩
    exact hval ▸ List.getElem_mem hlt
  · intro a w hc ha
    exact RdV.atom h2 vm a w
      (by rw [hfr a ha (by rw [hc]; intro hx; cases hx)]; exact hc)
  · intro a w hc ha
    exact RdV.big h2 vm a w
      (by rw [hfr a ha (by rw [hc]; intro hx; cases hx)]; exact hc)
  · intro a f n b ts hc _ ihargs ha
    have hb : b + n ≤ h.length := by
      have := hwfh a ha
      rw [hc] at this
      exact this
    exact RdV.comp h2 vm a f n b ts
      (by rw [hfr a ha (by rw [hc]; intro hx; cases hx)]; exact hc)
      (ihargs hb)
  · intro b _
    exact RdArgsV.nil h2 vm b
  · intro n b t ts _ _ iht ihts hbn
    exact RdArgsV.cons h2 vm n b t ts (iht (by omega)) (ihts (by omega))

/-- Auxiliary: a reading survives extension of the variable table. -/
theorem RdV_vmap_ext (h : List Cell) (vm ext : List Nat)
    (a : Nat) (t : PTerm) (hd : RdV h vm a t) : RdV h (vm ++ ext) a t := by
  refine @RdV.rec h vm (fun a t _ => RdV h (vm ++ ext) a t)
    (fun n b ts _ => RdArgsV h (vm ++ ext) n b ts)
    ?_ ?_ ?_ ?_ ?_ ?_ ?_ a t hd
  · intro a b t hr _ ihb
    exact RdV.ref h _ a b t hr ihb
  · intro a i hu hvi h1
    refine RdV.var h _ a i hu ?_ h1
    rcases List.getElem?_eq_some_iff.mp hvi with ⟨hlt, _⟩
    rw [List.getElem?_append_left hlt]
    exact hvi
  · intro a w hc
    exact RdV.atom h _ a w hc
  · intro a w hc
    exact RdV.big h _ a w hc
  · intro a f n b ts hc _ ihargs
    exact RdV.comp h _ a f n b ts hc ihargs
  · intro b
    exact RdArgsV.nil h _ b
  · intro n b t ts _ _ iht ihts
    exact RdArgsV.cons h _ n b t ts iht ihts

/-- See `RdV_vmap_ext`. -/
theorem RdArgsV_vmap_ext (h : List Cell) (vm ext : List Nat)
    (n b : Nat) (ts : PTermL) (hd : RdArgsV h vm n b ts) :
    RdArgsV h (vm ++ ext) n b ts := by
  refine @RdArgsV.rec h vm (fun a t _ => RdV h (vm ++ ext) a t)
    (fun n b ts _ => RdArgsV h (vm ++ ext) n b ts)
    ?_ ?_ ?_ ?_ ?_ ?_ ?_ n b ts hd
  · intro a b t hr _ ihb
    exact RdV.ref h _ a b t hr ihb
  · intro a i hu hvi h1
    refine RdV.var h _ a i hu ?_ h1
    rcases List.getElem?_eq_some_iff.mp hvi with ⟨hlt, _⟩
    rw [List.getElem?_append_left hlt]
    exact hvi
  · intro a w hc
    exact RdV.atom h _ a w hc
  · intro a w hc
    exact RdV.big h _ a w hc
  · intro a f n b ts hc _ ihargs
    exact RdV.comp h _ a f n b ts hc ihargs
  · intro b
    exact RdArgsV.nil h _ b
  · intro n b t ts _ _ iht ihts
    exact RdArgsV.cons h _ n b t ts iht ihts

/-- Auxiliary: reading inside the left part of an appended heap. -/
theorem hget_append_left (h r : List Cell) (x : Nat) (hx : x < h.length) :
    hget (h ++ r) x = hget h x := by
  unfold hget
  rw [List.getD, List.getD, List.get?_eq_getElem?, List.get?_eq_getElem?,
    List.getElem?_append, if_pos hx]

/-- Auxiliary: reading the right part of an appended heap. -/
theorem hget_append_right (h r : List Cell) (k : Nat) :
    hget (h ++ r) (h.length + k) = hget r k := by
  unfold hget
  rw [List.getD, List.getD, List.get?_eq_getElem?, List.get?_eq_getElem?]
  congr 1
  rw [List.getElem?_append_right (by omega)]
  congr 1
  omega

/-- Auxiliary: the freshly allocated argument cells are unbound. -/
theorem hget_replicate (n j : Nat) (hj : j < n) :
    hget (List.replicate n Cell.unbound) j = .unbound := by
  unfold hget
  rw [List.getD, List.get?_eq_getElem?, List.getElem?_replicate]
  simp [hj]

/-- Auxiliary: `List.set` keeps the length. -/
theorem set_length (h : List Cell) (a : Nat) (c : Cell) :
    (h.set a c).length = h.length := List.length_set h a c

/-- Auxiliary: shape well-formedness survives a single in-place write of a
non-reference, non-compound cell. -/
theorem WFH_set_flat (h : List Cell) (p : Nat) (c : Cell)
    (hwfh : WFH h)
    (hc : (match c with
           | .ref b => b < h.length
           | .fnc _ n b => b + n ≤ h.length
           | _ => True)) :
    WFH (h.set p c) := by
  intro x hx
  rw [set_length] at hx
  by_cases hxp : x = p
  · subst hxp
    rw [hget_set_self h x c hx]
    rw [set_length]
    exact hc
  · rw [hget_set_other h p x c (fun he => hxp he)]
    have := hwfh x hx
    rw [set_length]
    exact this

/-- Auxiliary: the `TRIE_KEY_ATOM` write-mode case of `unify_key`. -/
theorem dec_atom_case (T : List Nat) (w : Nat) (vs : List Nat) (u : USt) :
    DecTP T (.patom w) vs u := by
  intro hw htok hptr hcell hwfh hlen hvm hnd
  refine ⟨{ u with h := u.h.set u.ptr (.cst w), ptr := u.ptr + 1 },
    ?_, hw, rfl, rfl, ?_, ?_, ?_, ⟨[], by simp, by simp⟩, ?_, hnd, ?_, ?_⟩
  · intro ks
    show ukRun T (.cst w :: ks) u = _
    have hstep : unify_key T u (.cst w) = some
        { u with h := u.h.set u.ptr (.cst w), ptr := u.ptr + 1 } := by
      show (if u.wr = true then _ else _) = _
      rw [if_pos hw]
    simp only [ukRun, hstep]
  · show u.h.length ≤ (u.h.set u.ptr (.cst w)).length
    rw [set_length]
  · intro x hx hxp
    exact hget_set_other u.h u.ptr x (.cst w) hxp
  · exact WFH_set_flat u.h u.ptr (.cst w) hwfh trivial
  · intro e he
    obtain ⟨he1, he2, he3⟩ := hvm e he
    refine ⟨?_, ?_⟩
    · show e < (u.h.set u.ptr (.cst w)).length
      rw [set_length]
      exact he1
    · rw [hget_set_other u.h u.ptr e (.cst w) he3]
      exact he2
  · exact hlen
  · show RdV _ u.vmap u.ptr (.patom w)
    exact RdV.atom _ u.vmap u.ptr w (hget_set_self u.h u.ptr (.cst w) hptr)

/-- Auxiliary: the `TRIE_KEY_INDIRECT` write-mode case of `unify_key`. -/
theorem dec_big_case (T : List Nat) (w : Nat) (vs : List Nat) (u : USt) :
    DecTP T (.pbig w) vs u := by
  intro hw htok hptr hcell hwfh hlen hvm hnd
  obtain ⟨j0, hj0⟩ := Option.isSome_iff_exists.mp htok
  have htokk : T[(idxOf T w).getD 0]? = some w := by
    rw [hj0]
    exact idxOf_get T w j0 hj0
  refine ⟨{ u with h := u.h.set u.ptr (.big w), ptr := u.ptr + 1 },
    ?_, hw, rfl, rfl, ?_, ?_, ?_, ⟨[], by simp, by simp⟩, ?_, hnd, ?_, ?_⟩
  · intro ks
    show ukRun T (.indirect ((idxOf T w).getD 0) :: ks) u = _
    have hstep : unify_key T u (.indirect ((idxOf T w).getD 0)) = some
        { u with h := u.h.set u.ptr (.big w), ptr := u.ptr + 1 } := by
      show (match T[(idxOf T w).getD 0]? with
            | none => none
            | some w2 => if u.wr = true then _ else _) = _
      rw [htokk]
      show (if u.wr = true then _ else _) = _
      rw [if_pos hw]
    simp only [ukRun, hstep]
  · show u.h.length ≤ (u.h.set u.ptr (.big w)).length
    rw [set_length]
  · intro x hx hxp
    exact hget_set_other u.h u.ptr x (.big w) hxp
  · exact WFH_set_flat u.h u.ptr (.big w) hwfh trivial
  · intro e he
    obtain ⟨he1, he2, he3⟩ := hvm e he
    refine ⟨?_, ?_⟩
    · show e < (u.h.set u.ptr (.big w)).length
      rw [set_length]
      exact he1
    · rw [hget_set_other u.h u.ptr e (.big w) he3]
      exact he2
  · exact hlen
  · show RdV _ u.vmap u.ptr (.pbig w)
    exact RdV.big _ u.vmap u.ptr w (hget_set_self u.h u.ptr (.big w) hptr)

/-- Auxiliary: the empty argument block. -/
theorem dec_nil_case (T : List Nat) (vs : List Nat) (u : USt) :
    DecLP T .nil vs u := by
  intro hw htok hslots hwfh hlen hvm hnd
  refine ⟨u, fun ks => rfl, hw, rfl, rfl, Nat.le_refl _,
    fun x _ _ => rfl, hwfh, ⟨[], by simp, by simp⟩, ?_, hnd, hlen,
    RdArgsV.nil u.h u.vmap u.ptr⟩
  intro e he
  exact ⟨(hvm e he).1, (hvm e he).2.1⟩

/-- Auxiliary: the `TRIE_KEY_VAR` write-mode cases of `unify_key` — a
fresh variable leaves an unbound cell and registers it, a repeated one
writes a reference to the registered cell. -/
theorem dec_var_case (T : List Nat) (P : Nat) (vs : List Nat) (u : USt) :
    DecTP T (.pvar P) vs u := by
  intro hw htok hptr hcell hwfh hlen hvm hnd
  cases hidx : idxOf vs P with
  | none =>
    -- first occurrence: ordinal vs.length + 1, cell left unbound
    have hkey : (encKsT T (.pvar P) vs) =
        ([.avar (vs.length + 1)], vs ++ [P]) := by
      simp only [encKsT, hidx]
    have hcan : (canT (.pvar P) vs) = (.pvar (vs.length + 1), vs ++ [P]) := by
      simp only [canT, hidx]
    refine ⟨{ u with
        h := u.h.set u.ptr .unbound
        vmap := u.vmap ++ [u.ptr]
        ptr := u.ptr + 1 },
      ?_, hw, rfl, rfl, ?_, ?_, ?_, ⟨[u.ptr], rfl, ?_⟩, ?_, ?_, ?_, ?_⟩
    · intro ks
      rw [hkey]
      show ukRun T (.avar (vs.length + 1) :: ks) u = _
      have hstep : unify_key T u (.avar (vs.length + 1)) = some
          { u with
            h := u.h.set u.ptr .unbound
            vmap := u.vmap ++ [u.ptr]
            ptr := u.ptr + 1 } := by
        show (if u.wr = true then
              if vs.length + 1 - 1 < u.vmap.length then _ else _
            else _) = _
        rw [if_pos hw, if_neg (by omega)]
      simp only [ukRun, hstep]
    · show u.h.length ≤ (u.h.set u.ptr .unbound).length
      rw [set_length]
    · intro x hx hxp
      exact hget_set_other u.h u.ptr x .unbound hxp
    · exact WFH_set_flat u.h u.ptr .unbound hwfh trivial
    · intro e he
      rcases List.mem_singleton.mp he with rfl
      exact Or.inl rfl
    · intro e he
      rcases List.mem_append.mp he with hel | her
      · obtain ⟨he1, he2, he3⟩ := hvm e hel
        refine ⟨?_, ?_⟩
        · show e < (u.h.set u.ptr .unbound).length
          rw [set_length]
          exact he1
        · rw [hget_set_other u.h u.ptr e .unbound he3]
          exact he2
      · rcases List.mem_singleton.mp her with rfl
        refine ⟨?_, ?_⟩
        · show u.ptr < (u.h.set u.ptr .unbound).length
          rw [set_length]
          exact hptr
        · exact hget_set_self u.h u.ptr .unbound hptr
    · rw [List.nodup_append]
      refine ⟨hnd, List.nodup_singleton _, ?_⟩
      intro e he
      rw [List.mem_singleton]
      exact fun hep => (hvm e he).2.2 hep
    · rw [hkey]
      show (u.vmap ++ [u.ptr]).length = (vs ++ [P]).length
      rw [List.length_append, List.length_append, hlen]
      rfl
    · rw [hcan]
      show RdV _ (u.vmap ++ [u.ptr]) u.ptr (.pvar (vs.length + 1))
      refine RdV.var _ _ u.ptr (vs.length + 1)
        (hget_set_self u.h u.ptr .unbound hptr) ?_ (by omega)
      show (u.vmap ++ [u.ptr])[vs.length + 1 - 1]? = some u.ptr
      have : vs.length + 1 - 1 = u.vmap.length := by omega
      rw [this]
      exact List.getElem?_concat_length u.vmap u.ptr
  | some j =>
    -- repeated occurrence: ordinal j + 1, reference to the registered cell
    have hjlt : j < vs.length := by
      rcases List.getElem?_eq_some_iff.mp (idxOf_get vs P j hidx) with ⟨hl, _⟩
      exact hl
    have hjv : j < u.vmap.length := by rw [hlen]; exact hjlt
    have hkey : (encKsT T (.pvar P) vs) = ([.avar (j + 1)], vs) := by
      simp only [encKsT, hidx]
    have hcan : (canT (.pvar P) vs) = (.pvar (j + 1), vs) := by
      simp only [canT, hidx]
    have hmem : u.vmap.getD j 0 ∈ u.vmap := by
      rw [List.getD_eq_getElem u.vmap 0 hjv]
      exact List.getElem_mem hjv
    obtain ⟨hv1, hv2, hv3⟩ := hvm _ hmem
    refine ⟨{ u with
        h := u.h.set u.ptr (.ref (u.vmap.getD j 0))
        ptr := u.ptr + 1 },
      ?_, hw, rfl, rfl, ?_, ?_, ?_, ⟨[], by simp, by simp⟩, ?_, hnd, ?_, ?_⟩
    · intro ks
      rw [hkey]
      show ukRun T (.avar (j + 1) :: ks) u = _
      have hstep : unify_key T u (.avar (j + 1)) = some
          { u with
            h := u.h.set u.ptr (.ref (u.vmap.getD j 0))
            ptr := u.ptr + 1 } := by
        show (if u.wr = true then
              if j + 1 - 1 < u.vmap.length then _ else _
            else _) = _
        rw [if_pos hw, if_pos (by omega)]
        exact rfl
      simp only [ukRun, hstep]
    · show u.h.length ≤ (u.h.set u.ptr (.ref (u.vmap.getD j 0))).length
      rw [set_length]
    · intro x hx hxp
      exact hget_set_other u.h u.ptr x _ hxp
    · refine WFH_set_flat u.h u.ptr _ hwfh ?_
      show u.vmap.getD j 0 < u.h.length
      exact hv1
    · intro e he
      obtain ⟨he1, he2, he3⟩ := hvm e he
      refine ⟨?_, ?_⟩
      · show e < (u.h.set u.ptr _).length
        rw [set_length]
        exact he1
      · rw [hget_set_other u.h u.ptr e _ he3]
        exact he2
    · rw [hkey]
      exact hlen
    · rw [hcan]
      show RdV _ u.vmap u.ptr (.pvar (j + 1))
      refine RdV.ref _ u.vmap u.ptr (u.vmap.getD j 0) _
        (hget_set_self u.h u.ptr _ hptr) ?_
      refine RdV.var _ _ _ (j + 1)
        (by rw [hget_set_other u.h u.ptr _ _ hv3]; exact hv2) ?_ (by omega)
      show u.vmap[j + 1 - 1]? = some (u.vmap.getD j 0)
      have hj1 : j + 1 - 1 = j := by omega
      rw [hj1, List.getD_eq_getElem u.vmap 0 hjv]
      exact List.getElem?_eq_getElem hjv

/-- Auxiliary: an argument block decodes one argument after the other,
threading the canonical variable list. -/
theorem dec_cons_case (T : List Nat) (t : PTerm) (ts : PTermL)
    (vs : List Nat) (u : USt)
    (rect : ∀ (vs2 : List Nat) (u2 : USt), DecTP T t vs2 u2)
    (recl : ∀ (vs2 : List Nat) (u2 : USt), DecLP T ts vs2 u2) :
    DecLP T (.cons t ts) vs u := by
  intro hw htok hslots hwfh hlen hvm hnd
  have htok' : (tokOkT T t && tokOkL T ts) = true := htok
  rw [Bool.and_eq_true] at htok'
  obtain ⟨htokt, htokl⟩ := htok'
  have hlenc : lenL (.cons t ts) = lenL ts + 1 := rfl
  have hslot0 : u.ptr < u.h.length ∧ hget u.h u.ptr = .unbound := by
    have := hslots 0 (by rw [hlenc]; omega)
    rwa [Nat.add_zero] at this
  obtain ⟨u1, hrun1, hw1, hstk1, hptr1, hhl1, hfr1, hwfh1,
    ⟨nv1, hnv1e, hnv1⟩, hvm1, hnd1, hlen1, hrd1⟩ :=
    rect vs u hw htokt hslot0.1 hslot0.2 hwfh hlen
      (fun e he => ⟨(hvm e he).1, (hvm e he).2.1, by
        have := (hvm e he).2.2 0 (by rw [hlenc]; omega)
        rwa [Nat.add_zero] at this⟩) hnd
  have hslots1 : ∀ j, j < lenL ts → u1.ptr + j < u1.h.length ∧
      hget u1.h (u1.ptr + j) = .unbound := by
    intro j hj
    have hj1 := hslots (j + 1) (by rw [hlenc]; omega)
    have harr : u.ptr + (j + 1) = u.ptr + 1 + j := by omega
    rw [harr] at hj1
    constructor
    · rw [hptr1]
      omega
    · rw [hptr1, hfr1 (u.ptr + 1 + j) hj1.1 (by omega)]
      exact hj1.2
  have hvm1' : ∀ e ∈ u1.vmap, e < u1.h.length ∧ hget u1.h e = .unbound ∧
      ∀ j, j < lenL ts → e ≠ u1.ptr + j := by
    intro e he
    refine ⟨(hvm1 e he).1, (hvm1 e he).2, ?_⟩
    intro j hj
    rw [hptr1]
    rw [hnv1e] at he
    rcases List.mem_append.mp he with hel | her
    · have := (hvm e hel).2.2 (j + 1) (by rw [hlenc]; omega)
      intro hee
      exact this (by omega)
    · rcases hnv1 e her with he0 | ⟨hge, _⟩
      · omega
      · have := (hslots (j + 1) (by rw [hlenc]; omega)).1
        omega
  obtain ⟨u2, hrun2, hw2, hstk2, hptr2, hhl2, hfr2, hwfh2,
    ⟨nv2, hnv2e, hnv2⟩, hvm2, hnd2, hlen2, hrd2⟩ :=
    recl (encKsT T t vs).2 u1 hw1 htokl hslots1 hwfh1 hlen1 hvm1' hnd1
  refine ⟨u2, ?_, hw2, by rw [hstk2, hstk1], ?_, ?_, ?_, hwfh2,
    ⟨nv1 ++ nv2, ?_, ?_⟩, hvm2, hnd2, ?_, ?_⟩
  · intro ks
    show ukRun T (((encKsT T t vs).1 ++
      (encLT T ts (encKsT T t vs).2).1) ++ ks) u = _
    rw [List.append_assoc, hrun1, hrun2]
  · rw [hptr2, hptr1, hlenc]
    omega
  · exact Nat.le_trans hhl1 hhl2
  · intro x hx hj
    have hx1 : hget u2.h x = hget u1.h x := by
      refine hfr2 x (by omega) ?_
      intro j hjl
      rw [hptr1]
      have := hj (j + 1) (by rw [hlenc]; omega)
      omega
    rw [hx1]
    refine hfr1 x hx ?_
    have := hj 0 (by rw [hlenc]; omega)
    omega
  · rw [hnv2e, hnv1e, List.append_assoc]
  · intro e he
    rcases List.mem_append.mp he with hel | her
    · rcases hnv1 e hel with he0 | ⟨hge, hlt⟩
      · left
        rw [hlenc]
        omega
      · right
        exact ⟨hge, by omega⟩
    · rcases hnv2 e her with ⟨hge, hlt⟩ | ⟨hge, hlt⟩
      · left
        rw [hptr1] at hge hlt
        rw [hlenc]
        omega
      · right
        refine ⟨by omega, hlt⟩
  · rw [hlen2]
    rfl
  · show RdArgsV u2.h u2.vmap (lenL (.cons t ts)) u.ptr
      (.cons (canT t vs).1 (canL ts (canT t vs).2).1)
    rw [hlenc]
    refine RdArgsV.cons u2.h u2.vmap (lenL ts) u.ptr _ _ ?_ ?_
    · have hext : RdV u1.h u2.vmap u.ptr (canT t vs).1 := by
        rw [hnv2e]
        exact RdV_vmap_ext u1.h u1.vmap nv2 u.ptr _ hrd1
      refine RdV_stable u1.h u2.h u2.vmap ?_ hwfh1
        (fun e he => (hvm2 e he).2) u.ptr _ hext (by omega)
      intro x hxl hxu
      refine hfr2 x hxl ?_
      intro j hjl hxe
      rw [hxe] at hxu
      exact hxu (hslots1 j hjl).2
    · have := hrd2
      rw [hptr1] at this
      have hcan2 : (encKsT T t vs).2 = (canT t vs).2 := encKsT_vs T t vs
      rw [hcan2] at this
      exact this

/-- Auxiliary: the `TRIE_KEY_FUNCTOR` write-mode case — allocate the
compound at the top of the heap, link the written location to it, fill the
arguments, and return via the argument stack on the closing pop key. -/
theorem dec_comp_case (T : List Nat) (f : Nat) (ts : PTermL)
    (vs : List Nat) (u : USt)
    (recl : ∀ (vs2 : List Nat) (u2 : USt), DecLP T ts vs2 u2) :
    DecTP T (.pcomp f ts) vs u := by
  intro hw htok hptr hcell hwfh hlen hvm hnd
  have hstep : unify_key T u (.functor f (lenL ts)) = some
      { u with
        astk := (u.ptr + 1, u.wr) :: u.astk
        h := (u.h.set u.ptr (.ref u.h.length)) ++
          Cell.fnc f (lenL ts) (u.h.length + 1) ::
            List.replicate (lenL ts) Cell.unbound
        ptr := u.h.length + 1 } := by
    simp only [unify_key]
    rw [if_pos hw]
  have hsl : (u.h.set u.ptr (.ref u.h.length)).length = u.h.length :=
    set_length u.h u.ptr _
  have hhl : ((u.h.set u.ptr (.ref u.h.length)) ++
      Cell.fnc f (lenL ts) (u.h.length + 1) ::
        List.replicate (lenL ts) Cell.unbound).length =
      u.h.length + lenL ts + 1 := by
    rw [List.length_append, hsl, List.length_cons, List.length_replicate]
    omega
  have hgetp : hget ((u.h.set u.ptr (.ref u.h.length)) ++
      Cell.fnc f (lenL ts) (u.h.length + 1) ::
        List.replicate (lenL ts) Cell.unbound) u.ptr = .ref u.h.length := by
    rw [hget_append_left _ _ u.ptr (by rw [hsl]; exact hptr)]
    exact hget_set_self u.h u.ptr _ hptr
  have hgetL : hget ((u.h.set u.ptr (.ref u.h.length)) ++
      Cell.fnc f (lenL ts) (u.h.length + 1) ::
        List.replicate (lenL ts) Cell.unbound) u.h.length =
      .fnc f (lenL ts) (u.h.length + 1) := by
    have h1 := hget_append_right (u.h.set u.ptr (.ref u.h.length))
      (Cell.fnc f (lenL ts) (u.h.length + 1) ::
        List.replicate (lenL ts) Cell.unbound) 0
    rw [hsl] at h1
    have h2 : hget ((u.h.set u.ptr (.ref u.h.length)) ++
        Cell.fnc f (lenL ts) (u.h.length + 1) ::
          List.replicate (lenL ts) Cell.unbound) u.h.length =
        hget (Cell.fnc f (lenL ts) (u.h.length + 1) ::
          List.replicate (lenL ts) Cell.unbound) 0 := h1
    rw [h2]
    rfl
  have hgetArg : ∀ j, j < lenL ts →
      hget ((u.h.set u.ptr (.ref u.h.length)) ++
        Cell.fnc f (lenL ts) (u.h.length + 1) ::
          List.replicate (lenL ts) Cell.unbound) (u.h.length + 1 + j) =
      .unbound := by
    intro j hj
    have h1 := hget_append_right (u.h.set u.ptr (.ref u.h.length))
      (Cell.fnc f (lenL ts) (u.h.length + 1) ::
        List.replicate (lenL ts) Cell.unbound) (j + 1)
    rw [hsl] at h1
    have harr : u.h.length + 1 + j = u.h.length + (j + 1) := by omega
    rw [harr, h1]
    show hget (List.replicate (lenL ts) Cell.unbound) j = .unbound
    exact hget_replicate (lenL ts) j hj
  have hfrp : ∀ x, x < u.h.length → x ≠ u.ptr →
      hget ((u.h.set u.ptr (.ref u.h.length)) ++
        Cell.fnc f (lenL ts) (u.h.length + 1) ::
          List.replicate (lenL ts) Cell.unbound) x = hget u.h x := by
    intro x hx hxp
    rw [hget_append_left _ _ x (by rw [hsl]; exact hx)]
    exact hget_set_other u.h u.ptr x _ hxp
  have hwfh2 : WFH ((u.h.set u.ptr (.ref u.h.length)) ++
      Cell.fnc f (lenL ts) (u.h.length + 1) ::
        List.replicate (lenL ts) Cell.unbound) := by
    intro x hx
    rw [hhl] at hx
    by_cases hxL : x < u.h.length
    · by_cases hxp : x = u.ptr
      · subst hxp
        simp only [hgetp]
        rw [hhl]
        omega
      · rw [hfrp x hxL hxp]
        have hthis := hwfh x hxL
        cases hc : hget u.h x with
        | ref b =>
          rw [hc] at hthis
          show b < ((u.h.set u.ptr (.ref u.h.length)) ++
            Cell.fnc f (lenL ts) (u.h.length + 1) ::
              List.replicate (lenL ts) Cell.unbound).length
          rw [hhl]
          omega
        | fnc f2 n2 b =>
          rw [hc] at hthis
          show b + n2 ≤ ((u.h.set u.ptr (.ref u.h.length)) ++
            Cell.fnc f (lenL ts) (u.h.length + 1) ::
              List.replicate (lenL ts) Cell.unbound).length
          rw [hhl]
          omega
        | unbound => exact trivial
        | mark i => exact trivial
        | att => exact trivial
        | cst w => exact trivial
        | big w => exact trivial
    · by_cases hxE : x = u.h.length
      · subst hxE
        simp only [hgetL]
        rw [hhl]
        omega
      · have hj : x = u.h.length + 1 + (x - u.h.length - 1) := by omega
        rw [hj, hgetArg (x - u.h.length - 1) (by omega)]
        exact trivial
  have hslots2 : ∀ j, j < lenL ts →
      u.h.length + 1 + j < ((u.h.set u.ptr (.ref u.h.length)) ++
        Cell.fnc f (lenL ts) (u.h.length + 1) ::
          List.replicate (lenL ts) Cell.unbound).length ∧
      hget ((u.h.set u.ptr (.ref u.h.length)) ++
        Cell.fnc f (lenL ts) (u.h.length + 1) ::
          List.replicate (lenL ts) Cell.unbound) (u.h.length + 1 + j) =
        .unbound :=
    fun j hj => ⟨by rw [hhl]; omega, hgetArg j hj⟩
  have hvm2 : ∀ e ∈ u.vmap,
      e < ((u.h.set u.ptr (.ref u.h.length)) ++
        Cell.fnc f (lenL ts) (u.h.length + 1) ::
          List.replicate (lenL ts) Cell.unbound).length ∧
      hget ((u.h.set u.ptr (.ref u.h.length)) ++
        Cell.fnc f (lenL ts) (u.h.length + 1) ::
          List.replicate (lenL ts) Cell.unbound) e = .unbound ∧
      ∀ j, j < lenL ts → e ≠ u.h.length + 1 + j := by
    intro e he
    obtain ⟨he1, he2, he3⟩ := hvm e he
    refine ⟨by rw [hhl]; omega, ?_, ?_⟩
    · rw [hfrp e he1 he3]
      exact he2
    · intro j hj
      omega
  have hrec := recl vs
    { u with
      astk := (u.ptr + 1, u.wr) :: u.astk
      h := (u.h.set u.ptr (.ref u.h.length)) ++
        Cell.fnc f (lenL ts) (u.h.length + 1) ::
          List.replicate (lenL ts) Cell.unbound
      ptr := u.h.length + 1 }
    hw htok hslots2 hwfh2 hlen hvm2 hnd
  have hrec2 : ∃ u2,
      (∀ ks, ukRun T ((encLT T ts vs).1 ++ ks)
        { u with
          astk := (u.ptr + 1, u.wr) :: u.astk
          h := (u.h.set u.ptr (.ref u.h.length)) ++
            Cell.fnc f (lenL ts) (u.h.length + 1) ::
              List.replicate (lenL ts) Cell.unbound
          ptr := u.h.length + 1 } = ukRun T ks u2) ∧
      u2.wr = true ∧
      u2.astk = (u.ptr + 1, u.wr) :: u.astk ∧
      u2.ptr = u.h.length + 1 + lenL ts ∧
      ((u.h.set u.ptr (.ref u.h.length)) ++
        Cell.fnc f (lenL ts) (u.h.length + 1) ::
          List.replicate (lenL ts) Cell.unbound).length ≤ u2.h.length ∧
      (∀ x, x < ((u.h.set u.ptr (.ref u.h.length)) ++
          Cell.fnc f (lenL ts) (u.h.length + 1) ::
            List.replicate (lenL ts) Cell.unbound).length →
        (∀ j, j < lenL ts → x ≠ u.h.length + 1 + j) →
        hget u2.h x = hget ((u.h.set u.ptr (.ref u.h.length)) ++
          Cell.fnc f (lenL ts) (u.h.length + 1) ::
            List.replicate (lenL ts) Cell.unbound) x) ∧
      WFH u2.h ∧
      (∃ nv, u2.vmap = u.vmap ++ nv ∧
        ∀ e ∈ nv, (u.h.length + 1 ≤ e ∧ e < u.h.length + 1 + lenL ts) ∨
          (((u.h.set u.ptr (.ref u.h.length)) ++
            Cell.fnc f (lenL ts) (u.h.length + 1) ::
              List.replicate (lenL ts) Cell.unbound).length ≤ e ∧
            e < u2.h.length)) ∧
      (∀ e ∈ u2.vmap, e < u2.h.length ∧ hget u2.h e = .unbound) ∧
      u2.vmap.Nodup ∧
      u2.vmap.length = (encLT T ts vs).2.length ∧
      RdArgsV u2.h u2.vmap (lenL ts) (u.h.length + 1) (canL ts vs).1 :=
    hrec
  obtain ⟨u2, hrun2, hw2, hstk2, hptr2, hhl2, hfr2, hwfhF,
    ⟨nv2, hnv2e, hnv2⟩, hvmF, hnd2, hlen2, hrd2⟩ := hrec2
  have hpop : unify_key T u2 .pop = some
      { u2 with ptr := u.ptr + 1, wr := u.wr, astk := u.astk } := by
    simp only [unify_key, hstk2]
  refine ⟨{ u2 with ptr := u.ptr + 1, wr := u.wr, astk := u.astk },
    ?_, hw, rfl, rfl, ?_, ?_, hwfhF, ⟨nv2, hnv2e, ?_⟩, ?_, hnd2, ?_, ?_⟩
  · intro ks
    show ukRun T ((.functor f (lenL ts) ::
      ((encLT T ts vs).1 ++ [.pop])) ++ ks) u = _
    rw [List.cons_append]
    simp only [ukRun, hstep]
    rw [List.append_assoc, List.singleton_append, hrun2]
    simp only [ukRun, hpop]
  · show u.h.length ≤ u2.h.length
    rw [hhl] at hhl2
    omega
  · intro x hx hxp
    show hget u2.h x = hget u.h x
    have h1 := hfr2 x (by rw [hhl]; omega) (fun j hj => by omega)
    rw [h1]
    exact hfrp x hx hxp
  · intro e he
    rcases hnv2 e he with ⟨hge, hlt⟩ | ⟨hge, hlt⟩
    · right
      refine ⟨by omega, ?_⟩
      show e < u2.h.length
      rw [hhl] at hhl2
      omega
    · right
      rw [hhl] at hge
      exact ⟨by omega, hlt⟩
  · intro e he
    exact hvmF e he
  · exact hlen2
  · show RdV u2.h u2.vmap u.ptr (.pcomp f (canL ts vs).1)
    refine RdV.ref u2.h u2.vmap u.ptr u.h.length _ ?_ ?_
    · have h1 := hfr2 u.ptr (by rw [hhl]; omega) (fun j hj => by omega)
      rw [h1]
      exact hgetp
    · refine RdV.comp u2.h u2.vmap u.h.length f (lenL ts)
        (u.h.length + 1) (canL ts vs).1 ?_ ?_
      · have h1 := hfr2 u.h.length (by rw [hhl]; omega)
          (fun j hj => by omega)
        rw [h1]
        exact hgetL
      · exact hrd2

mutual
/-- Replaying the encoder's key stream for a term through `unify_key` in
write mode builds the canonical variant of that term at the write
location. -/
theorem dec_t (T : List Nat) :
    ∀ (t : PTerm) (vs : List Nat) (u : USt), DecTP T t vs u
  | .pvar P, vs, u => dec_var_case T P vs u
  | .patom w, vs, u => dec_atom_case T w vs u
  | .pbig w, vs, u => dec_big_case T w vs u
  | .pcomp f ts, vs, u =>
    dec_comp_case T f ts vs u (fun vs2 u2 => dec_l T ts vs2 u2)
/-- See `dec_t`. -/
theorem dec_l (T : List Nat) :
    ∀ (ts : PTermL) (vs : List Nat) (u : USt), DecLP T ts vs u
  | .nil, vs, u => dec_nil_case T vs u
  | .cons t ts, vs, u =>
    dec_cons_case T t ts vs u (fun vs2 u2 => dec_t T t vs2 u2)
      (fun vs2 u2 => dec_l T ts vs2 u2)
end

/-- Replaying a term's full key stream through `unify_key` against the
fresh one-variable heap of `unify_trie_term` succeeds and builds the
canonical variant of the term, with all its variables distinct cells. -/
theorem dec_top (T : List Nat) (t : PTerm) (htok : tokOkT T t = true) :
    ∃ u2, ukRun T (encKsT T t []).1 ⟨[.unbound], 0, false, [], []⟩ =
        some u2 ∧
      u2.vmap.Nodup ∧ RdV u2.h u2.vmap 0 (canT t []).1 := by
  cases t with
  | pvar P =>
    refine ⟨⟨[.unbound], 1, false, [], [0]⟩, rfl, List.nodup_singleton 0, ?_⟩
    show RdV [.unbound] [0] 0 (.pvar (0 + 1))
    refine RdV.var _ _ 0 (0 + 1) rfl ?_ (by omega)
    rfl
  | patom w =>
    refine ⟨⟨[.cst w], 1, false, [], []⟩, rfl, List.nodup_nil, ?_⟩
    exact RdV.atom _ [] 0 w rfl
  | pbig w =>
    obtain ⟨j0, hj0⟩ := Option.isSome_iff_exists.mp htok
    have htokk : T[(idxOf T w).getD 0]? = some w := by
      rw [hj0]
      exact idxOf_get T w j0 hj0
    refine ⟨⟨[.big w], 1, false, [], []⟩, ?_, List.nodup_nil, ?_⟩
    · show ukRun T [.indirect ((idxOf T w).getD 0)]
        ⟨[.unbound], 0, false, [], []⟩ = _
      have hstep : unify_key T ⟨[.unbound], 0, false, [], []⟩
          (.indirect ((idxOf T w).getD 0)) =
          some ⟨[.big w], 1, false, [], []⟩ := by
        simp only [unify_key, htokk]
        rfl
      simp only [ukRun, hstep]
    · exact RdV.big _ [] 0 w rfl
  | pcomp f ts =>
    have htokl : tokOkL T ts = true := htok
    have hstep : unify_key T ⟨[.unbound], 0, false, [], []⟩
        (.functor f (lenL ts)) = some
        ⟨[Cell.ref 1] ++ Cell.fnc f (lenL ts) 2 ::
          List.replicate (lenL ts) Cell.unbound, 2, true, [(1, false)],
          []⟩ := rfl
    have hlenh : ([Cell.ref 1] ++ Cell.fnc f (lenL ts) 2 ::
        List.replicate (lenL ts) Cell.unbound).length = lenL ts + 2 := by
      simp only [List.length_append, List.length_cons,
        List.length_replicate, List.length_nil]
      omega
    have hget0 : hget ([Cell.ref 1] ++ Cell.fnc f (lenL ts) 2 ::
        List.replicate (lenL ts) Cell.unbound) 0 = .ref 1 := rfl
    have hget1 : hget ([Cell.ref 1] ++ Cell.fnc f (lenL ts) 2 ::
        List.replicate (lenL ts) Cell.unbound) 1 =
        .fnc f (lenL ts) 2 := rfl
    have hgetA : ∀ j, j < lenL ts →
        hget ([Cell.ref 1] ++ Cell.fnc f (lenL ts) 2 ::
          List.replicate (lenL ts) Cell.unbound) (2 + j) = .unbound := by
      intro j hj
      have h1 := hget_append_right [Cell.ref 1]
        (Cell.fnc f (lenL ts) 2 :: List.replicate (lenL ts) Cell.unbound)
        (j + 1)
      have harr : 2 + j = [Cell.ref 1].length + (j + 1) := by
        show 2 + j = 1 + (j + 1)
        omega
      rw [harr, h1]
      show hget (List.replicate (lenL ts) Cell.unbound) j = .unbound
      exact hget_replicate (lenL ts) j hj
    have hwfh : WFH ([Cell.ref 1] ++ Cell.fnc f (lenL ts) 2 ::
        List.replicate (lenL ts) Cell.unbound) := by
      intro x hx
      rw [hlenh] at hx
      match x, hx with
      | 0, _ =>
        simp only [hget0]
        rw [hlenh]
        omega
      | 1, _ =>
        simp only [hget1]
        rw [hlenh]
        omega
      | (j + 2), hxx =>
        have : 2 + j = j + 2 := by omega
        rw [← this, hgetA j (by omega)]
        exact trivial
    have hrec := dec_l T ts []
      ⟨[Cell.ref 1] ++ Cell.fnc f (lenL ts) 2 ::
        List.replicate (lenL ts) Cell.unbound, 2, true, [(1, false)], []⟩
      rfl htokl
      (fun j hj => ⟨by show 2 + j < _; rw [hlenh]; omega, hgetA j hj⟩)
      hwfh rfl (fun e he => absurd he (List.not_mem_nil e)) List.nodup_nil
    have hrec2 : ∃ u2,
        (∀ ks, ukRun T ((encLT T ts []).1 ++ ks)
          ⟨[Cell.ref 1] ++ Cell.fnc f (lenL ts) 2 ::
            List.replicate (lenL ts) Cell.unbound, 2, true, [(1, false)],
            []⟩ = ukRun T ks u2) ∧
        u2.wr = true ∧
        u2.astk = [(1, false)] ∧
        u2.ptr = 2 + lenL ts ∧
        ([Cell.ref 1] ++ Cell.fnc f (lenL ts) 2 ::
          List.replicate (lenL ts) Cell.unbound).length ≤ u2.h.length ∧
        (∀ x, x < ([Cell.ref 1] ++ Cell.fnc f (lenL ts) 2 ::
            List.replicate (lenL ts) Cell.unbound).length →
          (∀ j, j < lenL ts → x ≠ 2 + j) →
          hget u2.h x = hget ([Cell.ref 1] ++ Cell.fnc f (lenL ts) 2 ::
            List.replicate (lenL ts) Cell.unbound) x) ∧
        WFH u2.h ∧
        (∃ nv, u2.vmap = [] ++ nv ∧
          ∀ e ∈ nv, (2 ≤ e ∧ e < 2 + lenL ts) ∨
            (([Cell.ref 1] ++ Cell.fnc f (lenL ts) 2 ::
              List.replicate (lenL ts) Cell.unbound).length ≤ e ∧
              e < u2.h.length)) ∧
        (∀ e ∈ u2.vmap, e < u2.h.length ∧ hget u2.h e = .unbound) ∧
        u2.vmap.Nodup ∧
        u2.vmap.length = (encLT T ts []).2.length ∧
        RdArgsV u2.h u2.vmap (lenL ts) 2 (canL ts []).1 := hrec
    obtain ⟨u2, hrun2, hw2, hstk2, hptr2, hhl2, hfr2, hwfh2,
      ⟨nv2, hnv2e, hnv2⟩, hvm2, hnd2, hlen2, hrd2⟩ := hrec2
    have hpop : unify_key T u2 .pop = some
        { u2 with ptr := 1, wr := false, astk := [] } := by
      simp only [unify_key, hstk2]
    refine ⟨{ u2 with ptr := 1, wr := false, astk := [] }, ?_, hnd2, ?_⟩
    · show ukRun T (.functor f (lenL ts) ::
        ((encLT T ts []).1 ++ [.pop])) ⟨[.unbound], 0, false, [], []⟩ = _
      simp only [ukRun, hstep]
      have h1 := hrun2 [.pop]
      rw [h1]
      simp only [ukRun, hpop]
    · show RdV u2.h u2.vmap 0 (.pcomp f (canL ts []).1)
      refine RdV.ref u2.h u2.vmap 0 1 _ ?_ ?_
      · have h1 := hfr2 0 (by rw [hlenh]; omega) (fun j hj => by omega)
        rw [h1]
        exact hget0
      · refine RdV.comp u2.h u2.vmap 1 f (lenL ts) 2 (canL ts []).1 ?_ ?_
        · have h1 := hfr2 1 (by rw [hlenh]; omega) (fun j hj => by omega)
          rw [h1]
          exact hget1
        · exact hrd2

/-- C1: round-trip.  For every term readable from the global stack that
`trie_lookup` with `add=TRUE` successfully inserts into a well-formed trie
returning node `n`, `unify_trie_term` on `n` (modelled by
`unify_trie_term_model`) succeeds and materialises exactly the canonical
variant of the inserted term: variables renamed to first-occurrence
ordinals, each ordinal a distinct unbound cell, so the reconstruction is
structurally equal to the insert with variable-sharing identity
preserved. -/
theorem C1_insert_roundtrip (fuel B : Nat) (st st2 : TrieSt)
    (h h2 : List Cell) (k n : Nat) (t : PTerm)
    (hra : ReadsAs h k t) (hwf : WFT st)
    (hrun : trie_lookup fuel st h k true = some (.ok n, st2, h2))
    (hB : st2.next ≤ B) :
    ∃ u2, unify_trie_term_model B st2 n = some u2 ∧
      u2.vmap.Nodup ∧ RdV u2.h u2.vmap 0 (canT t []).1 := by
  unfold trie_lookup at hrun
  cases hw0 : walk_run fuel true ⟨h, [.ad k], 0, 0, st, some 0, .ok⟩ with
  | none =>
    simp only [hw0] at hrun
    cases hrun
  | some s =>
    simp only [hw0] at hrun
    cases hcv : clear_vars fuel s.h k s.vn with
    | none =>
      simp only [hcv] at hrun
      cases hrun
    | some h2' =>
      simp only [hcv] at hrun
      injection hrun with hres
      rw [Prod.mk.injEq, Prod.mk.injEq] at hres
      obtain ⟨hres1, hst2, hh2⟩ := hres
      cases hrc : s.rc with
      | attvar => simp only [hrc] at hres1; cases hres1
      | cyclic => simp only [hrc] at hres1; cases hres1
      | ok =>
        simp only [hrc] at hres1
        cases hnode : s.node with
        | none => simp only [hnode] at hres1; cases hres1
        | some n0 =>
          simp only [hnode] at hres1
          injection hres1 with hn0
          subst hn0
          have hroot : ∃ d, st.nodes 0 = some d := by
            obtain ⟨d0, hd0, _⟩ := hwf.1
            exact ⟨d0, hd0⟩
          have hkeys := walk_run_keys h t fuel
            ⟨h, [.ad k], 0, 0, st, some 0, .ok⟩ s [PendI.tm k t] [] 0
            rfl rfl
            (by
              intro a t' hm
              have he := List.mem_singleton.mp hm
              injection he with h1 h2
              subst h1
              subst h2
              exact ⟨hra, fun v hv => hv⟩)
            ⟨fun e he => absurd he (List.not_mem_nil e), List.nodup_nil⟩
            rfl rfl rfl hwf hroot hw0
          rcases hkeys with hnone | ⟨nfin, hnfin, hag2, hwf2, hnp2, hnx2,
            hex2, htokp, hchain⟩
          · rw [hnode] at hnone; cases hnone
          · rw [hnode] at hnfin
            injection hnfin with hnf
            subst hnf
            rw [← hst2] at hB ⊢
            have htokT : tokOkT (tabOf s.st) t = true := by
              have h1 : (tokOkT (tabOf s.st) t &&
                tokPend (tabOf s.st) []) = true := htokp
              rw [Bool.and_eq_true] at h1
              exact h1.1
            have h0lt : 0 < s.st.next := by
              by_contra hle
              obtain ⟨d0, hd0, _⟩ := hwf2.1
              rw [hwf2.2.2.2 0 (by omega)] at hd0
              cases hd0
            obtain ⟨b, rfl⟩ : ∃ b, B = b + 1 := ⟨B - 1, by omega⟩
            have hroot2 : nodeKeys (b + 1) s.st 0 = [] := by
              obtain ⟨d0, hd0, hpar0⟩ := hwf2.1
              simp only [nodeKeys, hd0, hpar0]
            have hchainB := hchain (b + 1) hB
            simp only [List.map_nil] at hchainB
            rw [hroot2, List.append_nil] at hchainB
            have henc : encPend (tabOf s.st) [PendI.tm k t] [] =
                (encKsT (tabOf s.st) t []).1 ++ [] := rfl
            rw [henc, List.append_nil] at hchainB
            obtain ⟨u2, huk, hnd, hrd⟩ := dec_top (tabOf s.st) t htokT
            refine ⟨u2, ?_, hnd, hrd⟩
            show ukRun (tabOf s.st)
              (nodeKeys (b + 1) s.st n0).reverse
              ⟨[.unbound], 0, false, [], []⟩ = some u2
            rw [hchainB, List.reverse_reverse]
            exact huk

/-- A freshly created trie is well-formed. -/
theorem WFT_empty : WFT emptyTrie := by
  refine ⟨⟨⟨none, .cst 0, none, .empty⟩, rfl, rfl⟩, ?_, ?_, ?_⟩
  · intro p k c hg
    unfold get_child at hg
    by_cases hp : p = 0
    · subst hp
      simp [emptyTrie] at hg
    · simp [emptyTrie, hp] at hg
  · intro x d p hx hp
    by_cases hx0 : x = 0
    · subst hx0
      have hd : d = ⟨none, .cst 0, none, .empty⟩ := by
        have : emptyTrie.nodes 0 = some ⟨none, .cst 0, none, .empty⟩ := rfl
        rw [this] at hx
        injection hx with hx
        exact hx.symm
      rw [hd] at hp
      cases hp
    · have : emptyTrie.nodes x = none := by
        simp [emptyTrie, hx0]
      rw [this] at hx
      cases hx
  · intro x hx
    have hx1 : 1 ≤ x := hx
    have hx0 : ¬ x = 0 := by omega
    simp [emptyTrie, hx0]

/-- The heap `heapFXX` reads as the shared-variable term `f(X, X)`. -/
theorem c1reads : ReadsAs heapFXX 0 tFXX :=
  ReadsAs.comp heapFXX 0 7 2 1
    (.cons (.pvar 1) (.cons (.pvar 1) .nil)) rfl
    (ReadsArgs.cons heapFXX 1 1 (.pvar 1) (.cons (.pvar 1) .nil)
      (ReadsAs.var heapFXX 1 rfl)
      (ReadsArgs.cons heapFXX 0 2 (.pvar 1) .nil
        (ReadsAs.var heapFXX 2 rfl)
        (ReadsArgs.nil heapFXX 3)))

/-- Witness for C1: inserting `f(X, X)` into the empty trie yields node 4,
restores the heap, and the reconstruction from node 4 succeeds with the
canonical shared-variable term. -/
theorem C1_insert_roundtrip_witness :
    trie_lookup 10 emptyTrie heapFXX 0 true =
      some (.ok 4, c1st2, heapFXX) ∧
    ∃ u2, unify_trie_term_model 10 c1st2 4 = some u2 ∧
      u2.vmap.Nodup ∧ RdV u2.h u2.vmap 0 (canT tFXX []).1 :=
  ⟨rfl, C1_insert_roundtrip 10 10 emptyTrie c1st2 heapFXX heapFXX 0 4 tFXX
    c1reads WFT_empty rfl (by decide)⟩

end TrieModel
